import Mathlib

/-!
# Statistics accumulators of `statistics.cpp`

A shallow embedding of the five accumulators (`Min`, `Max`, `Mean`, `Pct90`, `Pct95`)
and of the driver `main`.

Modelling conventions.

* A finite `double` is the rational number it denotes; the finite doubles are the rationals
  `x` with `isDouble x`, all of them between `DBL_LOWEST` and `DBL_MAX`.  The result of a
  `double` operation is a `Dbl`: a rational, `+inf`, `-inf` or NaN.  Every arithmetic operation
  is the exact operation followed by `toDouble`, the IEEE 754 binary64 rounding to nearest
  with ties to even, which overflows to an infinity and rounds gradually to the subnormal
  doubles and to zero.  Each operation of an expression is rounded on its own (no fused
  multiply-add, no extended precision).  The sign of zero is not modelled.
* Comparisons of finite doubles are comparisons of rationals.
* `size_t` is 64 bits wide and `int` is 32 bits wide.  Unsigned arithmetic wraps modulo `2 ^ 64`;
  a conversion to `int` whose result is not representable, a signed overflow and an
  out-of-bounds subscript are undefined behaviour, modelled by `none`.
* `std::sort` on a vector of finite doubles is `List.insertionSort (· ≤ ·)`: on a total order
  the ascending arrangement of a list is unique.
* Standard input is a list of tokens.  A numeric token carries its decimal value; the
  extraction `std::cin >> val` converts it with `toDouble` and fails when the value is out of
  the range of `double`.  A token also records whether its scan ran into the end of the
  input, which is what sets `eofbit`.
-/

namespace Statistics

/-! ## Machine constants -/

/-- The value of `std::numeric_limits<double>::max()`. -/
def DBL_MAX : ℚ := (2 ^ 53 - 1) * 2 ^ 971

/-- The value of `std::numeric_limits<double>::lowest()`. -/
def DBL_LOWEST : ℚ := -DBL_MAX

/-- The finite `double` range. -/
def isFinite (x : ℚ) : Prop := DBL_LOWEST ≤ x ∧ x ≤ DBL_MAX

instance (x : ℚ) : Decidable (isFinite x) := by
  unfold isFinite
  infer_instance

/-- Number of values of `size_t`. -/
def SIZE_MOD : ℕ := 2 ^ 64

/-- Smallest `int`. -/
def INT_MIN : ℤ := -2 ^ 31

/-- Largest `int`. -/
def INT_MAX : ℤ := 2 ^ 31 - 1

/-- The conversion `static_cast<int>(x)` of a `double`: the fractional part is discarded
(truncation toward zero); the behaviour is undefined when the truncated value is not
representable in `int`. -/
def toInt (x : ℚ) : Option ℤ :=
  let t : ℤ := if 0 ≤ x then ⌊x⌋ else ⌈x⌉
  if INT_MIN ≤ t ∧ t ≤ INT_MAX then some t else none

/-- Signed `int` addition `a + b`; overflow is undefined. -/
def addInt (a b : ℤ) : Option ℤ :=
  if INT_MIN ≤ a + b ∧ a + b ≤ INT_MAX then some (a + b) else none

/-- The subscript `v[i]` of a `std::vector<double>` with an `int` index: the index is converted
to `size_t` (modulo `2 ^ 64`), and reading past the end is undefined. -/
def subscript (v : List ℚ) (i : ℤ) : Option ℚ :=
  v[(i % (SIZE_MOD : ℤ)).toNat]?

/-! ## Double arithmetic -/

/-- The value of an expression of type `double`: a finite double (the rational it denotes),
an infinity or NaN. -/
inductive Dbl where
  | fin (q : ℚ)
  | pinf
  | ninf
  | nan
deriving DecidableEq

instance : Coe ℚ Dbl := ⟨Dbl.fin⟩

instance : Zero Dbl := ⟨Dbl.fin 0⟩

/-- The exponent of the spacing of the doubles around `x`: the doubles of magnitude in
`[2 ^ e, 2 ^ (e + 1))` with `e ≥ -1022` are the multiples of `2 ^ (e - 52)`, and the doubles
below `2 ^ (-1022)` in magnitude are the multiples of `2 ^ (-1074)`. -/
def expo (x : ℚ) : ℤ := if x = 0 then -1074 else max (Int.log 2 |x|) (-1022) - 52

/-- The spacing of the doubles around `x`. -/
def quantum (x : ℚ) : ℚ := (2 : ℚ) ^ expo x

/-- Rounding to the nearest integer, a tie going to the even one. -/
def roundHalfEven (q : ℚ) : ℤ :=
  if q - (⌊q⌋ : ℚ) < 1 / 2 then ⌊q⌋
  else if 1 / 2 < q - (⌊q⌋ : ℚ) then ⌊q⌋ + 1
  else if ⌊q⌋ % 2 = 0 then ⌊q⌋ else ⌊q⌋ + 1

/-- Rounding to the nearest multiple of the spacing around `x`, ties to even: the binary64
rounding with the exponent unbounded above. -/
def roundQ (x : ℚ) : ℚ := (roundHalfEven (x / quantum x) : ℚ) * quantum x

/-- The `double` nearest to the exact value `x` (round to nearest, ties to even); a rounded
value beyond `DBL_MAX` in magnitude is an infinity. -/
@[irreducible] def toDouble (x : ℚ) : Dbl :=
  if DBL_MAX < roundQ x then .pinf else if roundQ x < -DBL_MAX then .ninf else .fin (roundQ x)

/-- The rational `x` is (the value of) a finite `double`. -/
def isDouble (x : ℚ) : Prop := toDouble x = .fin x

instance (x : ℚ) : Decidable (isDouble x) := by
  unfold isDouble
  infer_instance

/-- Unary minus on `double`. -/
def Dbl.neg : Dbl → Dbl
  | .fin a => .fin (-a)
  | .pinf => .ninf
  | .ninf => .pinf
  | .nan => .nan

/-- Addition `a + b` on `double`. -/
def Dbl.add : Dbl → Dbl → Dbl
  | .fin a, .fin b => toDouble (a + b)
  | .fin _, .pinf => .pinf
  | .fin _, .ninf => .ninf
  | .pinf, .fin _ => .pinf
  | .pinf, .pinf => .pinf
  | .ninf, .fin _ => .ninf
  | .ninf, .ninf => .ninf
  | _, _ => .nan

/-- Subtraction `a - b` on `double`. -/
def Dbl.sub (a b : Dbl) : Dbl := a.add b.neg

/-- Multiplication `a * b` on `double`. -/
def Dbl.mul : Dbl → Dbl → Dbl
  | .fin a, .fin b => toDouble (a * b)
  | .fin a, .pinf => if 0 < a then .pinf else if a < 0 then .ninf else .nan
  | .fin a, .ninf => if 0 < a then .ninf else if a < 0 then .pinf else .nan
  | .pinf, .fin b => if 0 < b then .pinf else if b < 0 then .ninf else .nan
  | .ninf, .fin b => if 0 < b then .ninf else if b < 0 then .pinf else .nan
  | .pinf, .pinf => .pinf
  | .ninf, .ninf => .pinf
  | .pinf, .ninf => .ninf
  | .ninf, .pinf => .ninf
  | _, _ => .nan

/-- Division `a / b` on `double`. -/
def Dbl.div : Dbl → Dbl → Dbl
  | .fin a, .fin b =>
    if b = 0 then (if 0 < a then .pinf else if a < 0 then .ninf else .nan)
    else toDouble (a / b)
  | .fin _, .pinf => .fin 0
  | .fin _, .ninf => .fin 0
  | .pinf, .fin b => if 0 ≤ b then .pinf else .ninf
  | .ninf, .fin b => if 0 ≤ b then .ninf else .pinf
  | _, _ => .nan

/-- The literal `0.9`: the double nearest to 9/10. -/
def DBL_0_9 : ℚ := 8106479329266893 / 9007199254740992

/-- The literal `0.95`: the double nearest to 19/20. -/
def DBL_0_95 : ℚ := 4278419646001971 / 4503599627370496

/-! ## `class Min` -/

/-- State of a `Min` accumulator. -/
structure Min where
  m_min : ℚ
deriving DecidableEq

/-- Constructor `Min::Min()`. -/
def Min.new : Min := ⟨DBL_MAX⟩

/-- Method `Min::update`. -/
def Min.update (self : Min) (next : ℚ) : Min :=
  if next < self.m_min then ⟨next⟩ else self

/-- Method `Min::eval`. -/
def Min.eval (self : Min) : ℚ := self.m_min

/-- Method `Min::name`. -/
def Min.name (_self : Min) : String := "min"

/-! ## `class Max` -/

/-- State of a `Max` accumulator. -/
structure Max where
  m_max : ℚ
deriving DecidableEq

/-- Constructor `Max::Max()`. -/
def Max.new : Max := ⟨DBL_LOWEST⟩

/-- Method `Max::update`. -/
def Max.update (self : Max) (next : ℚ) : Max :=
  if next > self.m_max then ⟨next⟩ else self

/-- Method `Max::eval`. -/
def Max.eval (self : Max) : ℚ := self.m_max

/-- Method `Max::name`. -/
def Max.name (_self : Max) : String := "max"

/-! ## `class Mean` -/

/-- State of a `Mean` accumulator; `m_sum` is a `double`, `m_count` a `size_t`. -/
structure Mean where
  m_sum : Dbl
  m_count : ℕ
deriving DecidableEq

/-- Constructor `Mean::Mean()`. -/
def Mean.new : Mean := ⟨0, 0⟩

/-- Method `Mean::update`: `m_sum += next; ++m_count;`. -/
def Mean.update (self : Mean) (next : ℚ) : Mean :=
  ⟨self.m_sum.add (.fin next), (self.m_count + 1) % SIZE_MOD⟩

/-- Method `Mean::eval`: `m_count ? m_sum / m_count : 0`; the count is converted to `double`
for the division. -/
def Mean.eval (self : Mean) : Dbl :=
  if self.m_count ≠ 0 then self.m_sum.div (toDouble (self.m_count : ℚ)) else 0

/-- Method `Mean::name`. -/
def Mean.name (_self : Mean) : String := "mean"

/-! ## `class Pct90` and `class Pct95` -/

/-- The vectors in scope in the body of `Pct90::eval` / `Pct95::eval`: the member `sortedArr`
and the local `sortedArrCopy`. -/
structure EvalFrame where
  sortedArr : List ℚ
  sortedArrCopy : List ℚ
deriving DecidableEq

/-- Names of the vectors of an `EvalFrame`. -/
inductive VectorName where
  | sortedArr
  | sortedArrCopy
deriving DecidableEq

/-- The call `std::sort(v.begin(), v.end())` on the vector named `v`: that vector is sorted in
place, the other one is left as it is. -/
def EvalFrame.sort (frame : EvalFrame) : VectorName → EvalFrame
  | .sortedArr => ⟨frame.sortedArr.insertionSort (· ≤ ·), frame.sortedArrCopy⟩
  | .sortedArrCopy => ⟨frame.sortedArr, frame.sortedArrCopy.insertionSort (· ≤ ·)⟩

/-- The conversion `static_cast<int>(x)` of a value of type `double`; converting an infinity
or NaN is undefined. -/
def Dbl.toInt : Dbl → Option ℤ
  | .fin x => Statistics.toInt x
  | _ => none

/-- The part of the body of `Pct90::eval` (with `p` the literal `0.9`) and `Pct95::eval`
(with `p` the literal `0.95`) that follows the sort, on the sorted copy:
`index = p * (size() - 1)` is computed in `double` with the subtraction in `size_t`, and the
result is read from the sorted copy, interpolated in `double` arithmetic when `index` is not
integral.  An `int` operand of a `double` operation is converted to `double`. -/
def percentileOfCopy (p : ℚ) (sortedArrCopy : List ℚ) : Option Dbl :=
  let index : Dbl :=
    (Dbl.fin p).mul (toDouble (((sortedArrCopy.length + (SIZE_MOD - 1)) % SIZE_MOD : ℕ) : ℚ))
  index.toInt.bind fun truncated =>
    if index ≠ toDouble (truncated : ℚ) then
      index.toInt.bind fun lowerIndex =>
      (addInt lowerIndex 1).bind fun upperIndex =>
      (subscript sortedArrCopy lowerIndex).bind fun lowerValue =>
      (subscript sortedArrCopy upperIndex).bind fun upperValue =>
      some ((Dbl.fin lowerValue).add
        ((index.sub (toDouble (lowerIndex : ℚ))).mul
          ((Dbl.fin upperValue).sub (Dbl.fin lowerValue))))
    else
      index.toInt.bind fun i => (subscript sortedArrCopy i).map Dbl.fin

/-- The body shared by `Pct90::eval` and `Pct95::eval` as a transition on the vectors in
scope: the member is copied into the local `sortedArrCopy`, `std::sort` is applied to the
local, and the result is computed from it.  Returns the result and the member `sortedArr` as
the call leaves it. -/
def percentileCall (p : ℚ) (sortedArr : List ℚ) : Option Dbl × List ℚ :=
  let frame : EvalFrame := ⟨sortedArr, sortedArr⟩
  let frame := frame.sort .sortedArrCopy
  (percentileOfCopy p frame.sortedArrCopy, frame.sortedArr)

/-- The value returned by the body shared by `Pct90::eval` and `Pct95::eval`. -/
def percentileEval (p : ℚ) (sortedArr : List ℚ) : Option Dbl :=
  (percentileCall p sortedArr).1

/-- State of a `Pct90` accumulator: the buffer of the values seen, in arrival order. -/
structure Pct90 where
  sortedArr : List ℚ
deriving DecidableEq

/-- Constructor `Pct90::Pct90()`. -/
def Pct90.new : Pct90 := ⟨[]⟩

/-- Method `Pct90::update`: `sortedArr.push_back(next)`. -/
def Pct90.update (self : Pct90) (next : ℚ) : Pct90 := ⟨self.sortedArr ++ [next]⟩

/-- Method `Pct90::eval`. -/
def Pct90.eval (self : Pct90) : Option Dbl := percentileEval DBL_0_9 self.sortedArr

/-- Method `Pct90::name`. -/
def Pct90.name (_self : Pct90) : String := "Pct90"

/-- State of a `Pct95` accumulator: the buffer of the values seen, in arrival order. -/
structure Pct95 where
  sortedArr : List ℚ
deriving DecidableEq

/-- Constructor `Pct95::Pct95()`. -/
def Pct95.new : Pct95 := ⟨[]⟩

/-- Method `Pct95::update`: `sortedArr.push_back(next)`. -/
def Pct95.update (self : Pct95) (next : ℚ) : Pct95 := ⟨self.sortedArr ++ [next]⟩

/-- Method `Pct95::eval`. -/
def Pct95.eval (self : Pct95) : Option Dbl := percentileEval DBL_0_95 self.sortedArr

/-- Method `Pct95::name`. -/
def Pct95.name (_self : Pct95) : String := "Pct95"

/-! ## Feeding a sequence of values -/

/-- A fresh `Min` after `update` was called with each value of `xs` in order. -/
def Min.feed (xs : List ℚ) : Min := xs.foldl Min.update Min.new

/-- A fresh `Max` after `update` was called with each value of `xs` in order. -/
def Max.feed (xs : List ℚ) : Max := xs.foldl Max.update Max.new

/-- A fresh `Mean` after `update` was called with each value of `xs` in order. -/
def Mean.feed (xs : List ℚ) : Mean := xs.foldl Mean.update Mean.new

/-- A fresh `Pct90` after `update` was called with each value of `xs` in order. -/
def Pct90.feed (xs : List ℚ) : Pct90 := xs.foldl Pct90.update Pct90.new

/-- A fresh `Pct95` after `update` was called with each value of `xs` in order. -/
def Pct95.feed (xs : List ℚ) : Pct95 := xs.foldl Pct95.update Pct95.new

/-! ## The interface `IStatistics` -/

/-- The interface `IStatistics`: one of the five accumulators behind a base-class pointer. -/
inductive IStatistics where
  | min (s : Min)
  | max (s : Max)
  | mean (s : Mean)
  | pct90 (s : Pct90)
  | pct95 (s : Pct95)
deriving DecidableEq

/-- Virtual call `update(next)`. -/
def IStatistics.update : IStatistics → ℚ → IStatistics
  | .min s, next => .min (s.update next)
  | .max s, next => .max (s.update next)
  | .mean s, next => .mean (s.update next)
  | .pct90 s, next => .pct90 (s.update next)
  | .pct95 s, next => .pct95 (s.update next)

/-- Virtual call `eval()`; `none` when the call has undefined behaviour. -/
def IStatistics.eval : IStatistics → Option Dbl
  | .min s => some s.eval
  | .max s => some s.eval
  | .mean s => some s.eval
  | .pct90 s => s.eval
  | .pct95 s => s.eval

/-- Virtual call `name()`. -/
def IStatistics.name : IStatistics → String
  | .min s => s.name
  | .max s => s.name
  | .mean s => s.name
  | .pct90 s => s.name
  | .pct95 s => s.name

/-- A call of `eval()` seen as a transition: the value returned and the state the accumulator
is left in.  The bodies of `Min::eval`, `Max::eval` and `Mean::eval` are a single `return` of
an expression over the members; the body of `Pct90::eval` and `Pct95::eval` is
`percentileCall`, and the member is what that body leaves in `sortedArr`. -/
def IStatistics.evalCall : IStatistics → Option Dbl × IStatistics
  | .min s => (some s.eval, .min s)
  | .max s => (some s.eval, .max s)
  | .mean s => (some s.eval, .mean s)
  | .pct90 s =>
    ((percentileCall DBL_0_9 s.sortedArr).1, .pct90 ⟨(percentileCall DBL_0_9 s.sortedArr).2⟩)
  | .pct95 s =>
    ((percentileCall DBL_0_95 s.sortedArr).1, .pct95 ⟨(percentileCall DBL_0_95 s.sortedArr).2⟩)

/-- The values returned by `k` consecutive calls of `eval()`, and the state left after them. -/
def IStatistics.evalRepeat : IStatistics → ℕ → List (Option Dbl) × IStatistics
  | self, 0 => ([], self)
  | self, k + 1 =>
    let r := self.evalCall
    let rest := IStatistics.evalRepeat r.2 k
    (r.1 :: rest.1, rest.2)

/-! ## The driver `main` -/

/-- A whitespace-separated token of standard input, as `std::cin >> val` sees it.
`num v atEof` is a numeric token with decimal value `v`: the extraction converts it to the
nearest `double` and fails (`failbit`) when that is out of range.  `bad atEof` is a malformed
token, on which the extraction fails.  `atEof` tells whether the scan of the token ran into
the end of the input (a number with nothing after it, not even a newline; a lone sign as the
very last character), which sets `eofbit`, or stopped at a character before the end. -/
inductive Token where
  | num (v : ℚ) (atEof : Bool)
  | bad (atEof : Bool)
deriving DecidableEq

/-- The state flags of `std::cin` that `main` tests (`badbit` is never set). -/
structure StreamState where
  eofbit : Bool
  failbit : Bool
deriving DecidableEq

/-- Query `std::cin.eof()`. -/
def StreamState.eof (st : StreamState) : Bool := st.eofbit

/-- Query `std::cin.good()`. -/
def StreamState.good (st : StreamState) : Bool := !st.eofbit && !st.failbit

/-- The constant `statistics_count`. -/
def statistics_count : ℕ := 5

/-- The array `statistics` as `main` fills it. -/
def statistics : List IStatistics :=
  [.min Min.new, .max Max.new, .mean Mean.new, .pct90 Pct90.new, .pct95 Pct95.new]

/-- The inner loop `for (i = 0; i < statistics_count; ++i) statistics[i]->update(val)`. -/
def updateAll (stats : List IStatistics) (val : ℚ) : List IStatistics :=
  stats.map fun s => s.update val

/-- The loop `while (std::cin >> val) { ... }`: the accumulators and the stream flags when the
loop is left.  At the end of the input the extraction sets `eofbit` and `failbit`.  A numeric
token in range is extracted and forwarded; when its scan reached the end of the input,
`eofbit` is set and the next extraction fails at once.  At a token on which the extraction
fails `failbit` is set, and `eofbit` when the scan reached the end of the input. -/
def readLoop : List Token → List IStatistics → List IStatistics × StreamState
  | [], stats => (stats, ⟨true, true⟩)
  | .num v atEof :: rest, stats =>
    match toDouble v with
    | .fin val =>
      if atEof then (updateAll stats val, ⟨true, true⟩) else readLoop rest (updateAll stats val)
    | _ => (stats, ⟨atEof, true⟩)
  | .bad atEof :: _, stats => (stats, ⟨atEof, true⟩)

/-- A line `name = value` written to standard output (the formatting of the value is not
modelled). -/
structure Line where
  name : String
  value : Dbl
deriving DecidableEq

/-- What a run of `main` does: it returns `code` having written `stdout` and `stderr`, or it
reaches an `eval()` with undefined behaviour after having written `stdout`. -/
inductive Outcome where
  | exit (code : ℤ) (stdout : List Line) (stderr : List String)
  | undefined (stdout : List Line)
deriving DecidableEq

/-- The reporting loop of `main` followed by `return 0`; `out` is what was written so far. -/
def report : List IStatistics → List Line → Outcome
  | [], out => .exit 0 out []
  | s :: rest, out =>
    match s.eval with
    | some v => report rest (out ++ [⟨s.name, v⟩])
    | none => .undefined out

/-- The function `main` on the tokens of standard input. -/
def main (input : List Token) : Outcome :=
  let r := readLoop input statistics
  if !r.2.eof && !r.2.good then
    .exit 1 [] ["Invalid input data\n"]
  else
    report r.1 []

/-! ## The percentile of the specification -/

/-- The interpolated percentile as the specification words it, on the ascending arrangement
`sorted` of the values: with `n` the number of values and `r = p * (n - 1)`, the result is
`sorted[r]` when `r` is an integer and otherwise
`sorted[floor r] + (r - floor r) * (sorted[floor r + 1] - sorted[floor r])`.
The result is `none` when a position it names does not exist. -/
def specPercentile (p : ℚ) (sorted : List ℚ) : Option ℚ :=
  let r : ℚ := p * ((sorted.length : ℚ) - 1)
  if r = (⌊r⌋ : ℚ) then
    sorted[⌊r⌋.toNat]?
  else
    (sorted[⌊r⌋.toNat]?).bind fun lower =>
    (sorted[⌊r⌋.toNat + 1]?).bind fun upper =>
    some (lower + (r - (⌊r⌋ : ℚ)) * (upper - lower))

/-- The interpolated percentile of the specification with every operation carried out in
`double` arithmetic: the positions are those of the exact rank `r = p * (n - 1)`, the rank
used in the interpolation is the double product of the literal `pd` (the double nearest to
`p`) and `n - 1`, and the subtractions, the multiplication and the addition are rounded. -/
def specPercentileDouble (p pd : ℚ) (sorted : List ℚ) : Option Dbl :=
  let r : ℚ := p * ((sorted.length : ℚ) - 1)
  if r = (⌊r⌋ : ℚ) then
    (sorted[⌊r⌋.toNat]?).map Dbl.fin
  else
    (sorted[⌊r⌋.toNat]?).bind fun lower =>
    (sorted[⌊r⌋.toNat + 1]?).bind fun upper =>
    some ((Dbl.fin lower).add
      (((toDouble (pd * ((sorted.length : ℚ) - 1))).sub (Dbl.fin (⌊r⌋ : ℚ))).mul
        ((Dbl.fin upper).sub (Dbl.fin lower))))

/-- The value of the interpolation `lower + (index - lowerIndex) * (upper - lower)` carried
out in `double` arithmetic when no operation overflows: each of the four operations is
rounded. -/
def interpRounded (lower upper index : ℚ) (lowerIndex : ℤ) : ℚ :=
  roundQ (lower + roundQ (roundQ (index - (lowerIndex : ℚ)) * roundQ (upper - lower)))

/-- Starting from the running sum `acc`, every addition of the next value of the sequence
is exact: each new running sum is a finite `double`. -/
def exactSumsFrom (acc : ℚ) : List ℚ → Prop
  | [] => True
  | x :: xs => isDouble (acc + x) ∧ exactSumsFrom (acc + x) xs

/-- Deciding `exactSumsFrom`. -/
def decExactSumsFrom : (acc : ℚ) → (xs : List ℚ) → Decidable (exactSumsFrom acc xs)
  | _, [] => isTrue trivial
  | acc, x :: xs =>
    match decExactSumsFrom (acc + x) xs with
    | isTrue h2 =>
      if h1 : isDouble (acc + x) then isTrue ⟨h1, h2⟩ else isFalse fun h => h1 h.1
    | isFalse h2 => isFalse fun h => h2 h.2

instance (acc : ℚ) (xs : List ℚ) : Decidable (exactSumsFrom acc xs) := decExactSumsFrom acc xs

/-- Every partial sum of `xs` (the sum of a non-empty prefix) is a finite `double`, so that no
addition to the running sum of `Mean` rounds. -/
def exactSums (xs : List ℚ) : Prop := exactSumsFrom 0 xs

instance (xs : List ℚ) : Decidable (exactSums xs) := decExactSumsFrom 0 xs

/-- The input made of the numeric tokens with decimal values `vs`, a clean end of input after
them; `lastAtEof` tells whether the last number is directly followed by the end of the input
(`true`) or by white space (`false`). -/
def numericInput : List ℚ → Bool → List Token
  | [], _ => []
  | [v], lastAtEof => [.num v lastAtEof]
  | v :: w :: rest, lastAtEof => .num v false :: numericInput (w :: rest) lastAtEof

/-! ## The subscripts of the percentile computation -/

/-- The sentinel `+∞` of the specification: a value strictly above every finite `double`. -/
def isPlusInfinity (x : ℚ) : Prop := ∀ y, isFinite y → y < x

/-- The sentinel `−∞` of the specification: a value strictly below every finite `double`. -/
def isMinusInfinity (x : ℚ) : Prop := ∀ y, isFinite y → x < y

/-! ## Facts about `Min` and `Max` -/

theorem DBL_MAX_pos : 0 < DBL_MAX := by
  unfold DBL_MAX
  positivity

theorem min_foldl_update_le_init (xs : List ℚ) (s : Min) :
    (xs.foldl Min.update s).m_min ≤ s.m_min := by
  induction xs generalizing s with
  | nil => simp
  | cons x xs ih =>
    simp only [List.foldl_cons]
    refine le_trans (ih _) ?_
    unfold Min.update
    split_ifs with h
    · exact le_of_lt h
    · exact le_refl _

theorem min_foldl_update_le_mem (xs : List ℚ) (s : Min) :
    ∀ x ∈ xs, (xs.foldl Min.update s).m_min ≤ x := by
  induction xs generalizing s with
  | nil => simp
  | cons y ys ih =>
    intro x hx
    simp only [List.foldl_cons]
    rcases List.mem_cons.mp hx with rfl | hx
    · refine le_trans (min_foldl_update_le_init ys _) ?_
      unfold Min.update
      split_ifs with h
      · exact le_refl _
      · exact not_lt.mp h
    · exact ih _ x hx

theorem min_foldl_update_mem (xs : List ℚ) (s : Min) :
    (xs.foldl Min.update s).m_min = s.m_min ∨ (xs.foldl Min.update s).m_min ∈ xs := by
  induction xs generalizing s with
  | nil => simp
  | cons y ys ih =>
    simp only [List.foldl_cons]
    rcases ih (s.update y) with h | h
    · rw [h]
      unfold Min.update
      split_ifs
      · right; simp
      · left; rfl
    · right
      exact List.mem_cons_of_mem _ h

theorem max_foldl_update_ge_init (xs : List ℚ) (s : Max) :
    s.m_max ≤ (xs.foldl Max.update s).m_max := by
  induction xs generalizing s with
  | nil => simp
  | cons x xs ih =>
    simp only [List.foldl_cons]
    refine le_trans ?_ (ih _)
    unfold Max.update
    split_ifs with h
    · exact le_of_lt h
    · exact le_refl _

theorem max_foldl_update_ge_mem (xs : List ℚ) (s : Max) :
    ∀ x ∈ xs, x ≤ (xs.foldl Max.update s).m_max := by
  induction xs generalizing s with
  | nil => simp
  | cons y ys ih =>
    intro x hx
    simp only [List.foldl_cons]
    rcases List.mem_cons.mp hx with rfl | hx
    · refine le_trans ?_ (max_foldl_update_ge_init ys _)
      unfold Max.update
      split_ifs with h
      · exact le_refl _
      · exact not_lt.mp h
    · exact ih _ x hx

theorem max_foldl_update_mem (xs : List ℚ) (s : Max) :
    (xs.foldl Max.update s).m_max = s.m_max ∨ (xs.foldl Max.update s).m_max ∈ xs := by
  induction xs generalizing s with
  | nil => simp
  | cons y ys ih =>
    simp only [List.foldl_cons]
    rcases ih (s.update y) with h | h
    · rw [h]
      unfold Max.update
      split_ifs
      · right; simp
      · left; rfl
    · right
      exact List.mem_cons_of_mem _ h

theorem min_feed_le (xs : List ℚ) : ∀ x ∈ xs, (Min.feed xs).eval ≤ x :=
  min_foldl_update_le_mem xs Min.new

theorem min_feed_mem (xs : List ℚ) (hne : xs ≠ []) (hfin : ∀ x ∈ xs, x ≤ DBL_MAX) :
    (Min.feed xs).eval ∈ xs := by
  rcases min_foldl_update_mem xs Min.new with h | h
  · obtain ⟨y, hy⟩ := List.exists_mem_of_ne_nil xs hne
    have h1 : (Min.feed xs).eval ≤ y := min_feed_le xs y hy
    have h2 : y ≤ DBL_MAX := hfin y hy
    have h3 : (Min.feed xs).eval = DBL_MAX := h
    have h4 : y = (Min.feed xs).eval := le_antisymm (h3 ▸ h2) h1
    exact h4 ▸ hy
  · exact h

theorem max_feed_ge (xs : List ℚ) : ∀ x ∈ xs, x ≤ (Max.feed xs).eval :=
  max_foldl_update_ge_mem xs Max.new

theorem max_feed_mem (xs : List ℚ) (hne : xs ≠ []) (hfin : ∀ x ∈ xs, DBL_LOWEST ≤ x) :
    (Max.feed xs).eval ∈ xs := by
  rcases max_foldl_update_mem xs Max.new with h | h
  · obtain ⟨y, hy⟩ := List.exists_mem_of_ne_nil xs hne
    have h1 : y ≤ (Max.feed xs).eval := max_feed_ge xs y hy
    have h2 : DBL_LOWEST ≤ y := hfin y hy
    have h3 : (Max.feed xs).eval = DBL_LOWEST := h
    have h4 : y = (Max.feed xs).eval := le_antisymm h1 (h3 ▸ h2)
    exact h4 ▸ hy
  · exact h

/-! ## Facts about rounding to `double` -/

/-! ## Rounding to an integer -/

theorem roundHalfEven_cases (q : ℚ) : roundHalfEven q = ⌊q⌋ ∨ roundHalfEven q = ⌊q⌋ + 1 := by
  unfold roundHalfEven
  split_ifs <;> simp

theorem roundHalfEven_sub_le (q : ℚ) : |(roundHalfEven q : ℚ) - q| ≤ 1 / 2 := by
  have h1 := Int.floor_le q
  have h2 := Int.lt_floor_add_one q
  unfold roundHalfEven
  rw [abs_le]
  split_ifs with ha hb hc <;> push_cast <;> constructor <;> linarith

theorem roundHalfEven_intCast (m : ℤ) : roundHalfEven (m : ℚ) = m := by
  unfold roundHalfEven
  simp

theorem roundHalfEven_eq_of_near (q : ℚ) (m : ℤ) (h : |q - (m : ℚ)| < 1 / 2) :
    roundHalfEven q = m := by
  rw [abs_lt] at h
  have h1 := roundHalfEven_sub_le q
  rw [abs_le] at h1
  have h2 : ((roundHalfEven q - m : ℤ) : ℚ) < 1 := by push_cast; linarith
  have h3 : (-1 : ℚ) < ((roundHalfEven q - m : ℤ) : ℚ) := by push_cast; linarith
  have h4 : roundHalfEven q - m < 1 := by exact_mod_cast h2
  have h5 : -1 < roundHalfEven q - m := by exact_mod_cast h3
  omega

theorem roundHalfEven_mono {a b : ℚ} (h : a ≤ b) : roundHalfEven a ≤ roundHalfEven b := by
  have hfl : ⌊a⌋ ≤ ⌊b⌋ := Int.floor_mono h
  rcases eq_or_lt_of_le hfl with heq | hlt
  · unfold roundHalfEven
    rw [← heq]
    split_ifs <;> first | omega | (exfalso; linarith)
  · rcases roundHalfEven_cases a with ha | ha <;> rcases roundHalfEven_cases b with hb | hb <;>
      omega

theorem roundHalfEven_le_of_le {x : ℚ} {m : ℤ} (h : x ≤ (m : ℚ)) : roundHalfEven x ≤ m := by
  have := roundHalfEven_mono h
  rwa [roundHalfEven_intCast] at this

theorem roundHalfEven_ge_of_ge {x : ℚ} {m : ℤ} (h : (m : ℚ) ≤ x) : m ≤ roundHalfEven x := by
  have := roundHalfEven_mono h
  rwa [roundHalfEven_intCast] at this

/-! ## The spacing of the doubles -/

theorem quantum_pos (x : ℚ) : 0 < quantum x := by
  unfold quantum
  positivity

theorem expo_ge (x : ℚ) : -1074 ≤ expo x := by
  unfold expo
  split_ifs
  · exact le_refl _
  · have := le_max_right (Int.log 2 |x|) (-1022)
    omega

theorem expo_neg (x : ℚ) : expo (-x) = expo x := by
  unfold expo
  simp only [neg_eq_zero, abs_neg]

theorem quantum_neg (x : ℚ) : quantum (-x) = quantum x := by
  unfold quantum
  rw [expo_neg]

theorem abs_lt_zpow_expo (x : ℚ) : |x| < (2 : ℚ) ^ (expo x + 53) := by
  unfold expo
  split_ifs with h
  · rw [h, abs_zero]
    positivity
  · have h1 : |x| < ((2 : ℕ) : ℚ) ^ (Int.log 2 |x| + 1) := Int.lt_zpow_succ_log_self (by norm_num) _
    have h2 : Int.log 2 |x| + 1 ≤ max (Int.log 2 |x|) (-1022) - 52 + 53 := by
      have := le_max_left (Int.log 2 |x|) (-1022)
      omega
    have h3 : ((2 : ℕ) : ℚ) ^ (Int.log 2 |x| + 1) ≤
        (2 : ℚ) ^ (max (Int.log 2 |x|) (-1022) - 52 + 53) := by
      push_cast
      exact zpow_le_zpow_right₀ (by norm_num) h2
    exact lt_of_lt_of_le h1 h3

theorem zpow_expo_le_abs (x : ℚ) (h : -1074 < expo x) : (2 : ℚ) ^ (expo x + 52) ≤ |x| := by
  unfold expo at h ⊢
  split_ifs at h ⊢ with h0
  · omega
  · have hpos : 0 < |x| := abs_pos.mpr h0
    have hlog : max (Int.log 2 |x|) (-1022) = Int.log 2 |x| := by
      apply max_eq_left
      by_contra hc
      rw [max_eq_right (by omega)] at h
      omega
    rw [hlog]
    have h1 : ((2 : ℕ) : ℚ) ^ Int.log 2 |x| ≤ |x| := Int.zpow_log_le_self (by norm_num) hpos
    have h2 : Int.log 2 |x| - 52 + 52 = Int.log 2 |x| := by omega
    rw [h2]
    exact_mod_cast h1

theorem expo_le_of_abs_lt (x : ℚ) (e : ℤ) (he : -1074 ≤ e) (h : |x| < (2 : ℚ) ^ (e + 53)) :
    expo x ≤ e := by
  unfold expo
  split_ifs with h0
  · exact he
  · have hpos : 0 < |x| := abs_pos.mpr h0
    have h1 : |x| < ((2 : ℕ) : ℚ) ^ (e + 53) := by exact_mod_cast h
    have h2 : Int.log 2 |x| < e + 53 := (Int.lt_zpow_iff_log_lt (by norm_num) hpos).mp h1
    have h3 : max (Int.log 2 |x|) (-1022) ≤ e + 52 := max_le (by omega) (by omega)
    omega

theorem expo_mono {a b : ℚ} (h : |a| ≤ |b|) : expo a ≤ expo b :=
  expo_le_of_abs_lt a (expo b) (expo_ge b) (lt_of_le_of_lt h (abs_lt_zpow_expo b))

theorem zpow_two_eq_intCast (n : ℤ) (h : 0 ≤ n) : ∃ N : ℤ, (2 : ℚ) ^ n = (N : ℚ) ∧ 0 < N := by
  refine ⟨2 ^ n.toNat, ?_, by positivity⟩
  have : n = (n.toNat : ℤ) := (Int.toNat_of_nonneg h).symm
  conv_lhs => rw [this]
  rw [zpow_natCast]
  push_cast
  rfl

/-! ## Rounding to the grid of the doubles -/

theorem roundQ_zero : roundQ 0 = 0 := by
  unfold roundQ
  simp [roundHalfEven_intCast, show roundHalfEven 0 = 0 from by
    have := roundHalfEven_intCast 0
    simpa using this]

theorem roundQ_eq_mul (x : ℚ) : roundQ x = (roundHalfEven (x / quantum x) : ℚ) * quantum x := rfl

theorem roundQ_sub_le (x : ℚ) : |roundQ x - x| ≤ quantum x / 2 := by
  have hq := quantum_pos x
  have h := roundHalfEven_sub_le (x / quantum x)
  have e : roundQ x - x = ((roundHalfEven (x / quantum x) : ℚ) - x / quantum x) * quantum x := by
    rw [roundQ_eq_mul]
    field_simp
  rw [e, abs_mul, abs_of_pos hq]
  calc |(roundHalfEven (x / quantum x) : ℚ) - x / quantum x| * quantum x
      ≤ 1 / 2 * quantum x := mul_le_mul_of_nonneg_right h (le_of_lt hq)
    _ = quantum x / 2 := by ring

theorem roundQ_of_grid (x : ℚ) (m e : ℤ) (hx : x = (m : ℚ) * (2 : ℚ) ^ e) (he : expo x ≤ e) :
    roundQ x = x := by
  obtain ⟨N, hN, _⟩ := zpow_two_eq_intCast (e - expo x) (by omega)
  have hq : x / quantum x = ((m * N : ℤ) : ℚ) := by
    unfold quantum
    generalize expo x = E at hN
    have hE : (2 : ℚ) ^ E ≠ 0 := by positivity
    push_cast
    rw [← hN, zpow_sub₀ (by norm_num : (2 : ℚ) ≠ 0), hx]
    field_simp
  rw [roundQ_eq_mul, hq, roundHalfEven_intCast, ← hq]
  field_simp [ne_of_gt (quantum_pos x)]

theorem roundQ_dyadic (m e : ℤ) (hm : |m| < 2 ^ 53) (he : -1074 ≤ e) :
    roundQ ((m : ℚ) * (2 : ℚ) ^ e) = (m : ℚ) * (2 : ℚ) ^ e := by
  apply roundQ_of_grid _ m e rfl
  apply expo_le_of_abs_lt _ e he
  have h2 : (0 : ℚ) < (2 : ℚ) ^ e := by positivity
  rw [abs_mul, abs_of_pos h2, zpow_add₀ (by norm_num : (2 : ℚ) ≠ 0), mul_comm ((2 : ℚ) ^ e)]
  apply mul_lt_mul_of_pos_right _ h2
  have : ((|m| : ℤ) : ℚ) < ((2 ^ 53 : ℤ) : ℚ) := by exact_mod_cast hm
  push_cast at this
  have h53 : (2 : ℚ) ^ (53 : ℤ) = 2 ^ 53 := by norm_num
  rw [h53]
  exact this

theorem roundHalfEven_neg (q : ℚ) : roundHalfEven (-q) = -roundHalfEven q := by
  by_cases hint : q = (⌊q⌋ : ℚ)
  · rw [hint, ← Int.cast_neg, roundHalfEven_intCast, roundHalfEven_intCast]
  · have h1 := Int.floor_le q
    have h2 := Int.lt_floor_add_one q
    have h3 : (⌊q⌋ : ℚ) < q := lt_of_le_of_ne h1 (fun h => hint h.symm)
    have hf : ⌊-q⌋ = -⌊q⌋ - 1 := by
      rw [Int.floor_eq_iff]
      push_cast
      constructor <;> linarith
    unfold roundHalfEven
    rw [hf]
    push_cast
    split_ifs <;> first | omega | (exfalso; linarith)

theorem roundQ_neg (x : ℚ) : roundQ (-x) = -roundQ x := by
  unfold roundQ
  rw [quantum_neg, neg_div, roundHalfEven_neg]
  push_cast
  ring

theorem roundQ_le_of_le (x g : ℚ) (hg : roundQ g = g) (h : x ≤ g) : roundQ x ≤ g := by
  have hqx := quantum_pos x
  rcases le_or_lt (expo x) (expo g) with hle | hlt
  · obtain ⟨N, hN, _⟩ := zpow_two_eq_intCast (expo g - expo x) (by omega)
    have hgq : g / quantum x = ((roundHalfEven (g / quantum g) * N : ℤ) : ℚ) := by
      have hgg : g = (roundHalfEven (g / quantum g) : ℚ) * quantum g := by
        conv_lhs => rw [← hg]
        rfl
      have hx0 : (2 : ℚ) ^ expo x ≠ 0 := by positivity
      push_cast
      rw [← hN, zpow_sub₀ (by norm_num : (2 : ℚ) ≠ 0)]
      conv_lhs => rw [hgg]
      unfold quantum
      field_simp
    have hdiv : x / quantum x ≤ g / quantum x := div_le_div_of_nonneg_right h (le_of_lt hqx)
    rw [hgq] at hdiv
    have hr := roundHalfEven_le_of_le hdiv
    have hr' : (roundHalfEven (x / quantum x) : ℚ) ≤
        ((roundHalfEven (g / quantum g) * N : ℤ) : ℚ) := by exact_mod_cast hr
    rw [roundQ_eq_mul]
    calc (roundHalfEven (x / quantum x) : ℚ) * quantum x
        ≤ ((roundHalfEven (g / quantum g) * N : ℤ) : ℚ) * quantum x :=
          mul_le_mul_of_nonneg_right hr' (le_of_lt hqx)
      _ = g := by rw [← hgq]; field_simp
  · have hxneg : x < 0 := by
      by_contra hc
      push_neg at hc
      have : |x| ≤ |g| := by
        rw [abs_of_nonneg hc, abs_of_nonneg (le_trans hc h)]
        exact h
      have := expo_mono this
      omega
    have hge := expo_ge g
    have hlow := zpow_expo_le_abs x (by omega)
    rw [abs_of_neg hxneg] at hlow
    have hb : x / quantum x ≤ ((-(2 ^ 52) : ℤ) : ℚ) := by
      rw [div_le_iff₀ hqx]
      unfold quantum
      push_cast
      have : (2 : ℚ) ^ (expo x + 52) = 2 ^ 52 * (2 : ℚ) ^ expo x := by
        rw [zpow_add₀ (by norm_num : (2 : ℚ) ≠ 0)]
        norm_num
        ring
      linarith
    have hr := roundHalfEven_le_of_le hb
    have hr' : (roundHalfEven (x / quantum x) : ℚ) ≤ ((-(2 ^ 52) : ℤ) : ℚ) := by
      exact_mod_cast hr
    have h1 : roundQ x ≤ -(2 : ℚ) ^ (expo x + 52) := by
      rw [roundQ_eq_mul]
      have e : -(2 : ℚ) ^ (expo x + 52) = ((-(2 ^ 52) : ℤ) : ℚ) * quantum x := by
        unfold quantum
        rw [zpow_add₀ (by norm_num : (2 : ℚ) ≠ 0)]
        push_cast
        norm_num
        ring
      rw [e]
      exact mul_le_mul_of_nonneg_right hr' (le_of_lt hqx)
    have h2 : |g| < (2 : ℚ) ^ (expo x + 52) := by
      have := abs_lt_zpow_expo g
      have h3 : (2 : ℚ) ^ (expo g + 53) ≤ (2 : ℚ) ^ (expo x + 52) :=
        zpow_le_zpow_right₀ (by norm_num) (by omega)
      linarith
    have h3 := neg_abs_le g
    linarith

theorem roundQ_ge_of_ge (x g : ℚ) (hg : roundQ g = g) (h : g ≤ x) : g ≤ roundQ x := by
  have h1 : roundQ (-g) = -g := by rw [roundQ_neg, hg]
  have h2 := roundQ_le_of_le (-x) (-g) h1 (by linarith)
  rw [roundQ_neg] at h2
  linarith

theorem roundQ_zpow (e : ℤ) (he : -1074 ≤ e) : roundQ ((2 : ℚ) ^ e) = (2 : ℚ) ^ e := by
  have := roundQ_dyadic 1 e (by norm_num) he
  simpa using this

theorem roundQ_mono {x y : ℚ} (h : x ≤ y) : roundQ x ≤ roundQ y := by
  by_cases he : expo x = expo y
  · have hq : quantum x = quantum y := by unfold quantum; rw [he]
    have hqy := quantum_pos y
    rw [roundQ_eq_mul, roundQ_eq_mul, hq]
    have hdiv : x / quantum y ≤ y / quantum y := div_le_div_of_nonneg_right h (le_of_lt hqy)
    have hr : (roundHalfEven (x / quantum y) : ℚ) ≤ (roundHalfEven (y / quantum y) : ℚ) := by
      exact_mod_cast roundHalfEven_mono hdiv
    exact mul_le_mul_of_nonneg_right hr (le_of_lt hqy)
  · have key : ∃ g, roundQ g = g ∧ x ≤ g ∧ g ≤ y := by
      rcases lt_or_le 0 x with hx | hx
      · have hy : 0 < y := lt_of_lt_of_le hx h
        have hxy : expo x ≤ expo y :=
          expo_mono (by rw [abs_of_pos hx, abs_of_pos hy]; exact h)
        have hlt : expo x < expo y := lt_of_le_of_ne hxy he
        have hge := expo_ge x
        refine ⟨(2 : ℚ) ^ (expo y + 52), roundQ_zpow _ (by omega), ?_, ?_⟩
        · have h1 := abs_lt_zpow_expo x
          rw [abs_of_pos hx] at h1
          have h2 : (2 : ℚ) ^ (expo x + 53) ≤ (2 : ℚ) ^ (expo y + 52) :=
            zpow_le_zpow_right₀ (by norm_num) (by omega)
          linarith
        · have h1 := zpow_expo_le_abs y (by omega)
          rwa [abs_of_pos hy] at h1
      · rcases le_or_lt 0 y with hy | hy
        · exact ⟨0, roundQ_zero, hx, hy⟩
        · have hx' : x < 0 := lt_of_le_of_lt h hy
          have hxy : expo y ≤ expo x :=
            expo_mono (by rw [abs_of_neg hx', abs_of_neg hy]; linarith)
          have hlt : expo y < expo x := lt_of_le_of_ne hxy (fun h' => he h'.symm)
          have hge := expo_ge y
          refine ⟨-(2 : ℚ) ^ (expo x + 52), ?_, ?_, ?_⟩
          · rw [roundQ_neg, roundQ_zpow _ (by omega)]
          · have h1 := zpow_expo_le_abs x (by omega)
            rw [abs_of_neg hx'] at h1
            linarith
          · have h1 := abs_lt_zpow_expo y
            rw [abs_of_neg hy] at h1
            have h2 : (2 : ℚ) ^ (expo y + 53) ≤ (2 : ℚ) ^ (expo x + 52) :=
              zpow_le_zpow_right₀ (by norm_num) (by omega)
            linarith
    obtain ⟨g, hg, hxg, hgy⟩ := key
    exact le_trans (roundQ_le_of_le x g hg hxg) (roundQ_ge_of_ge y g hg hgy)

theorem roundQ_idem (x : ℚ) : roundQ (roundQ x) = roundQ x := by
  have hq := quantum_pos x
  have habs := abs_lt_zpow_expo x
  rw [abs_lt] at habs
  have hpow : (2 : ℚ) ^ (expo x + 53) = ((2 ^ 53 : ℤ) : ℚ) * quantum x := by
    unfold quantum
    rw [zpow_add₀ (by norm_num : (2 : ℚ) ≠ 0)]
    push_cast
    norm_num
    ring
  have h1 : x / quantum x ≤ ((2 ^ 53 : ℤ) : ℚ) := by
    rw [div_le_iff₀ hq]
    linarith
  have h2 : ((-(2 ^ 53) : ℤ) : ℚ) ≤ x / quantum x := by
    rw [le_div_iff₀ hq]
    push_cast at hpow ⊢
    linarith
  have hM1 := roundHalfEven_le_of_le h1
  have hM2 := roundHalfEven_ge_of_ge h2
  set M := roundHalfEven (x / quantum x) with hM
  have hval : roundQ x = (M : ℚ) * (2 : ℚ) ^ expo x := rfl
  have hge := expo_ge x
  rcases lt_or_eq_of_le hM1 with hlt | heq
  · rcases lt_or_eq_of_le hM2 with hlt2 | heq2
    · rw [hval]
      exact roundQ_dyadic M (expo x) (by rw [abs_lt]; constructor <;> omega) hge
    · have e : roundQ x = -(2 : ℚ) ^ (expo x + 53) := by
        rw [hval, ← heq2, hpow]
        unfold quantum
        push_cast
        ring
      rw [e, roundQ_neg, roundQ_zpow _ (by omega)]
  · have e : roundQ x = (2 : ℚ) ^ (expo x + 53) := by
      rw [hval, heq, hpow]
      rfl
    rw [e, roundQ_zpow _ (by omega)]

/-! ## Doubles -/

theorem toDouble_of_abs_le (x : ℚ) (h : |roundQ x| ≤ DBL_MAX) :
    toDouble x = Dbl.fin (roundQ x) := by
  rw [abs_le] at h
  unfold toDouble
  rw [if_neg (not_lt.mpr h.2), if_neg (not_lt.mpr h.1)]

theorem isDouble_iff (g : ℚ) : isDouble g ↔ roundQ g = g ∧ |g| ≤ DBL_MAX := by
  unfold isDouble toDouble
  constructor
  · intro h
    split_ifs at h with h1 h2
    have e : roundQ g = g := by
      injection h
    refine ⟨e, ?_⟩
    rw [e] at h1 h2
    rw [abs_le]
    constructor <;> linarith
  · rintro ⟨e, h⟩
    rw [abs_le] at h
    rw [e, if_neg (not_lt.mpr h.2), if_neg (not_lt.mpr h.1)]

theorem isDouble_neg (g : ℚ) (h : isDouble g) : isDouble (-g) := by
  rw [isDouble_iff] at h ⊢
  rw [roundQ_neg, h.1, abs_neg]
  exact ⟨rfl, h.2⟩

theorem isDouble_zero : isDouble 0 := by
  rw [isDouble_iff, abs_zero]
  exact ⟨roundQ_zero, by unfold DBL_MAX; norm_num⟩

theorem isDouble_dyadic (m e : ℤ) (hm : |m| < 2 ^ 53) (he : -1074 ≤ e)
    (hmax : |(m : ℚ) * (2 : ℚ) ^ e| ≤ DBL_MAX) : isDouble ((m : ℚ) * (2 : ℚ) ^ e) := by
  rw [isDouble_iff]
  exact ⟨roundQ_dyadic m e hm he, hmax⟩

theorem isDouble_intCast (m : ℤ) (hm : |m| < 2 ^ 53) : isDouble (m : ℚ) := by
  have h := isDouble_dyadic m 0 hm (by norm_num)
  simp only [zpow_zero, mul_one] at h
  apply h
  have h1 : ((|m| : ℤ) : ℚ) < ((2 ^ 53 : ℤ) : ℚ) := by exact_mod_cast hm
  push_cast at h1
  have h2 : (2 : ℚ) ^ 53 ≤ DBL_MAX := by unfold DBL_MAX; norm_num
  linarith

theorem isDouble_natCast (n : ℕ) (hn : n < 2 ^ 53) : isDouble (n : ℚ) := by
  have := isDouble_intCast (n : ℤ) (by rw [abs_of_nonneg (by positivity)]; exact_mod_cast hn)
  simpa using this

theorem isDouble_DBL_MAX : isDouble DBL_MAX := by
  have h := isDouble_dyadic (2 ^ 53 - 1) 971 (by norm_num) (by norm_num)
  have e : (((2 ^ 53 - 1 : ℤ) : ℚ)) * (2 : ℚ) ^ (971 : ℤ) = DBL_MAX := by
    unfold DBL_MAX
    norm_num
  rw [e] at h
  apply h
  rw [abs_of_nonneg]
  unfold DBL_MAX
  norm_num

theorem isDouble_roundQ (x : ℚ) (h : |roundQ x| ≤ DBL_MAX) : isDouble (roundQ x) := by
  rw [isDouble_iff]
  exact ⟨roundQ_idem x, h⟩

theorem toDouble_between (x lo hi : ℚ) (hlo : isDouble lo) (hhi : isDouble hi) (h1 : lo ≤ x)
    (h2 : x ≤ hi) :
    toDouble x = Dbl.fin (roundQ x) ∧ isDouble (roundQ x) ∧ lo ≤ roundQ x ∧ roundQ x ≤ hi := by
  rw [isDouble_iff] at hlo hhi
  have a := roundQ_ge_of_ge x lo hlo.1 h1
  have b := roundQ_le_of_le x hi hhi.1 h2
  have hl := abs_le.mp hlo.2
  have hh := abs_le.mp hhi.2
  have hab : |roundQ x| ≤ DBL_MAX := by
    rw [abs_le]
    constructor <;> linarith
  exact ⟨toDouble_of_abs_le x hab, isDouble_roundQ x hab, a, b⟩

theorem toDouble_overflow (x : ℚ) (h : (2 : ℚ) ^ 1024 ≤ x) : toDouble x = Dbl.pinf := by
  have hg : roundQ ((2 : ℚ) ^ (1024 : ℤ)) = (2 : ℚ) ^ (1024 : ℤ) := roundQ_zpow 1024 (by norm_num)
  have h' : (2 : ℚ) ^ (1024 : ℤ) ≤ x := by
    have : (2 : ℚ) ^ (1024 : ℤ) = (2 : ℚ) ^ 1024 := by norm_num
    rw [this]
    exact h
  have h1 := roundQ_ge_of_ge x _ hg h'
  have h2 : DBL_MAX < (2 : ℚ) ^ (1024 : ℤ) := by unfold DBL_MAX; norm_num
  unfold toDouble
  rw [if_pos (lt_of_lt_of_le h2 h1)]

theorem isDouble_multiple (g : ℚ) (h : isDouble g) :
    ∃ M : ℤ, g = (M : ℚ) * (2 : ℚ) ^ (-1074 : ℤ) := by
  rw [isDouble_iff] at h
  obtain ⟨N, hN, _⟩ := zpow_two_eq_intCast (expo g + 1074) (by have := expo_ge g; omega)
  refine ⟨roundHalfEven (g / quantum g) * N, ?_⟩
  have e : g = (roundHalfEven (g / quantum g) : ℚ) * quantum g := by
    conv_lhs => rw [← h.1]
    rfl
  conv_lhs => rw [e]
  unfold quantum
  push_cast
  rw [← hN, zpow_add₀ (by norm_num : (2 : ℚ) ≠ 0)]
  have h1 : (2 : ℚ) ^ (1074 : ℤ) * (2 : ℚ) ^ (-1074 : ℤ) = 1 := by
    rw [← zpow_add₀ (by norm_num : (2 : ℚ) ≠ 0)]
    norm_num
  calc (roundHalfEven (g / (2 : ℚ) ^ expo g) : ℚ) * (2 : ℚ) ^ expo g
      = (roundHalfEven (g / (2 : ℚ) ^ expo g) : ℚ) * (2 : ℚ) ^ expo g *
          ((2 : ℚ) ^ (1074 : ℤ) * (2 : ℚ) ^ (-1074 : ℤ)) := by rw [h1, mul_one]
    _ = _ := by ring

theorem quantum_le (x : ℚ) (h : (2 : ℚ) ^ (-1022 : ℤ) ≤ |x|) :
    quantum x ≤ |x| * (2 : ℚ) ^ (-52 : ℤ) := by
  have hx : x ≠ 0 := by
    intro h0
    rw [h0, abs_zero] at h
    have : (0 : ℚ) < (2 : ℚ) ^ (-1022 : ℤ) := by positivity
    linarith
  have hpos : 0 < |x| := abs_pos.mpr hx
  have hlog : -1022 ≤ Int.log 2 |x| := by
    apply (Int.zpow_le_iff_le_log (by norm_num) hpos).mp
    exact_mod_cast h
  have he : expo x = Int.log 2 |x| - 52 := by
    unfold expo
    rw [if_neg hx, max_eq_left hlog]
  have h1 : ((2 : ℕ) : ℚ) ^ Int.log 2 |x| ≤ |x| := Int.zpow_log_le_self (by norm_num) hpos
  unfold quantum
  rw [he, zpow_sub₀ (by norm_num : (2 : ℚ) ≠ 0), div_eq_mul_inv, ← zpow_neg]
  push_cast at h1
  exact mul_le_mul_of_nonneg_right h1 (by positivity)

theorem roundQ_small_exact (x : ℚ) (M : ℤ) (hx : x = (M : ℚ) * (2 : ℚ) ^ (-1074 : ℤ))
    (h : |x| < (2 : ℚ) ^ (-1022 : ℤ)) : roundQ x = x := by
  rw [hx]
  apply roundQ_dyadic M (-1074) _ (le_refl _)
  rw [hx, abs_mul, abs_of_pos (by positivity : (0 : ℚ) < (2 : ℚ) ^ (-1074 : ℤ))] at h
  have h2 : (2 : ℚ) ^ (-1022 : ℤ) = (2 : ℚ) ^ (52 : ℤ) * (2 : ℚ) ^ (-1074 : ℤ) := by
    rw [← zpow_add₀ (by norm_num : (2 : ℚ) ≠ 0)]
    norm_num
  rw [h2] at h
  have h3 : |(M : ℚ)| < (2 : ℚ) ^ (52 : ℤ) :=
    lt_of_mul_lt_mul_right h (by positivity)
  have h4 : ((|M| : ℤ) : ℚ) < ((2 ^ 52 : ℤ) : ℚ) := by
    have h52 : (2 : ℚ) ^ (52 : ℤ) = ((2 ^ 52 : ℤ) : ℚ) := by norm_num
    rw [← h52, Int.cast_abs]
    exact h3
  have h5 : |M| < 2 ^ 52 := by exact_mod_cast h4
  omega

theorem roundQ_eval (x : ℚ) (e m : ℤ) (he : -1074 ≤ e) (hhi : |x| < (2 : ℚ) ^ (e + 53))
    (hlo : e = -1074 ∨ (2 : ℚ) ^ (e + 52) ≤ |x|) (hm : |x / (2 : ℚ) ^ e - (m : ℚ)| < 1 / 2) :
    roundQ x = (m : ℚ) * (2 : ℚ) ^ e := by
  have h1 : expo x ≤ e := expo_le_of_abs_lt x e he hhi
  have h2 : e ≤ expo x := by
    rcases hlo with h | h
    · rw [h]
      exact expo_ge x
    · by_contra hc
      push_neg at hc
      have := abs_lt_zpow_expo x
      have h3 : (2 : ℚ) ^ (expo x + 53) ≤ (2 : ℚ) ^ (e + 52) :=
        zpow_le_zpow_right₀ (by norm_num) (by omega)
      linarith
  have h3 : expo x = e := le_antisymm h1 h2
  rw [roundQ_eq_mul]
  unfold quantum
  rw [h3, roundHalfEven_eq_of_near _ m hm]

theorem roundQ_eval_pos (x : ℚ) (e m : ℤ) (he : -1074 < e) (hlo : (2 : ℚ) ^ (e + 52) ≤ x)
    (hhi : x < (2 : ℚ) ^ (e + 53)) (hm1 : (m : ℚ) - 1 / 2 < x / (2 : ℚ) ^ e)
    (hm2 : x / (2 : ℚ) ^ e < (m : ℚ) + 1 / 2) :
    roundQ x = (m : ℚ) * (2 : ℚ) ^ e := by
  have hx : 0 < x := lt_of_lt_of_le (by positivity) hlo
  apply roundQ_eval x e m (le_of_lt he)
  · rwa [abs_of_pos hx]
  · right
    rwa [abs_of_pos hx]
  · rw [abs_lt]
    constructor <;> linarith

theorem roundHalfEven_tie (n : ℤ) :
    roundHalfEven ((n : ℚ) + 1 / 2) = if n % 2 = 0 then n else n + 1 := by
  have hf : ⌊(n : ℚ) + 1 / 2⌋ = n := by
    rw [Int.floor_eq_iff]
    constructor <;> linarith
  unfold roundHalfEven
  rw [hf]
  have h1 : ¬ ((n : ℚ) + 1 / 2 - (n : ℚ) < 1 / 2) := by
    intro h
    linarith
  have h2 : ¬ ((1 : ℚ) / 2 < (n : ℚ) + 1 / 2 - (n : ℚ)) := by
    intro h
    linarith
  rw [if_neg h1, if_neg h2]

/-! ## The rank of the percentiles in double arithmetic -/

theorem rank_round (p pd : ℚ) (a : ℤ) (hp : 9 / 10 ≤ p) (h20 : 20 * p = (a : ℚ))
    (hpd : |pd - p| ≤ p * (9 / 10) * (2 : ℚ) ^ (-54 : ℤ)) (k : ℕ)
    (hk : p * (k : ℚ) < 2 ^ 31) :
    toDouble (pd * (k : ℚ)) = Dbl.fin (roundQ (pd * (k : ℚ))) ∧
      isDouble (roundQ (pd * (k : ℚ))) ∧
      (p * (k : ℚ) = (⌊p * (k : ℚ)⌋ : ℚ) → roundQ (pd * (k : ℚ)) = p * (k : ℚ)) ∧
      (p * (k : ℚ) ≠ (⌊p * (k : ℚ)⌋ : ℚ) →
        (⌊p * (k : ℚ)⌋ : ℚ) + 1 / 40 ≤ roundQ (pd * (k : ℚ)) ∧
          roundQ (pd * (k : ℚ)) ≤ (⌊p * (k : ℚ)⌋ : ℚ) + 39 / 40) := by
  have hk0 : (0 : ℚ) ≤ (k : ℚ) := Nat.cast_nonneg k
  have hu : (2 : ℚ) ^ (-54 : ℤ) = 1 / 18014398509481984 := by norm_num
  set r : ℚ := p * (k : ℚ) with hr
  set x : ℚ := pd * (k : ℚ) with hx
  have hr0 : 0 ≤ r := mul_nonneg (by linarith) hk0
  have hd : |x - r| ≤ r * (9 / 10) * (2 : ℚ) ^ (-54 : ℤ) := by
    have e : x - r = (pd - p) * (k : ℚ) := by rw [hx, hr]; ring
    rw [e, abs_mul, abs_of_nonneg hk0]
    calc |pd - p| * (k : ℚ) ≤ p * (9 / 10) * (2 : ℚ) ^ (-54 : ℤ) * (k : ℚ) :=
          mul_le_mul_of_nonneg_right hpd hk0
      _ = r * (9 / 10) * (2 : ℚ) ^ (-54 : ℤ) := by rw [hr]; ring
  rw [hu] at hd
  have hd' := abs_le.mp hd
  have hx0 : 0 ≤ x := by linarith [hd'.1]
  have hx32 : x < (2 : ℚ) ^ 32 := by
    have : (2 : ℚ) ^ 31 < (2 : ℚ) ^ 32 := by norm_num
    have h31 : (2 : ℚ) ^ 31 = 2147483648 := by norm_num
    rw [h31] at hk
    norm_num
    linarith [hd'.2]
  have h32 : isDouble ((2 : ℚ) ^ 32) := by
    have := isDouble_intCast (2 ^ 32) (by norm_num)
    push_cast at this
    exact this
  have hb := toDouble_between x 0 ((2 : ℚ) ^ 32) isDouble_zero h32 hx0 (le_of_lt hx32)
  have hexpo : expo x ≤ -21 := by
    apply expo_le_of_abs_lt x (-21) (by norm_num)
    rw [abs_of_nonneg hx0]
    have : (2 : ℚ) ^ ((-21 : ℤ) + 53) = (2 : ℚ) ^ 32 := by norm_num
    rw [this]
    exact hx32
  have hq := quantum_pos x
  have hq21 : quantum x ≤ 1 / 2097152 := by
    have : quantum x ≤ (2 : ℚ) ^ (-21 : ℤ) := by
      unfold quantum
      exact zpow_le_zpow_right₀ (by norm_num) hexpo
    have h21 : (2 : ℚ) ^ (-21 : ℤ) = 1 / 2097152 := by norm_num
    rwa [h21] at this
  have herr := abs_le.mp (roundQ_sub_le x)
  refine ⟨hb.1, hb.2.1, ?_, ?_⟩
  · intro hint
    rcases eq_or_lt_of_le hr0 with h0 | hpos
    · have hk' : (k : ℚ) = 0 := by
        have : p * (k : ℚ) = 0 := by rw [← hr]; exact h0.symm
        rcases mul_eq_zero.mp this with h | h
        · linarith
        · exact h
      have hx' : x = 0 := by rw [hx, hk', mul_zero]
      rw [hx', roundQ_zero, ← h0]
    · obtain ⟨T, hT, _⟩ := zpow_two_eq_intCast (-expo x) (by omega)
      have hTq : (T : ℚ) * quantum x = 1 := by
        unfold quantum
        rw [← hT, ← zpow_add₀ (by norm_num : (2 : ℚ) ≠ 0)]
        simp
      have hqlow : x * (1 / 9007199254740992) < quantum x := by
        have h1 := abs_lt_zpow_expo x
        rw [abs_of_nonneg hx0, zpow_add₀ (by norm_num : (2 : ℚ) ≠ 0)] at h1
        have h53 : (2 : ℚ) ^ (53 : ℤ) = 9007199254740992 := by norm_num
        rw [h53] at h1
        unfold quantum
        linarith
      have hnear : |x / quantum x - ((⌊r⌋ * T : ℤ) : ℚ)| < 1 / 2 := by
        have e : x / quantum x - ((⌊r⌋ * T : ℤ) : ℚ) = (x - r) / quantum x := by
          push_cast
          rw [← hint]
          field_simp
          have : r * (T : ℚ) * quantum x = r := by rw [mul_assoc, hTq, mul_one]
          linarith
        rw [e, abs_div, abs_of_pos hq, div_lt_iff₀ hq]
        have : |x - r| < 1 / 2 * quantum x := by
          have h1 : |x - r| ≤ r * (9 / 10) * (1 / 18014398509481984) := hd
          have h2 : r * (99 / 100) ≤ x := by linarith [hd'.1]
          linarith
        exact this
      rw [roundQ_eq_mul, roundHalfEven_eq_of_near _ _ hnear]
      push_cast
      rw [mul_assoc, hTq, mul_one]
      exact hint.symm
  · intro hint
    have h1 := Int.floor_le r
    have h2 := Int.lt_floor_add_one r
    have h3 : (⌊r⌋ : ℚ) < r := lt_of_le_of_ne h1 (fun h => hint h.symm)
    have hA : (20 : ℚ) * r = ((a * (k : ℤ) : ℤ) : ℚ) := by
      push_cast
      rw [← h20, hr]
      ring
    have hA1 : ((20 * ⌊r⌋ : ℤ) : ℚ) < ((a * (k : ℤ) : ℤ) : ℚ) := by
      rw [← hA]
      push_cast
      linarith
    have hA2 : ((a * (k : ℤ) : ℤ) : ℚ) < ((20 * ⌊r⌋ + 20 : ℤ) : ℚ) := by
      rw [← hA]
      push_cast
      linarith
    have hA1' : 20 * ⌊r⌋ < a * (k : ℤ) := by exact_mod_cast hA1
    have hA2' : a * (k : ℤ) < 20 * ⌊r⌋ + 20 := by exact_mod_cast hA2
    have hA3 : ((20 * ⌊r⌋ + 1 : ℤ) : ℚ) ≤ ((a * (k : ℤ) : ℤ) : ℚ) := by
      exact_mod_cast (show 20 * ⌊r⌋ + 1 ≤ a * (k : ℤ) by omega)
    have hA4 : ((a * (k : ℤ) : ℤ) : ℚ) ≤ ((20 * ⌊r⌋ + 19 : ℤ) : ℚ) := by
      exact_mod_cast (show a * (k : ℤ) ≤ 20 * ⌊r⌋ + 19 by omega)
    rw [← hA] at hA3 hA4
    push_cast at hA3 hA4
    have h31 : (2 : ℚ) ^ 31 = 2147483648 := by norm_num
    rw [h31] at hk
    constructor <;> linarith [hd'.1, hd'.2, herr.1, herr.2]

/-! ## The interpolation in double arithmetic -/

theorem quantum_le_add (x : ℚ) :
    quantum x ≤ |x| * (2 : ℚ) ^ (-52 : ℤ) + (2 : ℚ) ^ (-1074 : ℤ) := by
  rcases le_or_lt ((2 : ℚ) ^ (-1022 : ℤ)) |x| with h | h
  · have := quantum_le x h
    have : (0 : ℚ) < (2 : ℚ) ^ (-1074 : ℤ) := by positivity
    linarith
  · have he : expo x ≤ -1074 := by
      apply expo_le_of_abs_lt x (-1074) (le_refl _)
      have : (2 : ℚ) ^ (-1022 : ℤ) ≤ (2 : ℚ) ^ ((-1074 : ℤ) + 53) :=
        zpow_le_zpow_right₀ (by norm_num) (by norm_num)
      linarith
    have hq : quantum x ≤ (2 : ℚ) ^ (-1074 : ℤ) := by
      unfold quantum
      exact zpow_le_zpow_right₀ (by norm_num) he
    have : 0 ≤ |x| * (2 : ℚ) ^ (-52 : ℤ) := by positivity
    linarith

theorem interp_between (L U w : ℚ) (hL : isDouble L) (hU : isDouble U) (hLU : L ≤ U)
    (hD : U - L ≤ DBL_MAX) (hw0 : 0 ≤ w) (hw1 : w ≤ 63 / 64) :
    toDouble (U - L) = Dbl.fin (roundQ (U - L)) ∧
      toDouble (w * roundQ (U - L)) = Dbl.fin (roundQ (w * roundQ (U - L))) ∧
      toDouble (L + roundQ (w * roundQ (U - L))) =
        Dbl.fin (roundQ (L + roundQ (w * roundQ (U - L)))) ∧
      isDouble (roundQ (L + roundQ (w * roundQ (U - L)))) ∧
      L ≤ roundQ (L + roundQ (w * roundQ (U - L))) ∧
      roundQ (L + roundQ (w * roundQ (U - L))) ≤ U := by
  have hD0 : 0 ≤ U - L := by linarith
  have hd := toDouble_between (U - L) 0 DBL_MAX isDouble_zero isDouble_DBL_MAX hD0 hD
  set d := roundQ (U - L) with hdd
  have hwd0 : 0 ≤ w * d := mul_nonneg hw0 hd.2.2.1
  have hwd1 : w * d ≤ 63 / 64 * d := mul_le_mul_of_nonneg_right hw1 hd.2.2.1
  have hwd2 : w * d ≤ d := by linarith [hd.2.2.1]
  have hm := toDouble_between (w * d) 0 d isDouble_zero hd.2.1 hwd0 hwd2
  set m := roundQ (w * d) with hmm
  have key : m ≤ U - L := by
    rcases lt_or_le (U - L) ((2 : ℚ) ^ (-1022 : ℤ)) with hs | hn
    · obtain ⟨MU, hMU⟩ := isDouble_multiple U hU
      obtain ⟨ML, hML⟩ := isDouble_multiple L hL
      have hex : roundQ (U - L) = U - L := by
        apply roundQ_small_exact (U - L) (MU - ML)
        · rw [hMU, hML]
          push_cast
          ring
        · rwa [abs_of_nonneg hD0]
      have : d = U - L := hex
      linarith [hm.2.2.2]
    · have e1 := abs_le.mp (roundQ_sub_le (U - L))
      have q1 := quantum_le (U - L) (by rwa [abs_of_nonneg hD0])
      rw [abs_of_nonneg hD0] at q1
      have e2 := abs_le.mp (roundQ_sub_le (w * d))
      have q2 := quantum_le_add (w * d)
      rw [abs_of_nonneg hwd0] at q2
      have c52 : (2 : ℚ) ^ (-52 : ℤ) = 1 / 4503599627370496 := by norm_num
      have c1022 : (2 : ℚ) ^ (-1022 : ℤ) = 1 / 2 ^ 1022 := by
        rw [zpow_neg]
        norm_num
      have c1074 : (2 : ℚ) ^ (-1074 : ℤ) = 1 / 2 ^ 1074 := by
        rw [zpow_neg]
        norm_num
      have cc : (1 : ℚ) / 2 ^ 1074 ≤ 1 / 2 ^ 1022 * (1 / 4096) := by norm_num
      rw [c52] at q1 q2
      rw [c1074] at q2
      rw [c1022] at hn
      have hdD : d ≤ (U - L) * (1 + 1 / 9007199254740992) := by
        have := e1.2
        linarith
      have hmw : m ≤ w * d * (1 + 1 / 9007199254740992) + 1 / 2 ^ 1074 := by
        have := e2.2
        have : (0 : ℚ) ≤ 1 / 2 ^ 1074 := by positivity
        linarith
      have h3 : w * d * (1 + 1 / 9007199254740992) ≤
          63 / 64 * d * (1 + 1 / 9007199254740992) :=
        mul_le_mul_of_nonneg_right hwd1 (by norm_num)
      have h4 : 63 / 64 * d * (1 + 1 / 9007199254740992) ≤
          63 / 64 * ((U - L) * (1 + 1 / 9007199254740992)) * (1 + 1 / 9007199254740992) := by
        apply mul_le_mul_of_nonneg_right _ (by norm_num)
        apply mul_le_mul_of_nonneg_left hdD (by norm_num)
      have h5 : 63 / 64 * ((U - L) * (1 + 1 / 9007199254740992)) *
          (1 + 1 / 9007199254740992) ≤ (U - L) * (127 / 128) := by
        have : 63 / 64 * ((U - L) * (1 + 1 / 9007199254740992)) *
            (1 + 1 / 9007199254740992) =
            (U - L) * (63 / 64 * (1 + 1 / 9007199254740992) * (1 + 1 / 9007199254740992)) := by
          ring
        rw [this]
        apply mul_le_mul_of_nonneg_left _ hD0
        norm_num
      linarith
  have hv := toDouble_between (L + m) L U hL hU (by linarith [hm.2.2.1]) (by linarith)
  exact ⟨hd.1, hm.1, hv.1, hv.2.1, hv.2.2.1, hv.2.2.2⟩

/-! ## Facts about conversions, subscripts and buffers -/

theorem toInt_of_nonneg (x : ℚ) (h0 : 0 ≤ x) (h1 : x < 2 ^ 31) : toInt x = some ⌊x⌋ := by
  have hf0 : (0 : ℤ) ≤ ⌊x⌋ := Int.floor_nonneg.mpr h0
  have hf1 : ⌊x⌋ < (2 : ℤ) ^ 31 := by
    apply Int.floor_lt.mpr
    exact_mod_cast h1
  unfold toInt INT_MIN INT_MAX
  simp only [h0, if_true]
  rw [if_pos]
  constructor <;> omega

theorem subscript_of_nonneg (v : List ℚ) (i : ℤ) (h0 : 0 ≤ i) (h1 : i < 2 ^ 64) :
    subscript v i = v[i.toNat]? := by
  unfold subscript SIZE_MOD
  have : i % ((2 ^ 64 : ℕ) : ℤ) = i := Int.emod_eq_of_lt h0 (by exact_mod_cast h1)
  rw [this]

theorem size_minus_one (n : ℕ) (h1 : 1 ≤ n) (h2 : n ≤ SIZE_MOD) :
    (((n + (SIZE_MOD - 1)) % SIZE_MOD : ℕ) : ℚ) = (n : ℚ) - 1 := by
  have h : (n + (SIZE_MOD - 1)) % SIZE_MOD = n - 1 := by
    unfold SIZE_MOD at *
    omega
  rw [h]
  push_cast [Nat.cast_sub h1]
  ring

theorem toInt_of_large (x : ℚ) (h : 2 ^ 31 ≤ x) : toInt x = none := by
  have h0 : (0 : ℚ) ≤ x := le_trans (by norm_num) h
  have hf : (2 : ℤ) ^ 31 ≤ ⌊x⌋ := by
    apply Int.le_floor.mpr
    push_cast
    exact h
  unfold toInt INT_MIN INT_MAX
  simp only [h0, if_true]
  rw [if_neg]
  intro hc
  omega

theorem pct90_sortedArr_foldl (xs : List ℚ) (s : Pct90) :
    (xs.foldl Pct90.update s).sortedArr = s.sortedArr ++ xs := by
  induction xs generalizing s with
  | nil => simp
  | cons x xs ih => simp [ih, Pct90.update]

theorem pct95_sortedArr_foldl (xs : List ℚ) (s : Pct95) :
    (xs.foldl Pct95.update s).sortedArr = s.sortedArr ++ xs := by
  induction xs generalizing s with
  | nil => simp
  | cons x xs ih => simp [ih, Pct95.update]

theorem pct90_sortedArr_feed (xs : List ℚ) : (Pct90.feed xs).sortedArr = xs := by
  unfold Pct90.feed
  rw [pct90_sortedArr_foldl]
  rfl

theorem pct95_sortedArr_feed (xs : List ℚ) : (Pct95.feed xs).sortedArr = xs := by
  unfold Pct95.feed
  rw [pct95_sortedArr_foldl]
  rfl

theorem length_le_of_bound (p : ℚ) (hp : 9 / 10 ≤ p) (n : ℕ)
    (hb : p * ((n : ℚ) - 1) < 2 ^ 31 - 1) : n ≤ SIZE_MOD := by
  have h1 : (9 / 10 : ℚ) * ((n : ℚ) - 1) < 2 ^ 31 - 1 := by
    rcases le_or_lt (n : ℚ) 1 with h | h
    · have : (9 / 10 : ℚ) * ((n : ℚ) - 1) ≤ 0 :=
        mul_nonpos_of_nonneg_of_nonpos (by norm_num) (by linarith)
      have : (0 : ℚ) < 2 ^ 31 - 1 := by norm_num
      linarith
    · have : (9 / 10 : ℚ) * ((n : ℚ) - 1) ≤ p * ((n : ℚ) - 1) :=
        mul_le_mul_of_nonneg_right hp (by linarith)
      linarith
  have h2 : (n : ℚ) < ((2 ^ 64 : ℕ) : ℚ) := by
    have h64 : (((2 ^ 64 : ℕ) : ℚ)) = 18446744073709551616 := by norm_num
    rw [h64]
    norm_num at h1
    linarith
  unfold SIZE_MOD
  have h3 : n < 2 ^ 64 := by exact_mod_cast h2
  exact le_of_lt h3

theorem min_update_right_comm (s : Min) (a b : ℚ) :
    (s.update a).update b = (s.update b).update a := by
  unfold Min.update
  split_ifs <;> first | rfl | (congr 1; linarith)

theorem max_update_right_comm (s : Max) (a b : ℚ) :
    (s.update a).update b = (s.update b).update a := by
  unfold Max.update
  split_ifs <;> first | rfl | (congr 1; linarith)

theorem insertionSort_eq_of_perm (xs ys : List ℚ) (h : xs.Perm ys) :
    xs.insertionSort (· ≤ ·) = ys.insertionSort (· ≤ ·) :=
  List.eq_of_perm_of_sorted
    (((List.perm_insertionSort _ xs).trans h).trans (List.perm_insertionSort _ ys).symm)
    (List.sorted_insertionSort _ xs) (List.sorted_insertionSort _ ys)

/-! ## Facts about a constant sequence -/

theorem min_feed_replicate (c : ℚ) (n : ℕ) (hn : 1 ≤ n) (hc : c ≤ DBL_MAX) :
    (Min.feed (List.replicate n c)).eval = c := by
  have hne : List.replicate n c ≠ [] := by
    intro h
    have := congrArg List.length h
    rw [List.length_replicate] at this
    simp only [List.length_nil] at this
    omega
  have hmem := min_feed_mem (List.replicate n c) hne
    (fun x hx => (List.eq_of_mem_replicate hx) ▸ hc)
  exact List.eq_of_mem_replicate hmem

theorem max_feed_replicate (c : ℚ) (n : ℕ) (hn : 1 ≤ n) (hc : DBL_LOWEST ≤ c) :
    (Max.feed (List.replicate n c)).eval = c := by
  have hne : List.replicate n c ≠ [] := by
    intro h
    have := congrArg List.length h
    rw [List.length_replicate] at this
    simp only [List.length_nil] at this
    omega
  have hmem := max_feed_mem (List.replicate n c) hne
    (fun x hx => (List.eq_of_mem_replicate hx) ▸ hc)
  exact List.eq_of_mem_replicate hmem

/-! ## Facts about fresh accumulators -/

theorem DBL_MAX_finite : isFinite DBL_MAX := by
  have h := DBL_MAX_pos
  unfold isFinite DBL_LOWEST
  constructor <;> linarith

theorem DBL_LOWEST_finite : isFinite DBL_LOWEST := by
  have h := DBL_MAX_pos
  unfold isFinite DBL_LOWEST
  constructor <;> linarith

theorem subscript_nil (i : ℤ) : subscript [] i = none := by
  unfold subscript
  simp only [List.getElem?_nil]

theorem min_update_eq (s : Min) (x : ℚ) : (s.update x).m_min = min s.m_min x := by
  unfold Min.update
  split_ifs with h
  · exact (min_eq_right (le_of_lt h)).symm
  · exact (min_eq_left (not_lt.mp h)).symm

theorem max_update_eq (s : Max) (x : ℚ) : (s.update x).m_max = max s.m_max x := by
  unfold Max.update
  split_ifs with h
  · exact (max_eq_right (le_of_lt h)).symm
  · exact (max_eq_left (not_lt.mp h)).symm

/-! ## Facts about the subscripts -/

theorem dbl_zero : (0 : Dbl) = Dbl.fin 0 := rfl

theorem dbl_add_fin (a b : ℚ) : (Dbl.fin a).add (Dbl.fin b) = toDouble (a + b) := rfl

theorem dbl_sub_fin (a b : ℚ) : (Dbl.fin a).sub (Dbl.fin b) = toDouble (a - b) := by
  unfold Dbl.sub Dbl.neg
  rw [dbl_add_fin, sub_eq_add_neg]

theorem dbl_mul_fin (a b : ℚ) : (Dbl.fin a).mul (Dbl.fin b) = toDouble (a * b) := rfl

theorem dbl_div_fin (a b : ℚ) (hb : b ≠ 0) :
    (Dbl.fin a).div (Dbl.fin b) = toDouble (a / b) := by
  unfold Dbl.div
  simp only [hb, if_false]

theorem dbl_toInt_fin (x : ℚ) : (Dbl.fin x).toInt = toInt x := rfl

theorem two_pow_le_DBL_MAX : (2 : ℚ) ^ 1023 ≤ DBL_MAX := by
  unfold DBL_MAX
  have h : (2 : ℚ) ^ 1023 = 2 ^ 52 * 2 ^ 971 := by
    rw [← pow_add]
  rw [h]
  apply mul_le_mul_of_nonneg_right _ (by positivity)
  norm_num

theorem toDouble_of_roundQ_eq (x v : ℚ) (h : roundQ x = v) (h1 : -(2 : ℚ) ^ 1023 ≤ v)
    (h2 : v ≤ (2 : ℚ) ^ 1023) : toDouble x = Dbl.fin v := by
  have hm := two_pow_le_DBL_MAX
  rw [toDouble_of_abs_le x, h]
  rw [h, abs_le]
  constructor <;> linarith

theorem expo_eq (x : ℚ) (e : ℤ) (he : -1074 ≤ e) (hhi : |x| < (2 : ℚ) ^ (e + 53))
    (hlo : e = -1074 ∨ (2 : ℚ) ^ (e + 52) ≤ |x|) : expo x = e := by
  have h1 : expo x ≤ e := expo_le_of_abs_lt x e he hhi
  have h2 : e ≤ expo x := by
    rcases hlo with h | h
    · rw [h]
      exact expo_ge x
    · by_contra hc
      push_neg at hc
      have := abs_lt_zpow_expo x
      have h3 : (2 : ℚ) ^ (expo x + 53) ≤ (2 : ℚ) ^ (e + 52) :=
        zpow_le_zpow_right₀ (by norm_num) (by omega)
      linarith
  exact le_antisymm h1 h2

/-- A value halfway between two neighbouring doubles is rounded to the one with the even
significand. -/
theorem roundQ_tie_pos (x : ℚ) (e n : ℤ) (he : -1074 < e) (hlo : (2 : ℚ) ^ (e + 52) ≤ x)
    (hhi : x < (2 : ℚ) ^ (e + 53)) (hx : x / (2 : ℚ) ^ e = (n : ℚ) + 1 / 2) :
    roundQ x = ((if n % 2 = 0 then n else n + 1 : ℤ) : ℚ) * (2 : ℚ) ^ e := by
  have hpos : 0 < x := lt_of_lt_of_le (by positivity) hlo
  have h3 : expo x = e := by
    apply expo_eq x e (le_of_lt he)
    · rwa [abs_of_pos hpos]
    · right
      rwa [abs_of_pos hpos]
  rw [roundQ_eq_mul]
  unfold quantum
  rw [h3, hx, roundHalfEven_tie]

/-! ## Facts about `Mean` -/

theorem mean_feed_append (xs : List ℚ) (x : ℚ) :
    Mean.feed (xs ++ [x]) = (Mean.feed xs).update x := by
  unfold Mean.feed
  rw [List.foldl_append]
  rfl

theorem mean_feed_count (xs : List ℚ) : (Mean.feed xs).m_count = xs.length % SIZE_MOD := by
  induction xs using List.reverseRecOn with
  | nil => rfl
  | append_singleton xs x ih =>
    rw [mean_feed_append]
    unfold Mean.update
    simp only [ih, List.length_append, List.length_singleton, Nat.mod_add_mod]

theorem mean_foldl_sum (xs : List ℚ) (acc : ℚ) (c : ℕ) (h : exactSumsFrom acc xs) :
    (xs.foldl Mean.update ⟨Dbl.fin acc, c⟩).m_sum = Dbl.fin (acc + xs.sum) := by
  induction xs generalizing acc c with
  | nil => simp
  | cons x xs ih =>
    obtain ⟨h1, h2⟩ := h
    simp only [List.foldl_cons, List.sum_cons]
    have hu : Mean.update ⟨Dbl.fin acc, c⟩ x = ⟨Dbl.fin (acc + x), (c + 1) % SIZE_MOD⟩ := by
      unfold Mean.update
      rw [dbl_add_fin]
      unfold isDouble at h1
      rw [h1]
    rw [hu, ih _ _ h2, add_assoc]

theorem mean_feed_sum (xs : List ℚ) (h : exactSums xs) :
    (Mean.feed xs).m_sum = Dbl.fin xs.sum := by
  have h1 := mean_foldl_sum xs 0 0 h
  rw [zero_add] at h1
  exact h1

theorem two_pow_53_lt_SIZE_MOD : 2 ^ 53 < SIZE_MOD := by
  unfold SIZE_MOD
  norm_num

/-- When no addition to the running sum rounds, `Mean::eval` returns the exact mean rounded
once, by the division. -/
theorem mean_eval_of_exactSums (xs : List ℚ) (hne : xs ≠ []) (hlen : xs.length < 2 ^ 53)
    (h : exactSums xs) : (Mean.feed xs).eval = toDouble (xs.sum / (xs.length : ℚ)) := by
  have hpos : 0 < xs.length := List.length_pos.mpr hne
  have hmod : xs.length % SIZE_MOD = xs.length :=
    Nat.mod_eq_of_lt (lt_trans hlen two_pow_53_lt_SIZE_MOD)
  have hq : (xs.length : ℚ) ≠ 0 := by
    have : xs.length ≠ 0 := by omega
    exact_mod_cast this
  unfold Mean.eval
  rw [mean_feed_count, mean_feed_sum xs h, hmod]
  have hd : toDouble (xs.length : ℚ) = Dbl.fin (xs.length : ℚ) := isDouble_natCast _ hlen
  rw [if_pos (by omega), hd, dbl_div_fin _ _ hq]

theorem mean_eval_nil : (Mean.feed []).eval = 0 := rfl

/-! ## Facts about the percentile computation -/

theorem rank_literal_90 :
    |DBL_0_9 - 9 / 10| ≤ (9 / 10 : ℚ) * (9 / 10) * (2 : ℚ) ^ (-54 : ℤ) := by
  unfold DBL_0_9
  rw [abs_le]
  constructor <;> norm_num

theorem rank_literal_95 :
    |DBL_0_95 - 19 / 20| ≤ (19 / 20 : ℚ) * (9 / 10) * (2 : ℚ) ^ (-54 : ℤ) := by
  unfold DBL_0_95
  rw [abs_le]
  constructor <;> norm_num

/-- Within the `int` range the rank `index` that the code computes in `double` arithmetic is
a finite double whose conversion to `int` is the floor of the exact rank `r = p * (n - 1)`,
and it differs from its truncation exactly when `r` is not an integer. -/
theorem rank_in_double (p pd : ℚ) (a : ℤ) (hp : 9 / 10 ≤ p) (h20 : 20 * p = (a : ℚ))
    (hpd : |pd - p| ≤ p * (9 / 10) * (2 : ℚ) ^ (-54 : ℤ)) (n : ℕ) (hn : 1 ≤ n)
    (hb : p * ((n : ℚ) - 1) < 2 ^ 31 - 1) :
    ∃ index : ℚ,
      (Dbl.fin pd).mul (toDouble (((n + (SIZE_MOD - 1)) % SIZE_MOD : ℕ) : ℚ)) =
        Dbl.fin index ∧
      toInt index = some ⌊p * ((n : ℚ) - 1)⌋ ∧
      (index ≠ ((⌊p * ((n : ℚ) - 1)⌋ : ℤ) : ℚ) ↔
        p * ((n : ℚ) - 1) ≠ ((⌊p * ((n : ℚ) - 1)⌋ : ℤ) : ℚ)) := by
  have hlen : n ≤ SIZE_MOD := length_le_of_bound p hp _ hb
  obtain ⟨k, hk⟩ : ∃ k, n = k + 1 := ⟨n - 1, by omega⟩
  have hkq : (n : ℚ) - 1 = (k : ℚ) := by
    rw [hk]
    push_cast
    ring
  have hsz := size_minus_one n hn hlen
  rw [hkq] at hsz hb ⊢
  have hk0 : (0 : ℚ) ≤ (k : ℚ) := Nat.cast_nonneg k
  have hp0 : (0 : ℚ) ≤ p := le_trans (by norm_num) hp
  have hpk : p * (k : ℚ) < 2 ^ 31 := by linarith
  obtain ⟨hr1, -, hr3, hr4⟩ := rank_round p pd a hp h20 hpd k hpk
  have hk53 : k < 2 ^ 53 := by
    have h1 : (9 / 10 : ℚ) * k ≤ p * k := mul_le_mul_of_nonneg_right hp hk0
    have h2 : (k : ℚ) < ((2 ^ 53 : ℕ) : ℚ) := by
      have h53 : (((2 ^ 53 : ℕ) : ℚ)) = 9007199254740992 := by norm_num
      rw [h53]
      norm_num at hpk
      linarith
    exact_mod_cast h2
  have hkd : toDouble (k : ℚ) = Dbl.fin (k : ℚ) := isDouble_natCast k hk53
  set r : ℚ := p * (k : ℚ) with hr
  have hr0 : 0 ≤ r := mul_nonneg hp0 hk0
  have hf0 : (0 : ℤ) ≤ ⌊r⌋ := Int.floor_nonneg.mpr hr0
  have hf0q : (0 : ℚ) ≤ ((⌊r⌋ : ℤ) : ℚ) := by exact_mod_cast hf0
  have hfmax : ⌊r⌋ + 1 < (2 : ℤ) ^ 31 := by
    have : ⌊r⌋ < (2 : ℤ) ^ 31 - 1 := by
      apply Int.floor_lt.mpr
      push_cast
      linarith
    omega
  refine ⟨roundQ (pd * (k : ℚ)), by rw [hsz, hkd, dbl_mul_fin, hr1], ?_, ?_⟩
  · by_cases hint : r = (⌊r⌋ : ℚ)
    · rw [hr3 hint]
      exact toInt_of_nonneg r hr0 (by linarith)
    · obtain ⟨h1, h2⟩ := hr4 hint
      have hfl : ⌊roundQ (pd * (k : ℚ))⌋ = ⌊r⌋ := by
        rw [Int.floor_eq_iff]
        constructor <;> linarith
      have hlt31 : roundQ (pd * (k : ℚ)) < 2 ^ 31 := by
        have : ((⌊r⌋ : ℤ) : ℚ) + 1 < 2 ^ 31 := by exact_mod_cast hfmax
        linarith
      rw [toInt_of_nonneg _ (by linarith) hlt31, hfl]
  · constructor
    · intro h hint
      exact h ((hr3 hint).trans hint)
    · intro hint h
      have := (hr4 hint).1
      linarith

/-- Within the `int` range the body of `eval` on the sorted copy computes the interpolation
of the specification in `double` arithmetic: the truncation of the rank computed in `double`
is the floor of the exact rank, and the two are integral together. -/
theorem percentileOfCopy_eq_spec (p pd : ℚ) (a : ℤ) (hp : 9 / 10 ≤ p)
    (h20 : 20 * p = (a : ℚ)) (hpd : |pd - p| ≤ p * (9 / 10) * (2 : ℚ) ^ (-54 : ℤ))
    (s : List ℚ) (hn : 1 ≤ s.length) (hb : p * ((s.length : ℚ) - 1) < 2 ^ 31 - 1) :
    percentileOfCopy pd s = specPercentileDouble p pd s := by
  have hlen : s.length ≤ SIZE_MOD := length_le_of_bound p hp _ hb
  obtain ⟨k, hk⟩ : ∃ k, s.length = k + 1 := ⟨s.length - 1, by omega⟩
  have hkq : (s.length : ℚ) - 1 = (k : ℚ) := by
    rw [hk]
    push_cast
    ring
  have hsz := size_minus_one s.length hn hlen
  rw [hkq] at hsz hb
  have hk0 : (0 : ℚ) ≤ (k : ℚ) := Nat.cast_nonneg k
  have hp0 : (0 : ℚ) ≤ p := le_trans (by norm_num) hp
  have hpk : p * (k : ℚ) < 2 ^ 31 := by linarith
  obtain ⟨hr1, -, hr3, hr4⟩ := rank_round p pd a hp h20 hpd k hpk
  have hk53 : k < 2 ^ 53 := by
    have h1 : (9 / 10 : ℚ) * k ≤ p * k := mul_le_mul_of_nonneg_right hp hk0
    have h2 : (k : ℚ) < ((2 ^ 53 : ℕ) : ℚ) := by
      have h53 : (((2 ^ 53 : ℕ) : ℚ)) = 9007199254740992 := by norm_num
      rw [h53]
      norm_num at hpk
      linarith
    exact_mod_cast h2
  have hkd : toDouble (k : ℚ) = Dbl.fin (k : ℚ) := isDouble_natCast k hk53
  set r : ℚ := p * (k : ℚ) with hr
  have hr0 : 0 ≤ r := mul_nonneg hp0 hk0
  have hf0 : (0 : ℤ) ≤ ⌊r⌋ := Int.floor_nonneg.mpr hr0
  have hfle : (⌊r⌋ : ℚ) ≤ r := Int.floor_le r
  have hflt : r < (⌊r⌋ : ℚ) + 1 := Int.lt_floor_add_one r
  have hfmax : ⌊r⌋ + 1 < (2 : ℤ) ^ 31 := by
    have : ⌊r⌋ < (2 : ℤ) ^ 31 - 1 := by
      apply Int.floor_lt.mpr
      push_cast
      linarith
    omega
  have hfd : toDouble ((⌊r⌋ : ℤ) : ℚ) = Dbl.fin ((⌊r⌋ : ℤ) : ℚ) := by
    apply isDouble_intCast
    rw [abs_of_nonneg hf0]
    omega
  have hsub0 : subscript s ⌊r⌋ = s[⌊r⌋.toNat]? :=
    subscript_of_nonneg s ⌊r⌋ hf0 (by omega)
  have hidx : (Dbl.fin pd).mul
      (toDouble (((s.length + (SIZE_MOD - 1)) % SIZE_MOD : ℕ) : ℚ)) =
      Dbl.fin (roundQ (pd * (k : ℚ))) := by
    rw [hsz, hkd, dbl_mul_fin, hr1]
  unfold percentileOfCopy specPercentileDouble
  simp only [hidx, hkq, hr1, dbl_toInt_fin]
  rw [← hr]
  by_cases hint : r = (⌊r⌋ : ℚ)
  · have hidx : roundQ (pd * (k : ℚ)) = r := hr3 hint
    have htoInt : toInt r = some ⌊r⌋ := toInt_of_nonneg r hr0 (by linarith)
    have hfd1 : toDouble r = Dbl.fin r := by
      rw [hint]
      exact hfd
    simp only [hidx, htoInt, Option.some_bind, ← hint, hfd1, ne_eq, not_true_eq_false, if_false,
      if_true, hsub0]
  · obtain ⟨h1, h2⟩ := hr4 hint
    have hfl : ⌊roundQ (pd * (k : ℚ))⌋ = ⌊r⌋ := by
      rw [Int.floor_eq_iff]
      constructor <;> linarith
    have hlt31 : roundQ (pd * (k : ℚ)) < 2 ^ 31 := by
      have : ((⌊r⌋ : ℤ) : ℚ) + 1 < 2 ^ 31 := by exact_mod_cast hfmax
      linarith
    have hf0q : (0 : ℚ) ≤ ((⌊r⌋ : ℤ) : ℚ) := by exact_mod_cast hf0
    have htoInt : toInt (roundQ (pd * (k : ℚ))) = some ⌊r⌋ := by
      rw [toInt_of_nonneg _ (by linarith) hlt31, hfl]
    have hne : Dbl.fin (roundQ (pd * (k : ℚ))) ≠ Dbl.fin ((⌊r⌋ : ℤ) : ℚ) := by
      intro h
      injection h with h
      linarith
    have hadd : addInt ⌊r⌋ 1 = some (⌊r⌋ + 1) := by
      unfold addInt INT_MIN INT_MAX
      rw [if_pos]
      constructor <;> omega
    have hsub1 : subscript s (⌊r⌋ + 1) = s[⌊r⌋.toNat + 1]? := by
      rw [subscript_of_nonneg s (⌊r⌋ + 1) (by omega) (by omega)]
      congr 1
      omega
    simp only [htoInt, Option.some_bind, hfd, ne_eq, hne, not_false_eq_true, if_true, hint,
      if_false, hadd, hsub0, hsub1]

theorem percentileEval_eq (p : ℚ) (xs : List ℚ) :
    percentileEval p xs = percentileOfCopy p (xs.insertionSort (· ≤ ·)) := rfl

theorem percentileEval_eq_of_perm (p : ℚ) (xs ys : List ℚ) (h : xs.Perm ys) :
    percentileEval p xs = percentileEval p ys := by
  rw [percentileEval_eq, percentileEval_eq, insertionSort_eq_of_perm xs ys h]

theorem percentileCall_state (p : ℚ) (xs : List ℚ) : (percentileCall p xs).2 = xs := rfl

/-! ## Facts about concrete roundings -/

theorem toDouble_eval_pos (x v : ℚ) (e m : ℤ) (he : -1074 < e)
    (hlo : (2 : ℚ) ^ (e + 52) ≤ x) (hhi : x < (2 : ℚ) ^ (e + 53))
    (hm1 : (m : ℚ) - 1 / 2 < x / (2 : ℚ) ^ e) (hm2 : x / (2 : ℚ) ^ e < (m : ℚ) + 1 / 2)
    (hv : (m : ℚ) * (2 : ℚ) ^ e = v) (h1 : -(2 : ℚ) ^ 1023 ≤ v) (h2 : v ≤ (2 : ℚ) ^ 1023) :
    toDouble x = Dbl.fin v := by
  apply toDouble_of_roundQ_eq x v _ h1 h2
  rw [roundQ_eval_pos x e m he hlo hhi hm1 hm2, hv]

theorem toDouble_tie_pos (x v : ℚ) (e n : ℤ) (he : -1074 < e) (hlo : (2 : ℚ) ^ (e + 52) ≤ x)
    (hhi : x < (2 : ℚ) ^ (e + 53)) (hx : x / (2 : ℚ) ^ e = (n : ℚ) + 1 / 2)
    (hv : ((if n % 2 = 0 then n else n + 1 : ℤ) : ℚ) * (2 : ℚ) ^ e = v)
    (h1 : -(2 : ℚ) ^ 1023 ≤ v) (h2 : v ≤ (2 : ℚ) ^ 1023) : toDouble x = Dbl.fin v := by
  apply toDouble_of_roundQ_eq x v _ h1 h2
  rw [roundQ_tie_pos x e n he hlo hhi hx, hv]

theorem isDouble_of_eq (x : ℚ) (m e : ℤ) (hx : (m : ℚ) * (2 : ℚ) ^ e = x) (hm : |m| < 2 ^ 53)
    (he : -1074 ≤ e) (h1 : -(2 : ℚ) ^ 1023 ≤ x) (h2 : x ≤ (2 : ℚ) ^ 1023) : isDouble x := by
  rw [← hx]
  apply isDouble_dyadic m e hm he
  rw [hx, abs_le]
  have := two_pow_le_DBL_MAX
  constructor <;> linarith

theorem isDouble_DBL_0_9 : isDouble DBL_0_9 :=
  isDouble_of_eq DBL_0_9 8106479329266893 (-53) (by unfold DBL_0_9; norm_num) (by norm_num)
    (by norm_num) (by unfold DBL_0_9; norm_num) (by unfold DBL_0_9; norm_num)

theorem isDouble_DBL_0_95 : isDouble DBL_0_95 :=
  isDouble_of_eq DBL_0_95 4278419646001971 (-52) (by unfold DBL_0_95; norm_num) (by norm_num)
    (by norm_num) (by unfold DBL_0_95; norm_num) (by unfold DBL_0_95; norm_num)

/-- The literal `0.9` is the double nearest to 9/10. -/
theorem toDouble_nine_tenths : toDouble (9 / 10) = Dbl.fin DBL_0_9 := by
  unfold DBL_0_9
  exact toDouble_eval_pos (9 / 10) _ (-53) 8106479329266893 (by norm_num) (by norm_num)
    (by norm_num) (by norm_num) (by norm_num) (by norm_num) (by norm_num) (by norm_num)

/-- The literal `0.95` is the double nearest to 19/20. -/
theorem toDouble_nineteen_twentieths : toDouble (19 / 20) = Dbl.fin DBL_0_95 := by
  unfold DBL_0_95
  exact toDouble_eval_pos (19 / 20) _ (-53) 8556839292003942 (by norm_num) (by norm_num)
    (by norm_num) (by norm_num) (by norm_num) (by norm_num) (by norm_num) (by norm_num)

/-! ## Facts about the empty buffer -/

theorem size_of_nil :
    ((([] : List ℚ).length + (SIZE_MOD - 1)) % SIZE_MOD : ℕ) = 18446744073709551615 := by
  unfold SIZE_MOD
  norm_num

/-- The value `2 ^ 64 - 1` of `size() - 1` on the empty buffer is not a double; its conversion
rounds up to `2 ^ 64`. -/
theorem toDouble_size_max :
    toDouble ((18446744073709551615 : ℕ) : ℚ) = Dbl.fin 18446744073709551616 := by
  have h : ((18446744073709551615 : ℕ) : ℚ) = 18446744073709551615 := by norm_num
  rw [h]
  exact toDouble_eval_pos 18446744073709551615 _ 11 9007199254740992 (by norm_num)
    (by norm_num) (by norm_num) (by norm_num) (by norm_num) (by norm_num) (by norm_num)
    (by norm_num)

theorem percentileOfCopy_nil (pd v : ℚ)
    (h : toDouble (pd * 18446744073709551616) = Dbl.fin v) (hv : 2 ^ 31 ≤ v) :
    percentileOfCopy pd [] = none := by
  have hidx : (Dbl.fin pd).mul
      (toDouble (((([] : List ℚ).length + (SIZE_MOD - 1)) % SIZE_MOD : ℕ) : ℚ)) =
      Dbl.fin v := by
    rw [size_of_nil, toDouble_size_max, dbl_mul_fin, h]
  unfold percentileOfCopy
  simp only [hidx, dbl_toInt_fin, toInt_of_large _ hv, Option.none_bind]

theorem percentileEval_nil_90 : percentileEval DBL_0_9 [] = none := by
  rw [percentileEval_eq, List.insertionSort]
  apply percentileOfCopy_nil DBL_0_9 16602069666338596864
  · have h : isDouble (DBL_0_9 * 18446744073709551616) :=
      isDouble_of_eq _ 8106479329266893 11 (by unfold DBL_0_9; norm_num) (by norm_num)
        (by norm_num) (by unfold DBL_0_9; norm_num) (by unfold DBL_0_9; norm_num)
    have e : DBL_0_9 * 18446744073709551616 = 16602069666338596864 := by
      unfold DBL_0_9
      norm_num
    rw [e] at h
    rw [e]
    exact h
  · norm_num

theorem percentileEval_nil_95 : percentileEval DBL_0_95 [] = none := by
  rw [percentileEval_eq, List.insertionSort]
  apply percentileOfCopy_nil DBL_0_95 17524406870024073216
  · have h : isDouble (DBL_0_95 * 18446744073709551616) :=
      isDouble_of_eq _ 4278419646001971 12 (by unfold DBL_0_95; norm_num) (by norm_num)
        (by norm_num) (by unfold DBL_0_95; norm_num) (by unfold DBL_0_95; norm_num)
    have e : DBL_0_95 * 18446744073709551616 = 17524406870024073216 := by
      unfold DBL_0_95
      norm_num
    rw [e] at h
    rw [e]
    exact h
  · norm_num

theorem pct90_eval_empty : (Pct90.feed []).eval = none := by
  unfold Pct90.eval
  rw [pct90_sortedArr_feed]
  exact percentileEval_nil_90

theorem pct95_eval_empty : (Pct95.feed []).eval = none := by
  unfold Pct95.eval
  rw [pct95_sortedArr_feed]
  exact percentileEval_nil_95

/-! ## Facts about the driver -/

theorem foldl_updateAll (xs : List ℚ) (a : Min) (b : Max) (c : Mean) (d : Pct90) (e : Pct95) :
    xs.foldl updateAll [.min a, .max b, .mean c, .pct90 d, .pct95 e] =
      [.min (xs.foldl Min.update a), .max (xs.foldl Max.update b),
        .mean (xs.foldl Mean.update c), .pct90 (xs.foldl Pct90.update d),
        .pct95 (xs.foldl Pct95.update e)] := by
  induction xs generalizing a b c d e with
  | nil => rfl
  | cons x xs ih =>
    simp only [List.foldl_cons]
    exact ih _ _ _ _ _

theorem statistics_fed (xs : List ℚ) :
    xs.foldl updateAll statistics =
      [.min (Min.feed xs), .max (Max.feed xs), .mean (Mean.feed xs), .pct90 (Pct90.feed xs),
        .pct95 (Pct95.feed xs)] :=
  foldl_updateAll xs Min.new Max.new Mean.new Pct90.new Pct95.new

theorem readLoop_nil (stats : List IStatistics) : readLoop [] stats = (stats, ⟨true, true⟩) := by
  rw [readLoop]

/-- A numeric token in the range of `double` is extracted and forwarded. -/
theorem readLoop_num (v x : ℚ) (atEof : Bool) (rest : List Token) (stats : List IStatistics)
    (h : toDouble v = Dbl.fin x) :
    readLoop (Token.num v atEof :: rest) stats =
      if atEof then (updateAll stats x, ⟨true, true⟩) else readLoop rest (updateAll stats x) := by
  rw [readLoop, h]

/-- A numeric token too large for a `double` makes the extraction fail. -/
theorem readLoop_num_overflow (v : ℚ) (atEof : Bool) (rest : List Token)
    (stats : List IStatistics) (h : toDouble v = Dbl.pinf) :
    readLoop (Token.num v atEof :: rest) stats = (stats, ⟨atEof, true⟩) := by
  rw [readLoop, h]

theorem readLoop_bad (atEof : Bool) (rest : List Token) (stats : List IStatistics) :
    readLoop (Token.bad atEof :: rest) stats = (stats, ⟨atEof, true⟩) := by
  rw [readLoop]

/-- The loop forwards the values of the numeric tokens in range that precede `rest`. -/
theorem readLoop_nums (vs xs : List ℚ)
    (h : List.Forall₂ (fun v x => toDouble v = Dbl.fin x) vs xs) (rest : List Token)
    (stats : List IStatistics) :
    readLoop (vs.map (fun v => Token.num v false) ++ rest) stats =
      readLoop rest (xs.foldl updateAll stats) := by
  induction h generalizing stats with
  | nil => rfl
  | cons hvx _ ih =>
    simp only [List.map_cons, List.cons_append, List.foldl_cons]
    rw [readLoop_num _ _ _ _ _ hvx]
    exact ih _

theorem readLoop_numericInput (vs xs : List ℚ)
    (h : List.Forall₂ (fun v x => toDouble v = Dbl.fin x) vs xs) (lastAtEof : Bool)
    (stats : List IStatistics) :
    readLoop (numericInput vs lastAtEof) stats = (xs.foldl updateAll stats, ⟨true, true⟩) := by
  induction h generalizing stats with
  | nil =>
    rw [numericInput, readLoop_nil]
    rfl
  | @cons v x vs xs hvx hrest ih =>
    cases hrest with
    | nil =>
      rw [numericInput, readLoop_num _ _ _ _ _ hvx, readLoop_nil]
      simp only [List.foldl_cons, List.foldl_nil, ite_self]
    | @cons w y ws ys hwy hrest2 =>
      rw [numericInput, readLoop_num _ _ _ _ _ hvx]
      simp only [Bool.false_eq_true, if_false, List.foldl_cons]
      have := ih (updateAll stats x)
      simp only [List.foldl_cons] at this
      exact this

theorem main_numericInput (vs xs : List ℚ)
    (h : List.Forall₂ (fun v x => toDouble v = Dbl.fin x) vs xs) (lastAtEof : Bool) :
    main (numericInput vs lastAtEof) =
      report [.min (Min.feed xs), .max (Max.feed xs), .mean (Mean.feed xs),
        .pct90 (Pct90.feed xs), .pct95 (Pct95.feed xs)] [] := by
  simp only [main, readLoop_numericInput vs xs h, statistics_fed, StreamState.eof,
    StreamState.good, Bool.not_true, Bool.and_false, Bool.false_and, Bool.false_eq_true,
    if_false]

theorem main_nil :
    main [] =
      report [.min (Min.feed []), .max (Max.feed []), .mean (Mean.feed []),
        .pct90 (Pct90.feed []), .pct95 (Pct95.feed [])] [] :=
  main_numericInput [] [] List.Forall₂.nil false

theorem main_of_failure (input : List Token) (stats : List IStatistics)
    (h : readLoop input statistics = (stats, ⟨false, true⟩)) :
    main input = Outcome.exit 1 [] ["Invalid input data\n"] := by
  simp only [main, h, StreamState.eof, StreamState.good, Bool.not_true, Bool.not_false,
    Bool.and_false, Bool.and_true, Bool.true_and, if_true]

/-- A token on which the extraction fails before the end of the input makes `main` return 1
with the diagnostic and nothing on standard output, whatever was read before it. -/
theorem main_failure_before_end (vs xs : List ℚ)
    (h : List.Forall₂ (fun v x => toDouble v = Dbl.fin x) vs xs) (rest : List Token) :
    main (vs.map (fun v => Token.num v false) ++ Token.bad false :: rest) =
        Outcome.exit 1 [] ["Invalid input data\n"] ∧
      (readLoop (vs.map (fun v => Token.num v false) ++ Token.bad false :: rest) statistics).1 =
        [.min (Min.feed xs), .max (Max.feed xs), .mean (Mean.feed xs),
          .pct90 (Pct90.feed xs), .pct95 (Pct95.feed xs)] := by
  have hr : readLoop (vs.map (fun v => Token.num v false) ++ Token.bad false :: rest)
      statistics =
      ([.min (Min.feed xs), .max (Max.feed xs), .mean (Mean.feed xs),
        .pct90 (Pct90.feed xs), .pct95 (Pct95.feed xs)], ⟨false, true⟩) := by
    rw [readLoop_nums vs xs h, statistics_fed, readLoop_bad]
  constructor
  · simp only [main, hr, StreamState.eof, StreamState.good, Bool.not_true, Bool.not_false,
      Bool.and_false, Bool.and_true, Bool.true_and, if_true]
  · rw [hr]

/-- A malformed token whose scan runs into the end of the input leaves `eofbit` set, so the
test `!std::cin.eof() && !std::cin.good()` fails and `main` goes on to the report, as after a
clean end of the input. -/
theorem main_malformed_at_end (vs xs : List ℚ)
    (h : List.Forall₂ (fun v x => toDouble v = Dbl.fin x) vs xs) (rest : List Token) :
    main (vs.map (fun v => Token.num v false) ++ Token.bad true :: rest) =
      report [.min (Min.feed xs), .max (Max.feed xs), .mean (Mean.feed xs),
        .pct90 (Pct90.feed xs), .pct95 (Pct95.feed xs)] [] := by
  have hr : readLoop (vs.map (fun v => Token.num v false) ++ Token.bad true :: rest)
      statistics =
      ([.min (Min.feed xs), .max (Max.feed xs), .mean (Mean.feed xs),
        .pct90 (Pct90.feed xs), .pct95 (Pct95.feed xs)], ⟨true, true⟩) := by
    rw [readLoop_nums vs xs h, statistics_fed, readLoop_bad]
  simp only [main, hr, StreamState.eof, StreamState.good, Bool.not_true, Bool.and_false,
    Bool.false_and, Bool.false_eq_true, if_false]

theorem report_cons_some (s : IStatistics) (rest : List IStatistics) (out : List Line) (v : Dbl)
    (h : s.eval = some v) : report (s :: rest) out = report rest (out ++ [⟨s.name, v⟩]) := by
  rw [report, h]

theorem report_cons_none (s : IStatistics) (rest : List IStatistics) (out : List Line)
    (h : s.eval = none) : report (s :: rest) out = Outcome.undefined out := by
  rw [report, h]

theorem report_nil (out : List Line) : report [] out = Outcome.exit 0 out [] := by
  rw [report]

theorem eval_min (s : Min) : (IStatistics.min s).eval = some (Dbl.fin s.eval) := rfl

theorem eval_max (s : Max) : (IStatistics.max s).eval = some (Dbl.fin s.eval) := rfl

theorem eval_mean (s : Mean) : (IStatistics.mean s).eval = some s.eval := rfl

theorem eval_pct90 (s : Pct90) : (IStatistics.pct90 s).eval = s.eval := rfl

theorem eval_pct95 (s : Pct95) : (IStatistics.pct95 s).eval = s.eval := rfl

theorem report_three (a : Min) (b : Max) (c : Mean) (rest : List IStatistics) :
    report (.min a :: .max b :: .mean c :: rest) [] =
      report rest [⟨"min", a.eval⟩, ⟨"max", b.eval⟩, ⟨"mean", c.eval⟩] := by
  rw [report_cons_some _ _ _ _ (eval_min a), report_cons_some _ _ _ _ (eval_max b),
    report_cons_some _ _ _ _ (eval_mean c)]
  rfl

/-- The report when both percentiles return a value. -/
theorem report_five (a : Min) (b : Max) (c : Mean) (d : Pct90) (e : Pct95) (v90 v95 : Dbl)
    (h90 : d.eval = some v90) (h95 : e.eval = some v95) :
    report [.min a, .max b, .mean c, .pct90 d, .pct95 e] [] =
      Outcome.exit 0
        [⟨"min", a.eval⟩, ⟨"max", b.eval⟩, ⟨"mean", c.eval⟩, ⟨"Pct90", v90⟩, ⟨"Pct95", v95⟩]
        [] := by
  rw [report_three, report_cons_some _ _ _ v90 ((eval_pct90 _).trans h90),
    report_cons_some _ _ _ v95 ((eval_pct95 _).trans h95), report_nil]
  rfl

/-! ## Facts about the vectors of `eval` -/

/-- Sorting the member instead of the copy would change the state: on the buffer 2, 1 the
member would hold 1, 2 afterwards. -/
theorem sort_member_reorders :
    ((⟨[2, 1], [2, 1]⟩ : EvalFrame).sort VectorName.sortedArr).sortedArr = [1, 2] ∧
      ((⟨[2, 1], [2, 1]⟩ : EvalFrame).sort VectorName.sortedArrCopy).sortedArr = [2, 1] := by
  constructor
  · show ([2, 1] : List ℚ).insertionSort (· ≤ ·) = [1, 2]
    simp [List.insertionSort, List.orderedInsert]
  · rfl

/-! ## Facts about the interpolation on the sorted copy -/

theorem rank_floor_bounds (p : ℚ) (hp0 : 0 ≤ p) (hp1 : p ≤ 1) (n : ℕ) (hn : 1 ≤ n) :
    ⌊p * ((n : ℚ) - 1)⌋.toNat < n ∧
      (p * ((n : ℚ) - 1) ≠ (⌊p * ((n : ℚ) - 1)⌋ : ℚ) → ⌊p * ((n : ℚ) - 1)⌋.toNat + 1 < n) := by
  have hn1q : (1 : ℚ) ≤ (n : ℚ) := by exact_mod_cast hn
  set r : ℚ := p * ((n : ℚ) - 1) with hr
  have hr0 : 0 ≤ r := mul_nonneg hp0 (by linarith)
  have hrn : r ≤ (n : ℚ) - 1 := by
    have : p * ((n : ℚ) - 1) ≤ 1 * ((n : ℚ) - 1) :=
      mul_le_mul_of_nonneg_right hp1 (by linarith)
    linarith
  have hf0 : (0 : ℤ) ≤ ⌊r⌋ := Int.floor_nonneg.mpr hr0
  have hfn : ⌊r⌋ < (n : ℤ) := by
    apply Int.floor_lt.mpr
    push_cast
    linarith
  constructor
  · omega
  · intro hint
    have hlt : r < (n : ℚ) - 1 := by
      rcases lt_or_eq_of_le hrn with h | h
      · exact h
      · exfalso
        apply hint
        rw [h]
        have : ⌊(n : ℚ) - 1⌋ = (n : ℤ) - 1 := by
          have : ((n : ℚ) - 1) = (((n : ℤ) - 1 : ℤ) : ℚ) := by push_cast; ring
          rw [this, Int.floor_intCast]
        rw [this]
        push_cast
        ring
    have : ⌊r⌋ < (n : ℤ) - 1 := by
      apply Int.floor_lt.mpr
      push_cast
      exact hlt
    omega

/-- Within the buffer the interpolation of the specification in `double` arithmetic names
existing positions only, so it has a value. -/
theorem specPercentileDouble_isSome (p pd : ℚ) (hp0 : 0 ≤ p) (hp1 : p ≤ 1) (s : List ℚ)
    (hn : 1 ≤ s.length) : ∃ v, specPercentileDouble p pd s = some v := by
  obtain ⟨h1, h2⟩ := rank_floor_bounds p hp0 hp1 s.length hn
  unfold specPercentileDouble
  simp only []
  by_cases hint : p * ((s.length : ℚ) - 1) = (⌊p * ((s.length : ℚ) - 1)⌋ : ℚ)
  · rw [if_pos hint, List.getElem?_eq_getElem h1]
    exact ⟨_, rfl⟩
  · rw [if_neg hint, List.getElem?_eq_getElem h1, List.getElem?_eq_getElem (h2 hint)]
    exact ⟨_, rfl⟩

theorem isDouble_63_64 : isDouble (63 / 64) :=
  isDouble_of_eq (63 / 64) 63 (-6) (by norm_num) (by norm_num) (by norm_num) (by norm_num)
    (by norm_num)

/-- The interpolation between two doubles `L ≤ U` whose difference does not overflow, with a
rank that is not integral: every step is finite and the result lies between `L` and `U`. -/
theorem interp_dbl (L U idx : ℚ) (f : ℤ) (hL : isDouble L) (hU : isDouble U) (hLU : L ≤ U)
    (hD : U - L ≤ DBL_MAX) (h1 : (f : ℚ) + 1 / 40 ≤ idx)
    (h2 : idx ≤ (f : ℚ) + 39 / 40) :
    (Dbl.fin L).add (((Dbl.fin idx).sub (Dbl.fin (f : ℚ))).mul
        ((Dbl.fin U).sub (Dbl.fin L))) = Dbl.fin (interpRounded L U idx f) ∧
      isDouble (interpRounded L U idx f) ∧ L ≤ interpRounded L U idx f ∧
      interpRounded L U idx f ≤ U := by
  have hw := toDouble_between (idx - (f : ℚ)) 0 (63 / 64) isDouble_zero isDouble_63_64
    (by linarith) (by linarith)
  obtain ⟨hw1, -, hw3, hw4⟩ := hw
  obtain ⟨g1, g2, g3, g4, g5, g6⟩ :=
    interp_between L U (roundQ (idx - (f : ℚ))) hL hU hLU hD hw3 hw4
  refine ⟨?_, g4, g5, g6⟩
  rw [dbl_sub_fin, dbl_sub_fin, hw1, g1, dbl_mul_fin, g2, dbl_add_fin, g3]
  rfl

theorem interpRounded_mono (L U idx1 idx2 : ℚ) (f : ℤ) (hLU : L ≤ U) (h : idx1 ≤ idx2) :
    interpRounded L U idx1 f ≤ interpRounded L U idx2 f := by
  unfold interpRounded
  have hD : 0 ≤ roundQ (U - L) := roundQ_ge_of_ge (U - L) 0 roundQ_zero (by linarith)
  have hw : roundQ (idx1 - (f : ℚ)) ≤ roundQ (idx2 - (f : ℚ)) := roundQ_mono (by linarith)
  have hm : roundQ (roundQ (idx1 - (f : ℚ)) * roundQ (U - L)) ≤
      roundQ (roundQ (idx2 - (f : ℚ)) * roundQ (U - L)) :=
    roundQ_mono (mul_le_mul_of_nonneg_right hw hD)
  exact roundQ_mono (by linarith)

/-- The value of the interpolation of the specification in `double` arithmetic on a sorted
list of doubles whose values span at most `DBL_MAX`. -/
theorem specPercentileDouble_eq (p pd : ℚ) (a : ℤ) (hp : 9 / 10 ≤ p) (hp1 : p ≤ 1)
    (h20 : 20 * p = (a : ℚ)) (hpd : |pd - p| ≤ p * (9 / 10) * (2 : ℚ) ^ (-54 : ℤ))
    (s : List ℚ) (hn : 1 ≤ s.length) (hb : p * ((s.length : ℚ) - 1) < 2 ^ 31 - 1)
    (hs : s.Sorted (· ≤ ·)) (hd : ∀ x ∈ s, isDouble x)
    (hD : ∀ x ∈ s, ∀ y ∈ s, y - x ≤ DBL_MAX) :
    (p * ((s.length : ℚ) - 1) = (⌊p * ((s.length : ℚ) - 1)⌋ : ℚ) →
        specPercentileDouble p pd s =
          some (Dbl.fin (s.getD ⌊p * ((s.length : ℚ) - 1)⌋.toNat 0))) ∧
      (p * ((s.length : ℚ) - 1) ≠ (⌊p * ((s.length : ℚ) - 1)⌋ : ℚ) →
        specPercentileDouble p pd s =
          some (Dbl.fin (interpRounded (s.getD ⌊p * ((s.length : ℚ) - 1)⌋.toNat 0)
            (s.getD (⌊p * ((s.length : ℚ) - 1)⌋.toNat + 1) 0)
            (roundQ (pd * ((s.length : ℚ) - 1))) ⌊p * ((s.length : ℚ) - 1)⌋)) ∧
        isDouble (interpRounded (s.getD ⌊p * ((s.length : ℚ) - 1)⌋.toNat 0)
            (s.getD (⌊p * ((s.length : ℚ) - 1)⌋.toNat + 1) 0)
            (roundQ (pd * ((s.length : ℚ) - 1))) ⌊p * ((s.length : ℚ) - 1)⌋) ∧
        s.getD ⌊p * ((s.length : ℚ) - 1)⌋.toNat 0 ≤
          interpRounded (s.getD ⌊p * ((s.length : ℚ) - 1)⌋.toNat 0)
            (s.getD (⌊p * ((s.length : ℚ) - 1)⌋.toNat + 1) 0)
            (roundQ (pd * ((s.length : ℚ) - 1))) ⌊p * ((s.length : ℚ) - 1)⌋ ∧
        interpRounded (s.getD ⌊p * ((s.length : ℚ) - 1)⌋.toNat 0)
            (s.getD (⌊p * ((s.length : ℚ) - 1)⌋.toNat + 1) 0)
            (roundQ (pd * ((s.length : ℚ) - 1))) ⌊p * ((s.length : ℚ) - 1)⌋ ≤
          s.getD (⌊p * ((s.length : ℚ) - 1)⌋.toNat + 1) 0) := by
  have hp0 : (0 : ℚ) ≤ p := le_trans (by norm_num) hp
  obtain ⟨hi0, hi1⟩ := rank_floor_bounds p hp0 hp1 s.length hn
  obtain ⟨k, hk⟩ : ∃ k, s.length = k + 1 := ⟨s.length - 1, by omega⟩
  have hkq : (s.length : ℚ) - 1 = (k : ℚ) := by
    rw [hk]
    push_cast
    ring
  rw [hkq] at hb hi0 hi1 ⊢
  have hk0 : (0 : ℚ) ≤ (k : ℚ) := Nat.cast_nonneg k
  have hpk : p * (k : ℚ) < 2 ^ 31 := by linarith
  obtain ⟨hr1, -, -, hr4⟩ := rank_round p pd a hp h20 hpd k hpk
  set r : ℚ := p * (k : ℚ) with hr
  have hr0 : 0 ≤ r := mul_nonneg hp0 hk0
  have hf0 : (0 : ℤ) ≤ ⌊r⌋ := Int.floor_nonneg.mpr hr0
  have hfmax : ⌊r⌋ < (2 : ℤ) ^ 31 := by
    apply Int.floor_lt.mpr
    push_cast
    linarith
  constructor
  · intro hint
    unfold specPercentileDouble
    simp only [hkq]
    rw [← hr, if_pos hint, List.getElem?_eq_getElem hi0, List.getD_eq_getElem _ _ hi0]
    rfl
  · intro hint
    have hi1' := hi1 hint
    obtain ⟨h1, h2⟩ := hr4 hint
    have hmemL : s.getD ⌊r⌋.toNat 0 ∈ s := by
      rw [List.getD_eq_getElem _ _ hi0]
      exact List.getElem_mem _
    have hmemU : s.getD (⌊r⌋.toNat + 1) 0 ∈ s := by
      rw [List.getD_eq_getElem _ _ hi1']
      exact List.getElem_mem _
    have hLU : s.getD ⌊r⌋.toNat 0 ≤ s.getD (⌊r⌋.toNat + 1) 0 := by
      rw [List.getD_eq_getElem _ _ hi0, List.getD_eq_getElem _ _ hi1']
      exact List.Sorted.rel_get_of_le hs (a := ⟨_, hi0⟩) (b := ⟨_, hi1'⟩) (Nat.le_succ _)
    obtain ⟨e1, e2, e3, e4⟩ := interp_dbl _ _ (roundQ (pd * (k : ℚ))) ⌊r⌋ (hd _ hmemL)
      (hd _ hmemU) hLU (hD _ hmemL _ hmemU) h1 h2
    refine ⟨?_, e2, e3, e4⟩
    unfold specPercentileDouble
    simp only [hkq]
    rw [← hr, if_neg hint, List.getElem?_eq_getElem hi0, List.getElem?_eq_getElem hi1', hr1,
      ← e1, List.getD_eq_getElem _ _ hi0, List.getD_eq_getElem _ _ hi1']
    rfl

/-! ## Facts about the order of the percentiles -/

theorem sorted_getD_le (s : List ℚ) (hs : s.Sorted (· ≤ ·)) (i j : ℕ) (hij : i ≤ j)
    (hj : j < s.length) : s.getD i 0 ≤ s.getD j 0 := by
  have hi : i < s.length := lt_of_le_of_lt hij hj
  rw [List.getD_eq_getElem _ _ hi, List.getD_eq_getElem _ _ hj]
  exact List.Sorted.rel_get_of_le hs (a := ⟨_, hi⟩) (b := ⟨_, hj⟩) hij

theorem getD_mem (s : List ℚ) (i : ℕ) (hi : i < s.length) : s.getD i 0 ∈ s := by
  rw [List.getD_eq_getElem _ _ hi]
  exact List.getElem_mem _

theorem literal_le : DBL_0_9 ≤ DBL_0_95 := by
  unfold DBL_0_9 DBL_0_95
  norm_num

/-- On a sorted list of doubles between `lo` and `hi` with `hi - lo ≤ DBL_MAX`, and within
the `int` range, the two percentiles of the specification in `double` arithmetic are finite
and ordered between `lo` and `hi`. -/
theorem specPercentileDouble_ordered (s : List ℚ) (lo hi : ℚ) (hn : 1 ≤ s.length)
    (hb : (19 / 20 : ℚ) * ((s.length : ℚ) - 1) < 2 ^ 31 - 1) (hs : s.Sorted (· ≤ ·))
    (hd : ∀ x ∈ s, isDouble x) (hlo : ∀ x ∈ s, lo ≤ x) (hhi : ∀ x ∈ s, x ≤ hi)
    (hspan : hi - lo ≤ DBL_MAX) :
    ∃ v90 v95 : ℚ, specPercentileDouble (9 / 10) DBL_0_9 s = some (Dbl.fin v90) ∧
      specPercentileDouble (19 / 20) DBL_0_95 s = some (Dbl.fin v95) ∧
      isDouble v90 ∧ isDouble v95 ∧ lo ≤ v90 ∧ v90 ≤ v95 ∧ v95 ≤ hi := by
  have hn1q : (1 : ℚ) ≤ (s.length : ℚ) := by exact_mod_cast hn
  have hrr : (9 / 10 : ℚ) * ((s.length : ℚ) - 1) ≤ 19 / 20 * ((s.length : ℚ) - 1) :=
    mul_le_mul_of_nonneg_right (by norm_num) (by linarith)
  have hb90 : (9 / 10 : ℚ) * ((s.length : ℚ) - 1) < 2 ^ 31 - 1 := by linarith
  have hD : ∀ x ∈ s, ∀ y ∈ s, y - x ≤ DBL_MAX := by
    intro x hx y hy
    have := hlo x hx
    have := hhi y hy
    linarith
  have hidx : roundQ (DBL_0_9 * ((s.length : ℚ) - 1)) ≤
      roundQ (DBL_0_95 * ((s.length : ℚ) - 1)) :=
    roundQ_mono (mul_le_mul_of_nonneg_right literal_le (by linarith))
  obtain ⟨a1, a2⟩ := specPercentileDouble_eq (9 / 10) DBL_0_9 18 (le_refl _) (by norm_num)
    (by norm_num) rank_literal_90 s hn hb90 hs hd hD
  obtain ⟨b1, b2⟩ := specPercentileDouble_eq (19 / 20) DBL_0_95 19 (by norm_num) (by norm_num)
    (by norm_num) rank_literal_95 s hn hb hs hd hD
  obtain ⟨i1, i2⟩ := rank_floor_bounds (9 / 10) (by norm_num) (by norm_num) s.length hn
  obtain ⟨j1, j2⟩ := rank_floor_bounds (19 / 20) (by norm_num) (by norm_num) s.length hn
  set r90 : ℚ := (9 / 10 : ℚ) * ((s.length : ℚ) - 1) with hr90
  set r95 : ℚ := (19 / 20 : ℚ) * ((s.length : ℚ) - 1) with hr95
  have hr0 : 0 ≤ r90 := mul_nonneg (by norm_num) (by linarith)
  have hfl : ⌊r90⌋ ≤ ⌊r95⌋ := Int.floor_mono hrr
  have hf0 : (0 : ℤ) ≤ ⌊r90⌋ := Int.floor_nonneg.mpr hr0
  have hij : ⌊r90⌋.toNat ≤ ⌊r95⌋.toNat := Int.toNat_le_toNat hfl
  by_cases h90 : r90 = (⌊r90⌋ : ℚ)
  · by_cases h95 : r95 = (⌊r95⌋ : ℚ)
    · exact ⟨_, _, a1 h90, b1 h95, hd _ (getD_mem s _ i1), hd _ (getD_mem s _ j1),
        hlo _ (getD_mem s _ i1), sorted_getD_le s hs _ _ hij j1, hhi _ (getD_mem s _ j1)⟩
    · obtain ⟨c1, c2, c3, c4⟩ := b2 h95
      exact ⟨_, _, a1 h90, c1, hd _ (getD_mem s _ i1), c2, hlo _ (getD_mem s _ i1),
        le_trans (sorted_getD_le s hs _ _ hij j1) c3,
        le_trans c4 (hhi _ (getD_mem s _ (j2 h95)))⟩
  · obtain ⟨d1, d2, d3, d4⟩ := a2 h90
    have hlow : lo ≤ interpRounded (s.getD ⌊r90⌋.toNat 0) (s.getD (⌊r90⌋.toNat + 1) 0)
        (roundQ (DBL_0_9 * ((s.length : ℚ) - 1))) ⌊r90⌋ :=
      le_trans (hlo _ (getD_mem s _ i1)) d3
    by_cases h95 : r95 = (⌊r95⌋ : ℚ)
    · have hlt : ⌊r90⌋ < ⌊r95⌋ := by
        have h1 : (⌊r90⌋ : ℚ) < r90 := lt_of_le_of_ne (Int.floor_le r90) (Ne.symm h90)
        have h2 : ((⌊r90⌋ : ℤ) : ℚ) < ((⌊r95⌋ : ℤ) : ℚ) := by
          rw [← h95]
          linarith
        exact_mod_cast h2
      have hij1 : ⌊r90⌋.toNat + 1 ≤ ⌊r95⌋.toNat := by omega
      exact ⟨_, _, d1, b1 h95, d2, hd _ (getD_mem s _ j1), hlow,
        le_trans d4 (sorted_getD_le s hs _ _ hij1 j1), hhi _ (getD_mem s _ j1)⟩
    · obtain ⟨c1, c2, c3, c4⟩ := b2 h95
      refine ⟨_, _, d1, c1, d2, c2, hlow, ?_, le_trans c4 (hhi _ (getD_mem s _ (j2 h95)))⟩
      rcases lt_or_eq_of_le hfl with hlt | heq
      · have hij1 : ⌊r90⌋.toNat + 1 ≤ ⌊r95⌋.toNat := by omega
        exact le_trans d4 (le_trans (sorted_getD_le s hs _ _ hij1 j1) c3)
      · rw [← heq]
        exact interpRounded_mono _ _ _ _ _
          (sorted_getD_le s hs _ _ (Nat.le_succ _) (i2 h90)) hidx

/-! ## Facts for evaluating the accumulators -/

theorem isDouble_range (x : ℚ) (h : isDouble x) : DBL_LOWEST ≤ x ∧ x ≤ DBL_MAX := by
  have h2 := ((isDouble_iff x).mp h).2
  rw [abs_le] at h2
  exact h2

theorem isDouble_two_pow_1023 : isDouble ((2 : ℚ) ^ 1023) :=
  isDouble_of_eq _ 1 1023 (by norm_num) (by norm_num) (by norm_num)
    (le_trans (by norm_num) (by positivity : (0 : ℚ) ≤ (2 : ℚ) ^ 1023)) (le_refl _)

theorem min_feed_eq_of (xs : List ℚ) (m : ℚ) (hm : m ∈ xs) (hle : ∀ x ∈ xs, m ≤ x)
    (hfin : ∀ x ∈ xs, x ≤ DBL_MAX) : (Min.feed xs).eval = m :=
  le_antisymm (min_feed_le xs m hm) (hle _ (min_feed_mem xs (List.ne_nil_of_mem hm) hfin))

theorem max_feed_eq_of (xs : List ℚ) (m : ℚ) (hm : m ∈ xs) (hle : ∀ x ∈ xs, x ≤ m)
    (hfin : ∀ x ∈ xs, DBL_LOWEST ≤ x) : (Max.feed xs).eval = m :=
  le_antisymm (hle _ (max_feed_mem xs (List.ne_nil_of_mem hm) hfin)) (max_feed_ge xs m hm)

theorem mean_foldl_m_sum (xs : List ℚ) (s : Mean) :
    (xs.foldl Mean.update s).m_sum = xs.foldl (fun a x => a.add (Dbl.fin x)) s.m_sum := by
  induction xs generalizing s with
  | nil => rfl
  | cons x xs ih =>
    simp only [List.foldl_cons]
    rw [ih]
    rfl

/-- The running sum of `Mean` after the values `xs`: the additions in input order. -/
theorem mean_feed_m_sum (xs : List ℚ) :
    (Mean.feed xs).m_sum = xs.foldl (fun a x => a.add (Dbl.fin x)) (Dbl.fin 0) :=
  mean_foldl_m_sum xs Mean.new

/-- The value of `Mean::eval` from the running sum, for a count that is a double. -/
theorem mean_eval_of_sum (xs : List ℚ) (hne : xs ≠ []) (hlen : xs.length < 2 ^ 53) :
    (Mean.feed xs).eval = (Mean.feed xs).m_sum.div (Dbl.fin (xs.length : ℚ)) := by
  have hpos : 0 < xs.length := List.length_pos.mpr hne
  have hmod : xs.length % SIZE_MOD = xs.length :=
    Nat.mod_eq_of_lt (lt_trans hlen two_pow_53_lt_SIZE_MOD)
  have hd : toDouble (xs.length : ℚ) = Dbl.fin (xs.length : ℚ) := isDouble_natCast _ hlen
  unfold Mean.eval
  rw [mean_feed_count, hmod, if_pos (by omega), hd]

theorem exactSumsFrom_replicate (c : ℚ) (n : ℕ) (acc : ℚ)
    (h : ∀ j : ℕ, 1 ≤ j → j ≤ n → isDouble (acc + (j : ℚ) * c)) :
    exactSumsFrom acc (List.replicate n c) := by
  induction n generalizing acc with
  | zero => exact trivial
  | succ n ih =>
    rw [List.replicate_succ]
    constructor
    · have := h 1 (le_refl _) (by omega)
      simpa using this
    · apply ih
      intro j hj1 hj2
      have := h (j + 1) (by omega) (by omega)
      have e : acc + c + (j : ℚ) * c = acc + ((j + 1 : ℕ) : ℚ) * c := by
        push_cast
        ring
      rw [e]
      exact this

theorem exactSums_replicate_one (n : ℕ) (hn : n < 2 ^ 53) :
    exactSums (List.replicate n (1 : ℚ)) := by
  apply exactSumsFrom_replicate
  intro j _ hj2
  have e : (0 : ℚ) + (j : ℚ) * 1 = (j : ℚ) := by ring
  rw [e]
  exact isDouble_natCast j (by omega)

/-- The mean of `n` copies of a double `c` is `c` when no addition rounds. -/
theorem mean_feed_replicate (c : ℚ) (n : ℕ) (hc : isDouble c) (hn : 1 ≤ n) (hlt : n < 2 ^ 53)
    (hex : exactSums (List.replicate n c)) :
    (Mean.feed (List.replicate n c)).eval = Dbl.fin c := by
  have hne : List.replicate n c ≠ [] := by
    intro h
    have := congrArg List.length h
    rw [List.length_replicate] at this
    simp only [List.length_nil] at this
    omega
  have hq : (n : ℚ) ≠ 0 := by
    have : n ≠ 0 := by omega
    exact_mod_cast this
  rw [mean_eval_of_exactSums _ hne (by rw [List.length_replicate]; exact hlt) hex,
    List.length_replicate, List.sum_replicate, nsmul_eq_mul, mul_div_cancel_left₀ c hq]
  exact hc

/-- When no addition to the running sum rounds, the mean returned is a double between the
smallest and the largest value. -/
theorem mean_between (xs : List ℚ) (hne : xs ≠ []) (hlen : xs.length < 2 ^ 53)
    (hd : ∀ x ∈ xs, isDouble x) (hex : exactSums xs) :
    (Mean.feed xs).eval = Dbl.fin (roundQ (xs.sum / (xs.length : ℚ))) ∧
      isDouble (roundQ (xs.sum / (xs.length : ℚ))) ∧
      (Min.feed xs).eval ≤ roundQ (xs.sum / (xs.length : ℚ)) ∧
      roundQ (xs.sum / (xs.length : ℚ)) ≤ (Max.feed xs).eval := by
  have hn0 : xs.length ≠ 0 := fun h0 => hne (List.length_eq_zero.mp h0)
  have hpos : (0 : ℚ) < (xs.length : ℚ) := by exact_mod_cast Nat.pos_of_ne_zero hn0
  have hmin := min_feed_mem xs hne (fun x hx => (isDouble_range x (hd x hx)).2)
  have hmax := max_feed_mem xs hne (fun x hx => (isDouble_range x (hd x hx)).1)
  have hsum1 : xs.length • (Min.feed xs).eval ≤ xs.sum :=
    List.card_nsmul_le_sum xs _ (min_feed_le xs)
  have hsum2 : xs.sum ≤ xs.length • (Max.feed xs).eval :=
    List.sum_le_card_nsmul xs _ (max_feed_ge xs)
  rw [nsmul_eq_mul] at hsum1 hsum2
  have h1 : (Min.feed xs).eval ≤ xs.sum / (xs.length : ℚ) := by
    rw [le_div_iff₀ hpos]
    linarith
  have h2 : xs.sum / (xs.length : ℚ) ≤ (Max.feed xs).eval := by
    rw [div_le_iff₀ hpos]
    linarith
  obtain ⟨e1, e2, e3, e4⟩ := toDouble_between _ _ _ (hd _ hmin) (hd _ hmax) h1 h2
  rw [mean_eval_of_exactSums xs hne hlen hex]
  exact ⟨e1, e2, e3, e4⟩

/-! ## Facts for evaluating the percentiles -/

theorem specPercentileDouble_interp (p pd : ℚ) (s : List ℚ) (f : ℤ) (L U : ℚ)
    (hf1 : (f : ℚ) < p * ((s.length : ℚ) - 1)) (hf2 : p * ((s.length : ℚ) - 1) < (f : ℚ) + 1)
    (hL : s[f.toNat]? = some L) (hU : s[f.toNat + 1]? = some U) :
    specPercentileDouble p pd s =
      some ((Dbl.fin L).add
        (((toDouble (pd * ((s.length : ℚ) - 1))).sub (Dbl.fin (f : ℚ))).mul
          ((Dbl.fin U).sub (Dbl.fin L)))) := by
  have hfl : ⌊p * ((s.length : ℚ) - 1)⌋ = f := by
    rw [Int.floor_eq_iff]
    exact ⟨le_of_lt hf1, hf2⟩
  have hne : ¬ (p * ((s.length : ℚ) - 1) = (f : ℚ)) := by
    intro h
    linarith
  unfold specPercentileDouble
  simp only [hfl, hne, if_false, hL, hU, Option.some_bind]

theorem specPercentileDouble_exact (p pd : ℚ) (s : List ℚ) (f : ℤ) (L : ℚ)
    (hf : p * ((s.length : ℚ) - 1) = (f : ℚ)) (hL : s[f.toNat]? = some L) :
    specPercentileDouble p pd s = some (Dbl.fin L) := by
  unfold specPercentileDouble
  simp only [hf, Int.floor_intCast, if_true, hL, Option.map_some']

/-- Within the `int` range `Pct90::eval` is the interpolation of the specification in
`double` arithmetic on the sorted copy. -/
theorem pct90_eval_eq (xs : List ℚ) (hne : xs ≠ [])
    (hb : (9 / 10 : ℚ) * ((xs.length : ℚ) - 1) < 2 ^ 31 - 1) :
    (Pct90.feed xs).eval = specPercentileDouble (9 / 10) DBL_0_9 (xs.insertionSort (· ≤ ·)) := by
  unfold Pct90.eval
  rw [pct90_sortedArr_feed, percentileEval_eq]
  apply percentileOfCopy_eq_spec (9 / 10) DBL_0_9 18 (le_refl _) (by norm_num) rank_literal_90
  · rw [List.length_insertionSort]
    exact List.length_pos.mpr hne
  · rw [List.length_insertionSort]
    exact hb

/-- Within the `int` range `Pct95::eval` is the interpolation of the specification in
`double` arithmetic on the sorted copy. -/
theorem pct95_eval_eq (xs : List ℚ) (hne : xs ≠ [])
    (hb : (19 / 20 : ℚ) * ((xs.length : ℚ) - 1) < 2 ^ 31 - 1) :
    (Pct95.feed xs).eval =
      specPercentileDouble (19 / 20) DBL_0_95 (xs.insertionSort (· ≤ ·)) := by
  unfold Pct95.eval
  rw [pct95_sortedArr_feed, percentileEval_eq]
  apply percentileOfCopy_eq_spec (19 / 20) DBL_0_95 19 (by norm_num) (by norm_num)
    rank_literal_95
  · rw [List.length_insertionSort]
    exact List.length_pos.mpr hne
  · rw [List.length_insertionSort]
    exact hb

theorem bound_90_of_95 (n : ℕ) (hn : 1 ≤ n)
    (hb : (19 / 20 : ℚ) * ((n : ℚ) - 1) < 2 ^ 31 - 1) :
    (9 / 10 : ℚ) * ((n : ℚ) - 1) < 2 ^ 31 - 1 := by
  have hn1q : (1 : ℚ) ≤ (n : ℚ) := by exact_mod_cast hn
  have : (9 / 10 : ℚ) * ((n : ℚ) - 1) ≤ 19 / 20 * ((n : ℚ) - 1) :=
    mul_le_mul_of_nonneg_right (by norm_num) (by linarith)
  linarith

theorem length_lt_of_bound (n : ℕ) (hb : (19 / 20 : ℚ) * ((n : ℚ) - 1) < 2 ^ 31 - 1) :
    n < 2 ^ 53 := by
  have h2 : (n : ℚ) < ((2 ^ 53 : ℕ) : ℚ) := by
    have h53 : (((2 ^ 53 : ℕ) : ℚ)) = 9007199254740992 := by norm_num
    rw [h53]
    norm_num at hb
    linarith
  exact_mod_cast h2

/-- A buffer whose rank does not fit an `int` makes the conversion undefined. -/
theorem percentileOfCopy_of_large (pd : ℚ) (s : List ℚ) (k : ℕ)
    (hk : (s.length + (SIZE_MOD - 1)) % SIZE_MOD = k) (hk53 : k < 2 ^ 53)
    (h1 : (2 : ℚ) ^ 31 ≤ pd * (k : ℚ)) (h2 : pd * (k : ℚ) ≤ (2 : ℚ) ^ 1023) :
    percentileOfCopy pd s = none := by
  have hkd : toDouble (k : ℚ) = Dbl.fin (k : ℚ) := isDouble_natCast k hk53
  have hlo : isDouble ((2 : ℚ) ^ 31) :=
    isDouble_of_eq _ 1 31 (by norm_num) (by norm_num) (by norm_num) (by norm_num)
      (by norm_num)
  obtain ⟨e1, -, e3, -⟩ := toDouble_between (pd * (k : ℚ)) _ _ hlo isDouble_two_pow_1023 h1 h2
  have hidx : (Dbl.fin pd).mul
      (toDouble (((s.length + (SIZE_MOD - 1)) % SIZE_MOD : ℕ) : ℚ)) =
      Dbl.fin (roundQ (pd * (k : ℚ))) := by
    rw [hk, hkd, dbl_mul_fin, e1]
  unfold percentileOfCopy
  simp only [hidx, dbl_toInt_fin, toInt_of_large _ e3, Option.none_bind]

/-! ## Concrete evaluations in double arithmetic -/

theorem exactSumsFrom_nat (ns : List ℕ) (acc : ℕ) (h : acc + ns.sum < 2 ^ 53) :
    exactSumsFrom (acc : ℚ) (ns.map (Nat.cast : ℕ → ℚ)) := by
  induction ns generalizing acc with
  | nil => exact trivial
  | cons n ns ih =>
    rw [List.sum_cons] at h
    have e : (acc : ℚ) + (n : ℚ) = ((acc + n : ℕ) : ℚ) := by push_cast; ring
    rw [List.map_cons]
    constructor
    · rw [e]
      exact isDouble_natCast _ (by omega)
    · rw [e]
      exact ih (acc + n) (by omega)

/-- Sums of natural numbers below `2 ^ 53` are exact in `double` arithmetic. -/
theorem exactSums_nat (ns : List ℕ) (h : ns.sum < 2 ^ 53) :
    exactSums (ns.map (Nat.cast : ℕ → ℚ)) := by
  have := exactSumsFrom_nat ns 0 (by omega)
  rw [Nat.cast_zero] at this
  exact this

theorem dbl_pinf_div (b : ℚ) (hb : 0 ≤ b) : Dbl.pinf.div (Dbl.fin b) = Dbl.pinf := by
  show (if 0 ≤ b then Dbl.pinf else Dbl.ninf) = Dbl.pinf
  rw [if_pos hb]

theorem dbl_mul_pinf (a : ℚ) (ha : 0 < a) : (Dbl.fin a).mul Dbl.pinf = Dbl.pinf := by
  show (if 0 < a then Dbl.pinf else if a < 0 then Dbl.ninf else Dbl.nan) = Dbl.pinf
  rw [if_pos ha]

theorem dbl_add_pinf (a : ℚ) : (Dbl.fin a).add Dbl.pinf = Dbl.pinf := rfl

/-- In `double` arithmetic the mean of three copies of the double nearest to 0.1 is the next
double above it (printed 0.10000000000000002): the sum of the three is a tie that rounds
upwards, and the quotient rounds upwards again. -/
theorem mean_eval_tenths :
    (Mean.feed [3602879701896397 / 36028797018963968,
        3602879701896397 / 36028797018963968,
        3602879701896397 / 36028797018963968]).eval =
      Dbl.fin (7205759403792795 / 72057594037927936) := by
  have h1 : toDouble (0 + 3602879701896397 / 36028797018963968) =
      Dbl.fin (3602879701896397 / 36028797018963968) := by
    have e : (0 + 3602879701896397 / 36028797018963968 : ℚ) =
        3602879701896397 / 36028797018963968 := by
      norm_num
    rw [e]
    exact isDouble_of_eq _ 3602879701896397 (-55) (by norm_num) (by norm_num) (by norm_num)
      (by norm_num) (by norm_num)
  have h2 : toDouble (3602879701896397 / 36028797018963968 + 3602879701896397 / 36028797018963968) =
      Dbl.fin (3602879701896397 / 18014398509481984) := by
    have e : (3602879701896397 / 36028797018963968 + 3602879701896397 / 36028797018963968 : ℚ) =
        3602879701896397 / 18014398509481984 := by
      norm_num
    rw [e]
    exact isDouble_of_eq _ 3602879701896397 (-54) (by norm_num) (by norm_num) (by norm_num)
      (by norm_num) (by norm_num)
  have h3 : toDouble (3602879701896397 / 18014398509481984 + 3602879701896397 / 36028797018963968) =
      Dbl.fin (1351079888211149 / 4503599627370496) :=
    toDouble_tie_pos _ _ (-54) 5404319552844595 (by norm_num) (by norm_num) (by norm_num)
      (by norm_num) (by norm_num) (by norm_num) (by norm_num)
  have hq : toDouble (1351079888211149 / 4503599627370496 / 3) =
      Dbl.fin (7205759403792795 / 72057594037927936) :=
    toDouble_eval_pos _ _ (-56) 7205759403792795 (by norm_num) (by norm_num) (by norm_num)
      (by norm_num) (by norm_num) (by norm_num) (by norm_num) (by norm_num)
  have hl : ((([3602879701896397 / 36028797018963968,
        3602879701896397 / 36028797018963968,
        3602879701896397 / 36028797018963968] : List ℚ).length : ℕ) : ℚ) = 3 := by
    norm_num
  rw [mean_eval_of_sum _ (by simp) (by norm_num), mean_feed_m_sum, hl]
  rw [List.foldl_cons, List.foldl_cons, List.foldl_cons, List.foldl_nil]
  rw [dbl_add_fin, h1, dbl_add_fin, h2, dbl_add_fin, h3, dbl_div_fin _ _ (by norm_num), hq]

/-- In `double` arithmetic the mean of three copies of the double nearest to 0.7 is the next
double below it (printed 0.6999999999999998). -/
theorem mean_eval_seven_tenths :
    (Mean.feed [3152519739159347 / 4503599627370496,
        3152519739159347 / 4503599627370496,
        3152519739159347 / 4503599627370496]).eval =
      Dbl.fin (6305039478318693 / 9007199254740992) := by
  have h1 : toDouble (0 + 3152519739159347 / 4503599627370496) =
      Dbl.fin (3152519739159347 / 4503599627370496) := by
    have e : (0 + 3152519739159347 / 4503599627370496 : ℚ) =
        3152519739159347 / 4503599627370496 := by
      norm_num
    rw [e]
    exact isDouble_of_eq _ 3152519739159347 (-52) (by norm_num) (by norm_num) (by norm_num)
      (by norm_num) (by norm_num)
  have h2 : toDouble (3152519739159347 / 4503599627370496 + 3152519739159347 / 4503599627370496) =
      Dbl.fin (3152519739159347 / 2251799813685248) := by
    have e : (3152519739159347 / 4503599627370496 + 3152519739159347 / 4503599627370496 : ℚ) =
        3152519739159347 / 2251799813685248 := by
      norm_num
    rw [e]
    exact isDouble_of_eq _ 3152519739159347 (-51) (by norm_num) (by norm_num) (by norm_num)
      (by norm_num) (by norm_num)
  have h3 : toDouble (3152519739159347 / 2251799813685248 + 3152519739159347 / 4503599627370496) =
      Dbl.fin (1182194902184755 / 562949953421312) :=
    toDouble_tie_pos _ _ (-51) 4728779608739020 (by norm_num) (by norm_num) (by norm_num)
      (by norm_num) (by norm_num) (by norm_num) (by norm_num)
  have hq : toDouble (1182194902184755 / 562949953421312 / 3) =
      Dbl.fin (6305039478318693 / 9007199254740992) :=
    toDouble_eval_pos _ _ (-53) 6305039478318693 (by norm_num) (by norm_num) (by norm_num)
      (by norm_num) (by norm_num) (by norm_num) (by norm_num) (by norm_num)
  have hl : ((([3152519739159347 / 4503599627370496,
        3152519739159347 / 4503599627370496,
        3152519739159347 / 4503599627370496] : List ℚ).length : ℕ) : ℚ) = 3 := by
    norm_num
  rw [mean_eval_of_sum _ (by simp) (by norm_num), mean_feed_m_sum, hl]
  rw [List.foldl_cons, List.foldl_cons, List.foldl_cons, List.foldl_nil]
  rw [dbl_add_fin, h1, dbl_add_fin, h2, dbl_add_fin, h3, dbl_div_fin _ _ (by norm_num), hq]

/-- The values `1e16`, `1`, `-1e16` in this order: the addition `1e16 + 1` is a tie that
rounds back to `1e16`, the 1 is lost and the mean returned is 0. -/
theorem mean_eval_cancel_late :
    (Mean.feed [10000000000000000, 1, -10000000000000000]).eval =
      Dbl.fin (0) := by
  have h1 : toDouble (0 + 10000000000000000) =
      Dbl.fin (10000000000000000) := by
    have e : (0 + 10000000000000000 : ℚ) =
        10000000000000000 := by
      norm_num
    rw [e]
    exact isDouble_of_eq _ 152587890625 (16) (by norm_num) (by norm_num) (by norm_num)
      (by norm_num) (by norm_num)
  have h2 : toDouble (10000000000000000 + 1) =
      Dbl.fin (10000000000000000) :=
    toDouble_tie_pos _ _ (1) 5000000000000000 (by norm_num) (by norm_num) (by norm_num)
      (by norm_num) (by norm_num) (by norm_num) (by norm_num)
  have h3 : toDouble (10000000000000000 + (-10000000000000000)) = Dbl.fin 0 := by
    have e : (10000000000000000 + (-10000000000000000) : ℚ) = 0 := by
      norm_num
    rw [e]
    exact isDouble_zero
  have hq : toDouble (0 / 3) = Dbl.fin 0 := by
    have e : (0 / 3 : ℚ) = 0 := by
      norm_num
    rw [e]
    exact isDouble_zero
  have hl : ((([10000000000000000, 1, -10000000000000000] : List ℚ).length : ℕ) : ℚ) = 3 := by
    norm_num
  rw [mean_eval_of_sum _ (by simp) (by norm_num), mean_feed_m_sum, hl]
  rw [List.foldl_cons, List.foldl_cons, List.foldl_cons, List.foldl_nil]
  rw [dbl_add_fin, h1, dbl_add_fin, h2, dbl_add_fin, h3, dbl_div_fin _ _ (by norm_num), hq]

/-- The values `1e16`, `-1e16`, `1` in this order: no addition rounds and the mean returned
is the double nearest to 1/3. -/
theorem mean_eval_cancel_early :
    (Mean.feed [10000000000000000, -10000000000000000, 1]).eval =
      Dbl.fin (6004799503160661 / 18014398509481984) := by
  have h1 : toDouble (0 + 10000000000000000) =
      Dbl.fin (10000000000000000) := by
    have e : (0 + 10000000000000000 : ℚ) =
        10000000000000000 := by
      norm_num
    rw [e]
    exact isDouble_of_eq _ 152587890625 (16) (by norm_num) (by norm_num) (by norm_num)
      (by norm_num) (by norm_num)
  have h2 : toDouble (10000000000000000 + (-10000000000000000)) = Dbl.fin 0 := by
    have e : (10000000000000000 + (-10000000000000000) : ℚ) = 0 := by
      norm_num
    rw [e]
    exact isDouble_zero
  have h3 : toDouble (0 + 1) =
      Dbl.fin (1) := by
    have e : (0 + 1 : ℚ) =
        1 := by
      norm_num
    rw [e]
    exact isDouble_of_eq _ 1 (0) (by norm_num) (by norm_num) (by norm_num)
      (by norm_num) (by norm_num)
  have hq : toDouble (1 / 3) =
      Dbl.fin (6004799503160661 / 18014398509481984) :=
    toDouble_eval_pos _ _ (-54) 6004799503160661 (by norm_num) (by norm_num) (by norm_num)
      (by norm_num) (by norm_num) (by norm_num) (by norm_num) (by norm_num)
  have hl : ((([10000000000000000, -10000000000000000, 1] : List ℚ).length : ℕ) : ℚ) = 3 := by
    norm_num
  rw [mean_eval_of_sum _ (by simp) (by norm_num), mean_feed_m_sum, hl]
  rw [List.foldl_cons, List.foldl_cons, List.foldl_cons, List.foldl_nil]
  rw [dbl_add_fin, h1, dbl_add_fin, h2, dbl_add_fin, h3, dbl_div_fin _ _ (by norm_num), hq]

/-- The mean of 10 and 20 is 15. -/
theorem mean_eval_ten_twenty :
    (Mean.feed [10, 20]).eval =
      Dbl.fin (15) := by
  have h1 : toDouble (0 + 10) =
      Dbl.fin (10) := by
    have e : (0 + 10 : ℚ) =
        10 := by
      norm_num
    rw [e]
    exact isDouble_of_eq _ 5 (1) (by norm_num) (by norm_num) (by norm_num)
      (by norm_num) (by norm_num)
  have h2 : toDouble (10 + 20) =
      Dbl.fin (30) := by
    have e : (10 + 20 : ℚ) =
        30 := by
      norm_num
    rw [e]
    exact isDouble_of_eq _ 15 (1) (by norm_num) (by norm_num) (by norm_num)
      (by norm_num) (by norm_num)
  have hq : toDouble (30 / 2) =
      Dbl.fin (15) := by
    have e : (30 / 2 : ℚ) =
        15 := by
      norm_num
    rw [e]
    exact isDouble_of_eq _ 15 (0) (by norm_num) (by norm_num) (by norm_num)
      (by norm_num) (by norm_num)
  have hl : ((([10, 20] : List ℚ).length : ℕ) : ℚ) = 2 := by
    norm_num
  rw [mean_eval_of_sum _ (by simp) (by norm_num), mean_feed_m_sum, hl]
  rw [List.foldl_cons, List.foldl_cons, List.foldl_nil]
  rw [dbl_add_fin, h1, dbl_add_fin, h2, dbl_div_fin _ _ (by norm_num), hq]

/-- The sum of two copies of `2 ^ 1023` (about 8.99e307) overflows: the running sum is
`+inf`, and so is the mean returned. -/
theorem mean_eval_overflow : (Mean.feed [(2 : ℚ) ^ 1023, (2 : ℚ) ^ 1023]).eval = Dbl.pinf := by
  have h1 : toDouble (0 + (2 : ℚ) ^ 1023) = Dbl.fin ((2 : ℚ) ^ 1023) := by
    rw [zero_add]
    exact isDouble_two_pow_1023
  have h2 : toDouble ((2 : ℚ) ^ 1023 + (2 : ℚ) ^ 1023) = Dbl.pinf :=
    toDouble_overflow _ (by norm_num)
  have hl : ((([(2 : ℚ) ^ 1023, (2 : ℚ) ^ 1023] : List ℚ).length : ℕ) : ℚ) = 2 := by
    norm_num
  rw [mean_eval_of_sum _ (by simp) (by norm_num), mean_feed_m_sum, hl]
  rw [List.foldl_cons, List.foldl_cons, List.foldl_nil, dbl_add_fin, h1, dbl_add_fin, h2,
    dbl_pinf_div _ (by norm_num)]

/-- For the values 1, 2, 3, 4, 5 `Pct90::eval` returns the double nearest to 4.6: the rank
computed is `0.9 * 4` (slightly above 3.6), the weight is its excess over 3, and the final
addition `4 + 0.6000000000000000888` is a tie that rounds to the double nearest to 4.6. -/
theorem pct90_eval_five :
    (Pct90.feed [1, 2, 3, 4, 5]).eval =
      some (Dbl.fin (2589569785738035 / 562949953421312)) := by
  have hs : ([1, 2, 3, 4, 5] : List ℚ).insertionSort (· ≤ ·) = [1, 2, 3, 4, 5] :=
    List.Sorted.insertionSort_eq (by simp [List.Sorted]; norm_num)
  have hlen : ((([1, 2, 3, 4, 5] : List ℚ).length : ℕ) : ℚ) - 1 = 4 := by
    norm_num
  have t1 : toDouble (8106479329266893 / 9007199254740992 * 4) =
      Dbl.fin (8106479329266893 / 2251799813685248) := by
    have e : (8106479329266893 / 9007199254740992 * 4 : ℚ) =
        8106479329266893 / 2251799813685248 := by
      norm_num
    rw [e]
    exact isDouble_of_eq _ 8106479329266893 (-51) (by norm_num) (by norm_num) (by norm_num)
      (by norm_num) (by norm_num)
  have t2 : toDouble (8106479329266893 / 2251799813685248 - ((3 : ℤ) : ℚ)) =
      Dbl.fin (1351079888211149 / 2251799813685248) := by
    have e : (8106479329266893 / 2251799813685248 - ((3 : ℤ) : ℚ) : ℚ) =
        1351079888211149 / 2251799813685248 := by
      norm_num
    rw [e]
    exact isDouble_of_eq _ 1351079888211149 (-51) (by norm_num) (by norm_num) (by norm_num)
      (by norm_num) (by norm_num)
  have t3 : toDouble (5 - 4) =
      Dbl.fin (1) := by
    have e : (5 - 4 : ℚ) =
        1 := by
      norm_num
    rw [e]
    exact isDouble_of_eq _ 1 (0) (by norm_num) (by norm_num) (by norm_num)
      (by norm_num) (by norm_num)
  have t4 : toDouble (1351079888211149 / 2251799813685248 * 1) =
      Dbl.fin (1351079888211149 / 2251799813685248) := by
    have e : (1351079888211149 / 2251799813685248 * 1 : ℚ) =
        1351079888211149 / 2251799813685248 := by
      norm_num
    rw [e]
    exact isDouble_of_eq _ 1351079888211149 (-51) (by norm_num) (by norm_num) (by norm_num)
      (by norm_num) (by norm_num)
  have t5 : toDouble (4 + 1351079888211149 / 2251799813685248) =
      Dbl.fin (2589569785738035 / 562949953421312) :=
    toDouble_tie_pos _ _ (-50) 5179139571476070 (by norm_num) (by norm_num) (by norm_num)
      (by norm_num) (by norm_num) (by norm_num) (by norm_num)
  rw [pct90_eval_eq _ (by simp) (by norm_num), hs,
    specPercentileDouble_interp (9 / 10) DBL_0_9 [1, 2, 3, 4, 5] 3 (4) (5)
      (by norm_num) (by norm_num) rfl rfl, hlen]
  unfold DBL_0_9
  rw [t1, dbl_sub_fin, t2, dbl_sub_fin, t3, dbl_mul_fin, t4, dbl_add_fin, t5]

/-- For the values 1, 2, 3, 4, 5 `Pct95::eval` returns the double nearest to 4.8. -/
theorem pct95_eval_five :
    (Pct95.feed [1, 2, 3, 4, 5]).eval =
      some (Dbl.fin (5404319552844595 / 1125899906842624)) := by
  have hs : ([1, 2, 3, 4, 5] : List ℚ).insertionSort (· ≤ ·) = [1, 2, 3, 4, 5] :=
    List.Sorted.insertionSort_eq (by simp [List.Sorted]; norm_num)
  have hlen : ((([1, 2, 3, 4, 5] : List ℚ).length : ℕ) : ℚ) - 1 = 4 := by
    norm_num
  have t1 : toDouble (4278419646001971 / 4503599627370496 * 4) =
      Dbl.fin (4278419646001971 / 1125899906842624) := by
    have e : (4278419646001971 / 4503599627370496 * 4 : ℚ) =
        4278419646001971 / 1125899906842624 := by
      norm_num
    rw [e]
    exact isDouble_of_eq _ 4278419646001971 (-50) (by norm_num) (by norm_num) (by norm_num)
      (by norm_num) (by norm_num)
  have t2 : toDouble (4278419646001971 / 1125899906842624 - ((3 : ℤ) : ℚ)) =
      Dbl.fin (900719925474099 / 1125899906842624) := by
    have e : (4278419646001971 / 1125899906842624 - ((3 : ℤ) : ℚ) : ℚ) =
        900719925474099 / 1125899906842624 := by
      norm_num
    rw [e]
    exact isDouble_of_eq _ 900719925474099 (-50) (by norm_num) (by norm_num) (by norm_num)
      (by norm_num) (by norm_num)
  have t3 : toDouble (5 - 4) =
      Dbl.fin (1) := by
    have e : (5 - 4 : ℚ) =
        1 := by
      norm_num
    rw [e]
    exact isDouble_of_eq _ 1 (0) (by norm_num) (by norm_num) (by norm_num)
      (by norm_num) (by norm_num)
  have t4 : toDouble (900719925474099 / 1125899906842624 * 1) =
      Dbl.fin (900719925474099 / 1125899906842624) := by
    have e : (900719925474099 / 1125899906842624 * 1 : ℚ) =
        900719925474099 / 1125899906842624 := by
      norm_num
    rw [e]
    exact isDouble_of_eq _ 900719925474099 (-50) (by norm_num) (by norm_num) (by norm_num)
      (by norm_num) (by norm_num)
  have t5 : toDouble (4 + 900719925474099 / 1125899906842624) =
      Dbl.fin (5404319552844595 / 1125899906842624) := by
    have e : (4 + 900719925474099 / 1125899906842624 : ℚ) =
        5404319552844595 / 1125899906842624 := by
      norm_num
    rw [e]
    exact isDouble_of_eq _ 5404319552844595 (-50) (by norm_num) (by norm_num) (by norm_num)
      (by norm_num) (by norm_num)
  rw [pct95_eval_eq _ (by simp) (by norm_num), hs,
    specPercentileDouble_interp (19 / 20) DBL_0_95 [1, 2, 3, 4, 5] 3 (4) (5)
      (by norm_num) (by norm_num) rfl rfl, hlen]
  unfold DBL_0_95
  rw [t1, dbl_sub_fin, t2, dbl_sub_fin, t3, dbl_mul_fin, t4, dbl_add_fin, t5]

/-- For the values 10, 20 `Pct90::eval` returns 19. -/
theorem pct90_eval_ten_twenty :
    (Pct90.feed [10, 20]).eval =
      some (Dbl.fin (19)) := by
  have hs : ([10, 20] : List ℚ).insertionSort (· ≤ ·) = [10, 20] :=
    List.Sorted.insertionSort_eq (by simp [List.Sorted]; norm_num)
  have hlen : ((([10, 20] : List ℚ).length : ℕ) : ℚ) - 1 = 1 := by
    norm_num
  have t1 : toDouble (8106479329266893 / 9007199254740992 * 1) =
      Dbl.fin (8106479329266893 / 9007199254740992) := by
    have e : (8106479329266893 / 9007199254740992 * 1 : ℚ) =
        8106479329266893 / 9007199254740992 := by
      norm_num
    rw [e]
    exact isDouble_of_eq _ 8106479329266893 (-53) (by norm_num) (by norm_num) (by norm_num)
      (by norm_num) (by norm_num)
  have t2 : toDouble (8106479329266893 / 9007199254740992 - ((0 : ℤ) : ℚ)) =
      Dbl.fin (8106479329266893 / 9007199254740992) := by
    have e : (8106479329266893 / 9007199254740992 - ((0 : ℤ) : ℚ) : ℚ) =
        8106479329266893 / 9007199254740992 := by
      norm_num
    rw [e]
    exact isDouble_of_eq _ 8106479329266893 (-53) (by norm_num) (by norm_num) (by norm_num)
      (by norm_num) (by norm_num)
  have t3 : toDouble (20 - 10) =
      Dbl.fin (10) := by
    have e : (20 - 10 : ℚ) =
        10 := by
      norm_num
    rw [e]
    exact isDouble_of_eq _ 5 (1) (by norm_num) (by norm_num) (by norm_num)
      (by norm_num) (by norm_num)
  have t4 : toDouble (8106479329266893 / 9007199254740992 * 10) =
      Dbl.fin (9) :=
    toDouble_eval_pos _ _ (-49) 5066549580791808 (by norm_num) (by norm_num) (by norm_num)
      (by norm_num) (by norm_num) (by norm_num) (by norm_num) (by norm_num)
  have t5 : toDouble (10 + 9) =
      Dbl.fin (19) := by
    have e : (10 + 9 : ℚ) =
        19 := by
      norm_num
    rw [e]
    exact isDouble_of_eq _ 19 (0) (by norm_num) (by norm_num) (by norm_num)
      (by norm_num) (by norm_num)
  rw [pct90_eval_eq _ (by simp) (by norm_num), hs,
    specPercentileDouble_interp (9 / 10) DBL_0_9 [10, 20] 0 (10) (20)
      (by norm_num) (by norm_num) rfl rfl, hlen]
  unfold DBL_0_9
  rw [t1, dbl_sub_fin, t2, dbl_sub_fin, t3, dbl_mul_fin, t4, dbl_add_fin, t5]

/-- For the values 10, 20 `Pct95::eval` returns 19.5. -/
theorem pct95_eval_ten_twenty :
    (Pct95.feed [10, 20]).eval =
      some (Dbl.fin (39 / 2)) := by
  have hs : ([10, 20] : List ℚ).insertionSort (· ≤ ·) = [10, 20] :=
    List.Sorted.insertionSort_eq (by simp [List.Sorted]; norm_num)
  have hlen : ((([10, 20] : List ℚ).length : ℕ) : ℚ) - 1 = 1 := by
    norm_num
  have t1 : toDouble (4278419646001971 / 4503599627370496 * 1) =
      Dbl.fin (4278419646001971 / 4503599627370496) := by
    have e : (4278419646001971 / 4503599627370496 * 1 : ℚ) =
        4278419646001971 / 4503599627370496 := by
      norm_num
    rw [e]
    exact isDouble_of_eq _ 4278419646001971 (-52) (by norm_num) (by norm_num) (by norm_num)
      (by norm_num) (by norm_num)
  have t2 : toDouble (4278419646001971 / 4503599627370496 - ((0 : ℤ) : ℚ)) =
      Dbl.fin (4278419646001971 / 4503599627370496) := by
    have e : (4278419646001971 / 4503599627370496 - ((0 : ℤ) : ℚ) : ℚ) =
        4278419646001971 / 4503599627370496 := by
      norm_num
    rw [e]
    exact isDouble_of_eq _ 4278419646001971 (-52) (by norm_num) (by norm_num) (by norm_num)
      (by norm_num) (by norm_num)
  have t3 : toDouble (20 - 10) =
      Dbl.fin (10) := by
    have e : (20 - 10 : ℚ) =
        10 := by
      norm_num
    rw [e]
    exact isDouble_of_eq _ 5 (1) (by norm_num) (by norm_num) (by norm_num)
      (by norm_num) (by norm_num)
  have t4 : toDouble (4278419646001971 / 4503599627370496 * 10) =
      Dbl.fin (19 / 2) :=
    toDouble_eval_pos _ _ (-49) 5348024557502464 (by norm_num) (by norm_num) (by norm_num)
      (by norm_num) (by norm_num) (by norm_num) (by norm_num) (by norm_num)
  have t5 : toDouble (10 + 19 / 2) =
      Dbl.fin (39 / 2) := by
    have e : (10 + 19 / 2 : ℚ) =
        39 / 2 := by
      norm_num
    rw [e]
    exact isDouble_of_eq _ 39 (-1) (by norm_num) (by norm_num) (by norm_num)
      (by norm_num) (by norm_num)
  rw [pct95_eval_eq _ (by simp) (by norm_num), hs,
    specPercentileDouble_interp (19 / 20) DBL_0_95 [10, 20] 0 (10) (20)
      (by norm_num) (by norm_num) rfl rfl, hlen]
  unfold DBL_0_95
  rw [t1, dbl_sub_fin, t2, dbl_sub_fin, t3, dbl_mul_fin, t4, dbl_add_fin, t5]

/-- For the values 0, 0, 3 `Pct90::eval` returns 2.4000000000000004, the double next above the
double nearest to 2.4: the rank `0.9 * 2` is rounded, and so is the product of its excess over
1 with 3. -/
theorem pct90_eval_zero_zero_three :
    (Pct90.feed [0, 0, 3]).eval =
      some (Dbl.fin (1351079888211149 / 562949953421312)) := by
  have hs : ([0, 0, 3] : List ℚ).insertionSort (· ≤ ·) = [0, 0, 3] :=
    List.Sorted.insertionSort_eq (by simp [List.Sorted])
  have hlen : ((([0, 0, 3] : List ℚ).length : ℕ) : ℚ) - 1 = 2 := by
    norm_num
  have t1 : toDouble (8106479329266893 / 9007199254740992 * 2) =
      Dbl.fin (8106479329266893 / 4503599627370496) := by
    have e : (8106479329266893 / 9007199254740992 * 2 : ℚ) =
        8106479329266893 / 4503599627370496 := by
      norm_num
    rw [e]
    exact isDouble_of_eq _ 8106479329266893 (-52) (by norm_num) (by norm_num) (by norm_num)
      (by norm_num) (by norm_num)
  have t2 : toDouble (8106479329266893 / 4503599627370496 - ((1 : ℤ) : ℚ)) =
      Dbl.fin (3602879701896397 / 4503599627370496) := by
    have e : (8106479329266893 / 4503599627370496 - ((1 : ℤ) : ℚ) : ℚ) =
        3602879701896397 / 4503599627370496 := by
      norm_num
    rw [e]
    exact isDouble_of_eq _ 3602879701896397 (-52) (by norm_num) (by norm_num) (by norm_num)
      (by norm_num) (by norm_num)
  have t3 : toDouble (3 - 0) =
      Dbl.fin (3) := by
    have e : (3 - 0 : ℚ) =
        3 := by
      norm_num
    rw [e]
    exact isDouble_of_eq _ 3 (0) (by norm_num) (by norm_num) (by norm_num)
      (by norm_num) (by norm_num)
  have t4 : toDouble (3602879701896397 / 4503599627370496 * 3) =
      Dbl.fin (1351079888211149 / 562949953421312) :=
    toDouble_tie_pos _ _ (-51) 5404319552844595 (by norm_num) (by norm_num) (by norm_num)
      (by norm_num) (by norm_num) (by norm_num) (by norm_num)
  have t5 : toDouble (0 + 1351079888211149 / 562949953421312) =
      Dbl.fin (1351079888211149 / 562949953421312) := by
    have e : (0 + 1351079888211149 / 562949953421312 : ℚ) =
        1351079888211149 / 562949953421312 := by
      norm_num
    rw [e]
    exact isDouble_of_eq _ 1351079888211149 (-49) (by norm_num) (by norm_num) (by norm_num)
      (by norm_num) (by norm_num)
  rw [pct90_eval_eq _ (by simp) (by norm_num), hs,
    specPercentileDouble_interp (9 / 10) DBL_0_9 [0, 0, 3] 1 (0) (3)
      (by norm_num) (by norm_num) rfl rfl, hlen]
  unfold DBL_0_9
  rw [t1, dbl_sub_fin, t2, dbl_sub_fin, t3, dbl_mul_fin, t4, dbl_add_fin, t5]

/-! ## Facts about the percentile of the specification -/

theorem specPercentile_replicate (p : ℚ) (hp0 : 0 ≤ p) (hp1 : p ≤ 1) (n : ℕ) (hn : 1 ≤ n)
    (c : ℚ) : specPercentile p (List.replicate n c) = some c := by
  have hn1q : (1 : ℚ) ≤ (n : ℚ) := by exact_mod_cast hn
  set r : ℚ := p * ((n : ℚ) - 1) with hr
  have hr0 : 0 ≤ r := mul_nonneg hp0 (by linarith)
  have hrn : r ≤ (n : ℚ) - 1 := by
    have : p * ((n : ℚ) - 1) ≤ 1 * ((n : ℚ) - 1) :=
      mul_le_mul_of_nonneg_right hp1 (by linarith)
    linarith
  have hf0 : (0 : ℤ) ≤ ⌊r⌋ := Int.floor_nonneg.mpr hr0
  have hfn : ⌊r⌋ < (n : ℤ) := by
    apply Int.floor_lt.mpr
    push_cast
    linarith
  have hidx0 : ⌊r⌋.toNat < n := by omega
  unfold specPercentile
  simp only [List.length_replicate, ← hr, List.getElem?_replicate, hidx0, if_true]
  by_cases hint : r = (⌊r⌋ : ℚ)
  · simp only [← hint, if_true]
  · have hlt : r < (n : ℚ) - 1 := by
      rcases lt_or_eq_of_le hrn with h | h
      · exact h
      · exfalso
        apply hint
        rw [h]
        have : ⌊(n : ℚ) - 1⌋ = (n : ℤ) - 1 := by
          have : ((n : ℚ) - 1) = (((n : ℤ) - 1 : ℤ) : ℚ) := by push_cast; ring
          rw [this, Int.floor_intCast]
        rw [this]
        push_cast
        ring
    have hidx1 : ⌊r⌋.toNat + 1 < n := by
      have : ⌊r⌋ < (n : ℤ) - 1 := by
        apply Int.floor_lt.mpr
        push_cast
        exact hlt
      omega
    simp only [hint, if_false, hidx1, if_true, Option.some_bind, sub_self, mul_zero, add_zero]

theorem specPercentile_interp (p : ℚ) (s : List ℚ) (f : ℤ) (L U : ℚ)
    (hf1 : (f : ℚ) < p * ((s.length : ℚ) - 1)) (hf2 : p * ((s.length : ℚ) - 1) < (f : ℚ) + 1)
    (hL : s[f.toNat]? = some L) (hU : s[f.toNat + 1]? = some U) :
    specPercentile p s = some (L + (p * ((s.length : ℚ) - 1) - (f : ℚ)) * (U - L)) := by
  have hfl : ⌊p * ((s.length : ℚ) - 1)⌋ = f := by
    rw [Int.floor_eq_iff]
    exact ⟨le_of_lt hf1, hf2⟩
  have hne : ¬ (p * ((s.length : ℚ) - 1) = (f : ℚ)) := by
    intro h
    linarith
  unfold specPercentile
  simp only [hfl, hne, if_false, hL, hU, Option.some_bind]

theorem pair_length (a b : ℚ) : ((([a, b] : List ℚ).length : ℕ) : ℚ) - 1 = 1 := by
  norm_num

theorem insertionSort_pair (a b : ℚ) (h : a ≤ b) : [a, b].insertionSort (· ≤ ·) = [a, b] :=
  List.Sorted.insertionSort_eq (by simp [List.Sorted, h])

/-- The percentile of the specification on two values. -/
theorem specPercentile_pair (p a b : ℚ) (hp0 : 0 < p) (hp1 : p < 1) :
    specPercentile p [a, b] = some (a + p * (b - a)) := by
  rw [specPercentile_interp p [a, b] 0 a b (by rw [pair_length]; simpa using hp0)
    (by rw [pair_length]; simpa using hp1) rfl rfl, pair_length]
  simp

/-! ## Facts about overflow and about long buffers -/

/-- On two values whose difference overflows, the interpolation in `double` arithmetic is
`+inf`. -/
theorem specPercentileDouble_pair_overflow (p pd a b : ℚ) (hp0 : 0 < p) (hp1 : p < 1)
    (hpd : isDouble pd) (hpd0 : 0 < pd) (h : (2 : ℚ) ^ 1024 ≤ b - a) :
    specPercentileDouble p pd [a, b] = some Dbl.pinf := by
  have t1 : toDouble (pd * 1) = Dbl.fin pd := by
    rw [mul_one]
    exact hpd
  have t2 : toDouble (pd - ((0 : ℤ) : ℚ)) = Dbl.fin pd := by
    rw [Int.cast_zero, sub_zero]
    exact hpd
  rw [specPercentileDouble_interp p pd [a, b] 0 a b (by rw [pair_length]; simpa using hp0)
    (by rw [pair_length]; simpa using hp1) rfl rfl, pair_length, t1, dbl_sub_fin, t2,
    dbl_sub_fin, toDouble_overflow _ h, dbl_mul_pinf _ hpd0, dbl_add_pinf]

theorem two_pow_span : (2 : ℚ) ^ 1024 ≤ (2 : ℚ) ^ 1023 - -(2 : ℚ) ^ 1023 := by
  have e : (2 : ℚ) ^ 1024 = 2 * (2 : ℚ) ^ 1023 := by
    rw [pow_succ]
    ring
  rw [e]
  linarith

theorem two_pow_neg_le : -(2 : ℚ) ^ 1023 ≤ (2 : ℚ) ^ 1023 := by
  have : (0 : ℚ) ≤ (2 : ℚ) ^ 1023 := by positivity
  linarith

theorem pair_bound (p : ℚ) (a b : ℚ) (hp : p ≤ 1) :
    p * ((([a, b] : List ℚ).length : ℚ) - 1) < 2 ^ 31 - 1 := by
  rw [pair_length]
  norm_num
  linarith

/-- For the two values `-2 ^ 1023` and `2 ^ 1023` the difference `upperValue - lowerValue`
overflows and `Pct90::eval` returns `+inf`. -/
theorem pct90_eval_overflow :
    (Pct90.feed [-(2 : ℚ) ^ 1023, (2 : ℚ) ^ 1023]).eval = some Dbl.pinf := by
  rw [pct90_eval_eq _ (List.cons_ne_nil _ _) (pair_bound _ _ _ (by norm_num)),
    insertionSort_pair _ _ two_pow_neg_le]
  exact specPercentileDouble_pair_overflow _ _ _ _ (by norm_num) (by norm_num) isDouble_DBL_0_9
    (by unfold DBL_0_9; norm_num) two_pow_span

/-- For the two values `-2 ^ 1023` and `2 ^ 1023` the difference `upperValue - lowerValue`
overflows and `Pct95::eval` returns `+inf`. -/
theorem pct95_eval_overflow :
    (Pct95.feed [-(2 : ℚ) ^ 1023, (2 : ℚ) ^ 1023]).eval = some Dbl.pinf := by
  rw [pct95_eval_eq _ (List.cons_ne_nil _ _) (pair_bound _ _ _ (by norm_num)),
    insertionSort_pair _ _ two_pow_neg_le]
  exact specPercentileDouble_pair_overflow _ _ _ _ (by norm_num) (by norm_num)
    isDouble_DBL_0_95 (by unfold DBL_0_95; norm_num) two_pow_span

/-- For 2386092944 values the rank of `Pct90` is `0.9 * 2386092943 = 2147483648.7`, which
`static_cast<int>` cannot represent: `Pct90::eval` has no defined result. -/
theorem pct90_eval_large (c : ℚ) :
    (Pct90.feed (List.replicate 2386092944 c)).eval = none := by
  unfold Pct90.eval
  rw [pct90_sortedArr_feed, percentileEval_eq]
  apply percentileOfCopy_of_large DBL_0_9 _ 2386092943
  · rw [List.length_insertionSort, List.length_replicate]
    unfold SIZE_MOD
    norm_num
  · norm_num
  · unfold DBL_0_9
    norm_num
  · unfold DBL_0_9
    norm_num

/-- For 2260509105 values the rank of `Pct95` is `0.95 * 2260509104 = 2147483648.8`, which
`static_cast<int>` cannot represent: `Pct95::eval` has no defined result. -/
theorem pct95_eval_large (c : ℚ) :
    (Pct95.feed (List.replicate 2260509105 c)).eval = none := by
  unfold Pct95.eval
  rw [pct95_sortedArr_feed, percentileEval_eq]
  apply percentileOfCopy_of_large DBL_0_95 _ 2260509104
  · rw [List.length_insertionSort, List.length_replicate]
    unfold SIZE_MOD
    norm_num
  · norm_num
  · unfold DBL_0_95
    norm_num
  · unfold DBL_0_95
    norm_num

/-- The decimal `1e999` is beyond the range of `double`. -/
theorem toDouble_1e999 : toDouble ((10 : ℚ) ^ 999) = Dbl.pinf :=
  toDouble_overflow _ (by norm_num)

theorem replicate_ne_nil (n : ℕ) (c : ℚ) (hn : 1 ≤ n) : List.replicate n c ≠ [] := by
  intro h
  have := congrArg List.length h
  rw [List.length_replicate] at this
  simp only [List.length_nil] at this
  omega

/-- The two percentiles of `n` copies of a double, within the `int` range. -/
theorem pct_eval_replicate (c : ℚ) (n : ℕ) (hc : isDouble c) (hn : 1 ≤ n)
    (hb : (19 / 20 : ℚ) * ((n : ℚ) - 1) < 2 ^ 31 - 1) :
    (Pct90.feed (List.replicate n c)).eval = some (Dbl.fin c) ∧
      (Pct95.feed (List.replicate n c)).eval = some (Dbl.fin c) := by
  have hne := replicate_ne_nil n c hn
  have hs : (List.replicate n c).insertionSort (· ≤ ·) = List.replicate n c :=
    List.Sorted.insertionSort_eq (List.pairwise_replicate.mpr (Or.inr (le_refl _)))
  have hl : (List.replicate n c).length = n := List.length_replicate n c
  have hb95 : (19 / 20 : ℚ) * (((List.replicate n c).length : ℚ) - 1) < 2 ^ 31 - 1 := by
    rw [hl]
    exact hb
  have hb90 : (9 / 10 : ℚ) * (((List.replicate n c).length : ℚ) - 1) < 2 ^ 31 - 1 := by
    rw [hl]
    exact bound_90_of_95 n hn hb
  obtain ⟨v90, v95, e90, e95, -, -, l1, l2, l3⟩ :=
    specPercentileDouble_ordered (List.replicate n c) c c (by rw [hl]; exact hn) hb95
      (List.pairwise_replicate.mpr (Or.inr (le_refl _)))
      (fun x hx => (List.eq_of_mem_replicate hx) ▸ hc)
      (fun x hx => le_of_eq (List.eq_of_mem_replicate hx).symm)
      (fun x hx => le_of_eq (List.eq_of_mem_replicate hx))
      (by rw [sub_self]; exact le_of_lt DBL_MAX_pos)
  have h90 : v90 = c := le_antisymm (le_trans l2 l3) l1
  have h95 : v95 = c := le_antisymm l3 (le_trans l1 l2)
  rw [pct90_eval_eq _ hne hb90, pct95_eval_eq _ hne hb95, hs, e90, e95, h90, h95]
  exact ⟨rfl, rfl⟩

/-! ## Facts about small inputs -/

theorem isDouble_nat (n : ℕ) (x : ℚ) (hx : (n : ℚ) = x) (hn : n < 2 ^ 53) : isDouble x := by
  rw [← hx]
  exact isDouble_natCast n hn

theorem le_DBL_MAX_of_le (x : ℚ) (h : x ≤ (2 : ℚ) ^ 1023) : x ≤ DBL_MAX :=
  le_trans h two_pow_le_DBL_MAX

theorem DBL_LOWEST_le_of_le (x : ℚ) (h : -(2 : ℚ) ^ 1023 ≤ x) : DBL_LOWEST ≤ x := by
  have := two_pow_le_DBL_MAX
  unfold DBL_LOWEST
  linarith

theorem min_feed_five : (Min.feed [1, 2, 3, 4, 5]).eval = 1 := by
  apply min_feed_eq_of _ 1 (by simp)
  · intro x hx
    simp only [List.mem_cons, List.mem_singleton, List.not_mem_nil, or_false] at hx
    rcases hx with rfl | rfl | rfl | rfl | rfl <;> norm_num
  · intro x hx
    apply le_DBL_MAX_of_le
    simp only [List.mem_cons, List.mem_singleton, List.not_mem_nil, or_false] at hx
    rcases hx with rfl | rfl | rfl | rfl | rfl <;> norm_num

theorem max_feed_five : (Max.feed [1, 2, 3, 4, 5]).eval = 5 := by
  apply max_feed_eq_of _ 5 (by simp)
  · intro x hx
    simp only [List.mem_cons, List.mem_singleton, List.not_mem_nil, or_false] at hx
    rcases hx with rfl | rfl | rfl | rfl | rfl <;> norm_num
  · intro x hx
    apply DBL_LOWEST_le_of_le
    simp only [List.mem_cons, List.mem_singleton, List.not_mem_nil, or_false] at hx
    rcases hx with rfl | rfl | rfl | rfl | rfl <;> norm_num

theorem min_feed_ten_twenty : (Min.feed [10, 20]).eval = 10 := by
  apply min_feed_eq_of _ 10 (by simp)
  · intro x hx
    simp only [List.mem_cons, List.mem_singleton, List.not_mem_nil, or_false] at hx
    rcases hx with rfl | rfl <;> norm_num
  · intro x hx
    apply le_DBL_MAX_of_le
    simp only [List.mem_cons, List.mem_singleton, List.not_mem_nil, or_false] at hx
    rcases hx with rfl | rfl <;> norm_num

theorem max_feed_ten_twenty : (Max.feed [10, 20]).eval = 20 := by
  apply max_feed_eq_of _ 20 (by simp)
  · intro x hx
    simp only [List.mem_cons, List.mem_singleton, List.not_mem_nil, or_false] at hx
    rcases hx with rfl | rfl <;> norm_num
  · intro x hx
    apply DBL_LOWEST_le_of_le
    simp only [List.mem_cons, List.mem_singleton, List.not_mem_nil, or_false] at hx
    rcases hx with rfl | rfl <;> norm_num

theorem isDouble_five (x : ℚ) (hx : x ∈ [(1 : ℚ), 2, 3, 4, 5]) : isDouble x := by
  simp only [List.mem_cons, List.mem_singleton, List.not_mem_nil, or_false] at hx
  rcases hx with rfl | rfl | rfl | rfl | rfl
  · exact isDouble_nat 1 1 (by norm_num) (by norm_num)
  · exact isDouble_nat 2 2 (by norm_num) (by norm_num)
  · exact isDouble_nat 3 3 (by norm_num) (by norm_num)
  · exact isDouble_nat 4 4 (by norm_num) (by norm_num)
  · exact isDouble_nat 5 5 (by norm_num) (by norm_num)

theorem exactSums_five : exactSums [1, 2, 3, 4, 5] := by
  have h := exactSums_nat [1, 2, 3, 4, 5] (by norm_num)
  simpa using h

theorem exactSums_swapped : exactSums [2, 1, 3, 4, 5] := by
  have h := exactSums_nat [2, 1, 3, 4, 5] (by norm_num)
  simpa using h

theorem exactSums_fives : exactSums (List.replicate 3 (5 : ℚ)) := by
  have h := exactSums_nat [5, 5, 5] (by norm_num)
  simpa using h

theorem mean_eval_five : (Mean.feed [1, 2, 3, 4, 5]).eval = Dbl.fin 3 := by
  rw [mean_eval_of_exactSums _ (by simp) (by norm_num) exactSums_five]
  have e : ([1, 2, 3, 4, 5] : List ℚ).sum / ((([1, 2, 3, 4, 5] : List ℚ).length : ℕ) : ℚ) = 3 := by
    norm_num
  rw [e]
  exact isDouble_nat 3 3 (by norm_num) (by norm_num)

theorem parse_five :
    List.Forall₂ (fun v x => toDouble v = Dbl.fin x) [(1 : ℚ), 2, 3, 4, 5] [1, 2, 3, 4, 5] :=
  List.Forall₂.cons (isDouble_nat 1 1 (by norm_num) (by norm_num))
    (List.Forall₂.cons (isDouble_nat 2 2 (by norm_num) (by norm_num))
      (List.Forall₂.cons (isDouble_nat 3 3 (by norm_num) (by norm_num))
        (List.Forall₂.cons (isDouble_nat 4 4 (by norm_num) (by norm_num))
          (List.Forall₂.cons (isDouble_nat 5 5 (by norm_num) (by norm_num))
            List.Forall₂.nil))))

theorem parse_ten_twenty :
    List.Forall₂ (fun v x => toDouble v = Dbl.fin x) [(10 : ℚ), 20] [10, 20] :=
  List.Forall₂.cons (isDouble_nat 10 10 (by norm_num) (by norm_num))
    (List.Forall₂.cons (isDouble_nat 20 20 (by norm_num) (by norm_num)) List.Forall₂.nil)

theorem parse_replicate (c : ℚ) (hc : isDouble c) (n : ℕ) :
    List.Forall₂ (fun v x => toDouble v = Dbl.fin x) (List.replicate n c)
      (List.replicate n c) := by
  induction n with
  | zero => exact List.Forall₂.nil
  | succ n ih =>
    rw [List.replicate_succ]
    exact List.Forall₂.cons hc ih

/-- C1 (amended): for every non-empty sequence of values fed through `update`, and every
ascending arrangement `sorted` of it, `Pct90::eval` returns the interpolated percentile of the
specification, evaluated in `double` arithmetic (`specPercentileDouble`), for `p = 0.9`
whenever `0.9 * (n - 1) < 2 ^ 31 - 1`, and `Pct95::eval` returns it for `p = 0.95` whenever
`0.95 * (n - 1) < 2 ^ 31 - 1`; in both cases a value is returned.  The positions read are
those of the exact rank: the rank computed in `double` has the floor of the exact rank and is
integral exactly when the exact rank is. -/
theorem percentile_eval_interpolated (xs sorted : List ℚ) (hne : xs ≠ [])
    (hperm : sorted.Perm xs) (hsorted : sorted.Sorted (· ≤ ·)) :
    ((9 / 10 : ℚ) * ((xs.length : ℚ) - 1) < 2 ^ 31 - 1 →
      (Pct90.feed xs).eval = specPercentileDouble (9 / 10) DBL_0_9 sorted ∧
        ∃ v, (Pct90.feed xs).eval = some v) ∧
    ((19 / 20 : ℚ) * ((xs.length : ℚ) - 1) < 2 ^ 31 - 1 →
      (Pct95.feed xs).eval = specPercentileDouble (19 / 20) DBL_0_95 sorted ∧
        ∃ v, (Pct95.feed xs).eval = some v) := by
  have hsort : xs.insertionSort (· ≤ ·) = sorted :=
    List.eq_of_perm_of_sorted ((List.perm_insertionSort _ xs).trans hperm.symm)
      (List.sorted_insertionSort _ xs) hsorted
  have hn : 1 ≤ sorted.length := by
    rw [hperm.length_eq]
    exact List.length_pos.mpr hne
  constructor
  · intro hb
    have h := pct90_eval_eq xs hne hb
    rw [hsort] at h
    obtain ⟨v, hv⟩ := specPercentileDouble_isSome (9 / 10) DBL_0_9 (by norm_num) (by norm_num)
      sorted hn
    exact ⟨h, v, h.trans hv⟩
  · intro hb
    have h := pct95_eval_eq xs hne hb
    rw [hsort] at h
    obtain ⟨v, hv⟩ := specPercentileDouble_isSome (19 / 20) DBL_0_95 (by norm_num)
      (by norm_num) sorted hn
    exact ⟨h, v, h.trans hv⟩

/-- Witness of C1: for the values 1, 2, 3, 4, 5 the interpolation of the specification in
`double` arithmetic is the double nearest to 4.6 for `p = 0.9` and the double nearest to 4.8
for `p = 0.95`, the values `Pct90::eval` and `Pct95::eval` return. -/
theorem percentile_eval_interpolated_witness :
    specPercentileDouble (9 / 10) DBL_0_9 [1, 2, 3, 4, 5] =
        some (Dbl.fin (2589569785738035 / 562949953421312)) ∧
      specPercentileDouble (19 / 20) DBL_0_95 [1, 2, 3, 4, 5] =
        some (Dbl.fin (5404319552844595 / 1125899906842624)) ∧
      toDouble (23 / 5) = Dbl.fin (2589569785738035 / 562949953421312) ∧
      toDouble (24 / 5) = Dbl.fin (5404319552844595 / 1125899906842624) := by
  have h := percentile_eval_interpolated [1, 2, 3, 4, 5] [1, 2, 3, 4, 5] (by simp)
    (List.Perm.refl _) (by simp [List.Sorted]; norm_num)
  refine ⟨(h.1 (by norm_num)).1.symm.trans pct90_eval_five,
    (h.2 (by norm_num)).1.symm.trans pct95_eval_five, ?_, ?_⟩
  · exact toDouble_eval_pos _ _ (-50) 5179139571476070 (by norm_num) (by norm_num)
      (by norm_num) (by norm_num) (by norm_num) (by norm_num) (by norm_num) (by norm_num)
  · exact toDouble_eval_pos _ _ (-50) 5404319552844595 (by norm_num) (by norm_num)
      (by norm_num) (by norm_num) (by norm_num) (by norm_num) (by norm_num) (by norm_num)

/-- Counterexample to C1 as stated.  For the two doubles `-2 ^ 1023` and `2 ^ 1023` the
percentile of the specification for `p = 0.9` is `0.8 * 2 ^ 1023`, but in the code
`upperValue - lowerValue` overflows and `Pct90::eval` returns `+inf`.  For the values 0, 0, 3
the percentile of the specification is 12/5, and `Pct90::eval` returns 2.4000000000000004,
which is not even the double nearest to 12/5.  For 2386092944 values, all equal to 0, the rank
`0.9 * 2386092943 = 2147483648.7` does not fit the `int` it is converted to and
`Pct90::eval` has no defined result, while the percentile of the specification is 0. -/
theorem percentile_eval_interpolated_counterexample :
    (isDouble (-(2 : ℚ) ^ 1023) ∧ isDouble ((2 : ℚ) ^ 1023) ∧
      specPercentile (9 / 10) [-(2 : ℚ) ^ 1023, (2 : ℚ) ^ 1023] =
        some (-(2 : ℚ) ^ 1023 + 9 / 10 * ((2 : ℚ) ^ 1023 - -(2 : ℚ) ^ 1023)) ∧
      (Pct90.feed [-(2 : ℚ) ^ 1023, (2 : ℚ) ^ 1023]).eval = some Dbl.pinf) ∧
    (specPercentile (9 / 10) [0, 0, 3] = some (12 / 5) ∧
      (Pct90.feed [0, 0, 3]).eval = some (Dbl.fin (1351079888211149 / 562949953421312)) ∧
      toDouble (12 / 5) = Dbl.fin (5404319552844595 / 2251799813685248) ∧
      (1351079888211149 / 562949953421312 : ℚ) ≠ 5404319552844595 / 2251799813685248) ∧
    (specPercentile (9 / 10) (List.replicate 2386092944 0) = some 0 ∧
      (Pct90.feed (List.replicate 2386092944 0)).eval = none) := by
  refine ⟨⟨isDouble_neg _ isDouble_two_pow_1023, isDouble_two_pow_1023,
    specPercentile_pair _ _ _ (by norm_num) (by norm_num), pct90_eval_overflow⟩,
    ⟨?_, pct90_eval_zero_zero_three, ?_, by norm_num⟩,
    ⟨specPercentile_replicate (9 / 10) (by norm_num) (by norm_num) _ (by decide) 0,
      pct90_eval_large 0⟩⟩
  · have hl : ((([0, 0, 3] : List ℚ).length : ℕ) : ℚ) - 1 = 2 := by norm_num
    rw [specPercentile_interp (9 / 10) [0, 0, 3] 1 0 3 (by norm_num) (by norm_num) rfl rfl, hl]
    norm_num
  · exact toDouble_eval_pos _ _ (-51) 5404319552844595 (by norm_num) (by norm_num)
      (by norm_num) (by norm_num) (by norm_num) (by norm_num) (by norm_num) (by norm_num)

/-- C2: for every non-empty sequence of `double` values (each at most
`std::numeric_limits<double>::max()`) fed to a fresh `Min` through `update`, `eval` returns
the smallest value of the sequence: it is one of the values fed and it is less than or equal
to every value fed. -/
theorem min_eval_smallest (xs : List ℚ) (hne : xs ≠ []) (hfin : ∀ x ∈ xs, x ≤ DBL_MAX) :
    (Min.feed xs).eval ∈ xs ∧ ∀ x ∈ xs, (Min.feed xs).eval ≤ x :=
  ⟨min_feed_mem xs hne hfin, min_feed_le xs⟩

/-- Witness of C2 on the values 3, 1, 2. -/
theorem min_eval_smallest_witness :
    (Min.feed [3, 1, 2]).eval ∈ [(3 : ℚ), 1, 2] ∧
      ∀ x ∈ [(3 : ℚ), 1, 2], (Min.feed [3, 1, 2]).eval ≤ x :=
  min_eval_smallest [3, 1, 2] (by simp) (by
    intro x hx
    have hpos := DBL_MAX_pos
    have hbig : (3 : ℚ) ≤ DBL_MAX := by unfold DBL_MAX; norm_num
    simp only [List.mem_cons, List.mem_singleton, List.not_mem_nil, or_false] at hx
    rcases hx with rfl | rfl | rfl <;> linarith)

/-- C3: for every non-empty sequence of `double` values (each at least
`std::numeric_limits<double>::lowest()`) fed to a fresh `Max` through `update`, `eval` returns
the largest value of the sequence: it is one of the values fed and it is greater than or equal
to every value fed. -/
theorem max_eval_largest (xs : List ℚ) (hne : xs ≠ []) (hfin : ∀ x ∈ xs, DBL_LOWEST ≤ x) :
    (Max.feed xs).eval ∈ xs ∧ ∀ x ∈ xs, x ≤ (Max.feed xs).eval :=
  ⟨max_feed_mem xs hne hfin, max_feed_ge xs⟩

/-- Witness of C3 on the values 1, 3, 2. -/
theorem max_eval_largest_witness :
    (Max.feed [1, 3, 2]).eval ∈ [(1 : ℚ), 3, 2] ∧
      ∀ x ∈ [(1 : ℚ), 3, 2], x ≤ (Max.feed [1, 3, 2]).eval :=
  max_eval_largest [1, 3, 2] (by simp) (by
    intro x hx
    have hpos := DBL_MAX_pos
    have hlow : DBL_LOWEST = -DBL_MAX := rfl
    simp only [List.mem_cons, List.mem_singleton, List.not_mem_nil, or_false] at hx
    rcases hx with rfl | rfl | rfl <;> linarith)

/-- C4 (amended): for every sequence of fewer than `2 ^ 53` values fed to a fresh `Mean`
through `update`, `eval` returns 0 when the sequence is empty and otherwise the running sum
divided by the count in `double` arithmetic, where the running sum is built by adding the
values in input order, each addition rounded to the nearest double (an overflow giving an
infinity).  When every partial sum is a double, the result is the sum of the values divided
by their count, rounded once to the nearest double; it is the exact quotient whenever that
is a double. -/
theorem mean_eval_sum_div_count (xs : List ℚ) (hlen : xs.length < 2 ^ 53) :
    (xs = [] → (Mean.feed xs).eval = 0) ∧
      (xs ≠ [] →
        (Mean.feed xs).eval =
          (xs.foldl (fun acc x => acc.add (Dbl.fin x)) (Dbl.fin 0)).div
            (Dbl.fin (xs.length : ℚ)) ∧
        (exactSums xs → (Mean.feed xs).eval = toDouble (xs.sum / (xs.length : ℚ))) ∧
        (exactSums xs → isDouble (xs.sum / (xs.length : ℚ)) →
          (Mean.feed xs).eval = Dbl.fin (xs.sum / (xs.length : ℚ)))) := by
  constructor
  · intro h
    subst h
    rfl
  · intro hne
    refine ⟨?_, fun hex => mean_eval_of_exactSums xs hne hlen hex, fun hex hq => ?_⟩
    · rw [mean_eval_of_sum xs hne hlen, mean_feed_m_sum]
    · rw [mean_eval_of_exactSums xs hne hlen hex]
      exact hq

/-- Witness of C4: the mean of 1, 2, 3, 4, 5 is 3. -/
theorem mean_eval_sum_div_count_witness : (Mean.feed [1, 2, 3, 4, 5]).eval = Dbl.fin 3 := by
  have h := ((mean_eval_sum_div_count [1, 2, 3, 4, 5] (by norm_num)).2 (by simp)).2.2
    exactSums_five
  have e : ([1, 2, 3, 4, 5] : List ℚ).sum / ((([1, 2, 3, 4, 5] : List ℚ).length : ℕ) : ℚ) = 3 := by
    norm_num
  rw [e] at h
  exact h (isDouble_nat 3 3 (by norm_num) (by norm_num))

/-- Counterexample to C4 as stated.  For three copies of the double nearest to 0.1 the sum
divided by the count is that double, but `eval` returns the next double above it (printed
0.10000000000000002), because the additions round.  For two copies of `2 ^ 1023` the sum
divided by the count is `2 ^ 1023`, but the running sum overflows and `eval` returns
`+inf`. -/
theorem mean_eval_sum_div_count_counterexample :
    (([3602879701896397 / 36028797018963968, 3602879701896397 / 36028797018963968,
        3602879701896397 / 36028797018963968] : List ℚ).sum / 3 =
        3602879701896397 / 36028797018963968 ∧
      (Mean.feed [3602879701896397 / 36028797018963968, 3602879701896397 / 36028797018963968,
        3602879701896397 / 36028797018963968]).eval =
        Dbl.fin (7205759403792795 / 72057594037927936) ∧
      (7205759403792795 / 72057594037927936 : ℚ) ≠ 3602879701896397 / 36028797018963968) ∧
    (isDouble ((2 : ℚ) ^ 1023) ∧
      ([(2 : ℚ) ^ 1023, (2 : ℚ) ^ 1023] : List ℚ).sum / 2 = (2 : ℚ) ^ 1023 ∧
      (Mean.feed [(2 : ℚ) ^ 1023, (2 : ℚ) ^ 1023]).eval = Dbl.pinf) := by
  refine ⟨⟨by norm_num, mean_eval_tenths, by norm_num⟩, isDouble_two_pow_1023, ?_,
    mean_eval_overflow⟩
  rw [List.sum_cons, List.sum_cons, List.sum_nil]
  ring

/-- C5 (amended): order invariance.  For every sequence of values and every permutation of it,
feeding the permuted sequence through `update` gives the same `eval` result as feeding the
original one for each of `Min`, `Max`, `Pct90` and `Pct95`, and the same count in `Mean`; the
result of `Mean` is the same for the two orders when in both of them every partial sum is a
double, so that no addition rounds. -/
theorem eval_order_invariant (xs ys : List ℚ) (h : xs.Perm ys) :
    (Min.feed xs).eval = (Min.feed ys).eval ∧
      (Max.feed xs).eval = (Max.feed ys).eval ∧
      (Pct90.feed xs).eval = (Pct90.feed ys).eval ∧
      (Pct95.feed xs).eval = (Pct95.feed ys).eval ∧
      (Mean.feed xs).m_count = (Mean.feed ys).m_count ∧
      (exactSums xs → exactSums ys → (Mean.feed xs).eval = (Mean.feed ys).eval) := by
  haveI : RightCommutative Min.update := ⟨min_update_right_comm⟩
  haveI : RightCommutative Max.update := ⟨max_update_right_comm⟩
  refine ⟨?_, ?_, ?_, ?_, ?_, ?_⟩
  · exact congrArg Min.eval (h.foldl_eq Min.new)
  · exact congrArg Max.eval (h.foldl_eq Max.new)
  · unfold Pct90.eval
    rw [pct90_sortedArr_feed, pct90_sortedArr_feed]
    exact percentileEval_eq_of_perm _ xs ys h
  · unfold Pct95.eval
    rw [pct95_sortedArr_feed, pct95_sortedArr_feed]
    exact percentileEval_eq_of_perm _ xs ys h
  · rw [mean_feed_count, mean_feed_count, h.length_eq]
  · intro hx hy
    unfold Mean.eval
    rw [mean_feed_count, mean_feed_count, mean_feed_sum xs hx, mean_feed_sum ys hy,
      h.length_eq, h.sum_eq]

/-- Witness of C5: the values 2, 1, 3, 4, 5 and their rearrangement 1, 2, 3, 4, 5. -/
theorem eval_order_invariant_witness :
    (Min.feed [2, 1, 3, 4, 5]).eval = (Min.feed [1, 2, 3, 4, 5]).eval ∧
      (Max.feed [2, 1, 3, 4, 5]).eval = (Max.feed [1, 2, 3, 4, 5]).eval ∧
      (Pct90.feed [2, 1, 3, 4, 5]).eval = (Pct90.feed [1, 2, 3, 4, 5]).eval ∧
      (Pct95.feed [2, 1, 3, 4, 5]).eval = (Pct95.feed [1, 2, 3, 4, 5]).eval ∧
      (Mean.feed [2, 1, 3, 4, 5]).eval = (Mean.feed [1, 2, 3, 4, 5]).eval :=
  have h := eval_order_invariant [2, 1, 3, 4, 5] [1, 2, 3, 4, 5] (List.Perm.swap 1 2 [3, 4, 5])
  ⟨h.1, h.2.1, h.2.2.1, h.2.2.2.1, h.2.2.2.2.2 exactSums_swapped exactSums_five⟩

/-- Counterexample to C5 as stated: the doubles `1e16`, `1`, `-1e16` fed in this order give
the mean 0, because `1e16 + 1` rounds back to `1e16`; fed in the order `1e16`, `-1e16`, `1`
they give the double nearest to 1/3. -/
theorem eval_order_invariant_counterexample :
    ([10000000000000000, 1, -10000000000000000] : List ℚ).Perm
        [10000000000000000, -10000000000000000, 1] ∧
      isDouble 10000000000000000 ∧ isDouble 1 ∧ isDouble (-10000000000000000) ∧
      (Mean.feed [10000000000000000, 1, -10000000000000000]).eval = Dbl.fin 0 ∧
      (Mean.feed [10000000000000000, -10000000000000000, 1]).eval =
        Dbl.fin (6004799503160661 / 18014398509481984) ∧
      (Mean.feed [10000000000000000, 1, -10000000000000000]).eval ≠
        (Mean.feed [10000000000000000, -10000000000000000, 1]).eval := by
  have hd : isDouble (10000000000000000 : ℚ) :=
    isDouble_of_eq _ 152587890625 16 (by norm_num) (by norm_num) (by norm_num) (by norm_num)
      (by norm_num)
  refine ⟨(List.Perm.swap _ _ _).cons _, hd, isDouble_nat 1 1 (by norm_num) (by norm_num),
    isDouble_neg _ hd, mean_eval_cancel_late, mean_eval_cancel_early, ?_⟩
  rw [mean_eval_cancel_late, mean_eval_cancel_early]
  intro h
  injection h with h
  norm_num at h

/-- C6: `eval` is a pure query.  For each of the five accumulators and every state, a call of
`eval` returns the value of `eval` and leaves the state unchanged, and `k` consecutive calls
without an `update` in between return `k` times the same value and leave the state unchanged.
In `Pct90::eval` and `Pct95::eval` the member `sortedArr` is copied, `std::sort` is applied to
the copy, and the result is computed from the sorted copy: after the call the member still
holds the values fed, in arrival order (a sort applied to the member itself would reorder it,
`sort_member_reorders`). -/
theorem eval_pure_query (s : IStatistics) (k : ℕ) (xs : List ℚ) (p : ℚ) :
    s.evalCall = (s.eval, s) ∧
      s.evalRepeat k = (List.replicate k s.eval, s) ∧
      percentileCall p xs = (percentileOfCopy p (xs.insertionSort (· ≤ ·)), xs) ∧
      ((⟨xs, xs⟩ : EvalFrame).sort VectorName.sortedArrCopy).sortedArr = xs ∧
      (IStatistics.pct90 (Pct90.feed xs)).evalCall.2 = IStatistics.pct90 ⟨xs⟩ ∧
      (IStatistics.pct95 (Pct95.feed xs)).evalCall.2 = IStatistics.pct95 ⟨xs⟩ := by
  have hcall : ∀ t : IStatistics, t.evalCall = (t.eval, t) := by
    intro t
    cases t <;> rfl
  refine ⟨hcall s, ?_, rfl, rfl, ?_, ?_⟩
  · induction k with
    | zero => rfl
    | succ k ih =>
      unfold IStatistics.evalRepeat
      simp only [hcall, ih, List.replicate_succ]
  · rw [hcall]
    have h := pct90_sortedArr_feed xs
    cases hf : Pct90.feed xs
    rw [hf] at h
    simp only at h
    rw [h]
  · rw [hcall]
    have h := pct95_sortedArr_feed xs
    cases hf : Pct95.feed xs
    rw [hf] at h
    simp only at h
    rw [h]

/-- C7 (amended): zero-variance case.  For every `double` value `c` and every `n ≥ 1` with
`0.95 * (n - 1) < 2 ^ 31 - 1`, after feeding `n` copies of `c` the statistics `min`, `max`,
`Pct90` and `Pct95` evaluate to `c`; `mean` evaluates to `c` when every partial sum
`c, 2c, ..., nc` is a double, so that no addition rounds. -/
theorem zero_variance (c : ℚ) (n : ℕ) (hc : isDouble c) (hn : 1 ≤ n)
    (hb : (19 / 20 : ℚ) * ((n : ℚ) - 1) < 2 ^ 31 - 1) :
    (Min.feed (List.replicate n c)).eval = c ∧
      (Max.feed (List.replicate n c)).eval = c ∧
      (Pct90.feed (List.replicate n c)).eval = some (Dbl.fin c) ∧
      (Pct95.feed (List.replicate n c)).eval = some (Dbl.fin c) ∧
      (exactSums (List.replicate n c) → (Mean.feed (List.replicate n c)).eval = Dbl.fin c) :=
  ⟨min_feed_replicate c n hn (isDouble_range c hc).2,
    max_feed_replicate c n hn (isDouble_range c hc).1,
    (pct_eval_replicate c n hc hn hb).1, (pct_eval_replicate c n hc hn hb).2,
    fun hex => mean_feed_replicate c n hc hn (length_lt_of_bound n hb) hex⟩

/-- Witness of C7: the input 5, 5, 5 gives 5 for all five statistics. -/
theorem zero_variance_witness :
    (Min.feed (List.replicate 3 5)).eval = 5 ∧
      (Max.feed (List.replicate 3 5)).eval = 5 ∧
      (Pct90.feed (List.replicate 3 5)).eval = some (Dbl.fin 5) ∧
      (Pct95.feed (List.replicate 3 5)).eval = some (Dbl.fin 5) ∧
      (Mean.feed (List.replicate 3 5)).eval = Dbl.fin 5 :=
  have h := zero_variance 5 3 (isDouble_nat 5 5 (by norm_num) (by norm_num)) (by norm_num)
    (by norm_num)
  ⟨h.1, h.2.1, h.2.2.1, h.2.2.2.1, h.2.2.2.2 exactSums_fives⟩

/-- Counterexample to C7 as stated.  For three copies of the double `c` nearest to 0.1 the
mean returned is the next double above `c`, not `c`.  For 2260509105 copies of 5 the rank of
`Pct95` is `0.95 * 2260509104 = 2147483648.8`, which `static_cast<int>` cannot represent, so
`Pct95::eval` has no defined result instead of returning 5. -/
theorem zero_variance_counterexample :
    (isDouble (3602879701896397 / 36028797018963968) ∧
      (Mean.feed (List.replicate 3 (3602879701896397 / 36028797018963968))).eval =
        Dbl.fin (7205759403792795 / 72057594037927936) ∧
      (Mean.feed (List.replicate 3 (3602879701896397 / 36028797018963968))).eval ≠
        Dbl.fin (3602879701896397 / 36028797018963968)) ∧
    (Pct95.feed (List.replicate 2260509105 5)).eval = none := by
  have hm : (Mean.feed (List.replicate 3 (3602879701896397 / 36028797018963968))).eval =
      Dbl.fin (7205759403792795 / 72057594037927936) := mean_eval_tenths
  refine ⟨⟨isDouble_of_eq _ 3602879701896397 (-55) (by norm_num) (by norm_num) (by norm_num)
    (by norm_num) (by norm_num), hm, ?_⟩, pct95_eval_large 5⟩
  rw [hm]
  intro h
  injection h with h
  norm_num at h

/-- C8, the code at a failing input: on the input `10 20 -` that ends right after the sign,
the scan of the malformed last token runs into the end of the input, `eofbit` is set together
with `failbit`, the test `!std::cin.eof() && !std::cin.good()` fails, and the driver writes
the five statistics of 10 and 20 and returns 0 instead of writing `Invalid input data` and
returning 1. -/
theorem main_invalid_input :
    main [Token.num 10 false, Token.num 20 false, Token.bad true] =
      Outcome.exit 0
        [⟨"min", Dbl.fin 10⟩, ⟨"max", Dbl.fin 20⟩, ⟨"mean", Dbl.fin 15⟩,
          ⟨"Pct90", Dbl.fin 19⟩, ⟨"Pct95", Dbl.fin (39 / 2)⟩] [] := by
  have h := main_malformed_at_end [10, 20] [10, 20] parse_ten_twenty []
  have e : ([10, 20] : List ℚ).map (fun v => Token.num v false) ++ [Token.bad true] =
      [Token.num 10 false, Token.num 20 false, Token.bad true] := rfl
  rw [e] at h
  rw [h, report_five _ _ _ _ _ _ _ pct90_eval_ten_twenty pct95_eval_ten_twenty,
    min_feed_ten_twenty, max_feed_ten_twenty, mean_eval_ten_twenty]

/-- C9 (amended): for every input of one or more numeric tokens, each within the range of
`double`, followed by the end of the input, with `n` tokens and
`0.95 * (n - 1) < 2 ^ 31 - 1`, the driver exits with code 0, writes nothing to standard
error and writes exactly five lines, in the order `min`, `max`, `mean`, `Pct90`, `Pct95`,
each one the name and the value `eval` returns for that statistic after it was updated with
the `double` value of every token in input order. -/
theorem main_reports (vs xs : List ℚ) (lastAtEof : Bool) (hne : vs ≠ [])
    (hparse : List.Forall₂ (fun v x => toDouble v = Dbl.fin x) vs xs)
    (hb : (19 / 20 : ℚ) * ((vs.length : ℚ) - 1) < 2 ^ 31 - 1) :
    ∃ v90 v95, (Pct90.feed xs).eval = some v90 ∧ (Pct95.feed xs).eval = some v95 ∧
      main (numericInput vs lastAtEof) =
        Outcome.exit 0
          [⟨"min", (Min.feed xs).eval⟩, ⟨"max", (Max.feed xs).eval⟩,
            ⟨"mean", (Mean.feed xs).eval⟩, ⟨"Pct90", v90⟩, ⟨"Pct95", v95⟩] [] := by
  have hl : vs.length = xs.length := hparse.length_eq
  have hxne : xs ≠ [] := by
    intro h
    rw [h] at hl
    exact hne (List.length_eq_zero.mp hl)
  rw [hl] at hb
  have hn1 : 1 ≤ xs.length := List.length_pos.mpr hxne
  have hb90 := bound_90_of_95 xs.length hn1 hb
  have hsn : 1 ≤ (xs.insertionSort (· ≤ ·)).length := by
    rw [List.length_insertionSort]
    exact hn1
  obtain ⟨v90, h90⟩ := specPercentileDouble_isSome (9 / 10) DBL_0_9 (by norm_num) (by norm_num)
    (xs.insertionSort (· ≤ ·)) hsn
  obtain ⟨v95, h95⟩ := specPercentileDouble_isSome (19 / 20) DBL_0_95 (by norm_num)
    (by norm_num) (xs.insertionSort (· ≤ ·)) hsn
  have e90 : (Pct90.feed xs).eval = some v90 := (pct90_eval_eq xs hxne hb90).trans h90
  have e95 : (Pct95.feed xs).eval = some v95 := (pct95_eval_eq xs hxne hb).trans h95
  refine ⟨v90, v95, e90, e95, ?_⟩
  rw [main_numericInput vs xs hparse, report_five _ _ _ _ _ _ _ e90 e95]

/-- Witness of C9: on the input `1 2 3 4 5` the driver returns 0 having written the five
lines with the values 1, 5, 3, the double nearest to 4.6 and the double nearest to 4.8. -/
theorem main_reports_witness :
    main [Token.num 1 false, Token.num 2 false, Token.num 3 false, Token.num 4 false,
        Token.num 5 false] =
      Outcome.exit 0
        [⟨"min", Dbl.fin 1⟩, ⟨"max", Dbl.fin 5⟩, ⟨"mean", Dbl.fin 3⟩,
          ⟨"Pct90", Dbl.fin (2589569785738035 / 562949953421312)⟩,
          ⟨"Pct95", Dbl.fin (5404319552844595 / 1125899906842624)⟩] [] := by
  obtain ⟨v90, v95, e90, e95, h⟩ := main_reports [1, 2, 3, 4, 5] [1, 2, 3, 4, 5] false (by simp)
    parse_five (by norm_num)
  have e : numericInput [1, 2, 3, 4, 5] false =
      [Token.num 1 false, Token.num 2 false, Token.num 3 false, Token.num 4 false,
        Token.num 5 false] := rfl
  rw [e] at h
  rw [pct90_eval_five] at e90
  rw [pct95_eval_five] at e95
  injection e90 with e90
  injection e95 with e95
  rw [h, ← e90, ← e95, min_feed_five, max_feed_five, mean_eval_five]

/-- Counterexample to C9 as stated.  On the input `1e999`, a numeric token beyond the range
of `double`, the extraction fails and the driver writes `Invalid input data` and returns 1.
On 2386092944 numeric tokens of value 1 the driver writes the lines of `min`, `max` and
`mean` and then calls `Pct90::eval`, whose rank `0.9 * 2386092943 = 2147483648.7` does not
fit an `int`: the run has undefined behaviour instead of writing five lines and returning
0. -/
theorem main_reports_counterexample :
    main [Token.num ((10 : ℚ) ^ 999) false] = Outcome.exit 1 [] ["Invalid input data\n"] ∧
      main (numericInput (List.replicate 2386092944 1) false) =
        Outcome.undefined [⟨"min", Dbl.fin 1⟩, ⟨"max", Dbl.fin 1⟩, ⟨"mean", Dbl.fin 1⟩] := by
  have hone : isDouble (1 : ℚ) := isDouble_nat 1 1 (by norm_num) (by norm_num)
  constructor
  · exact main_of_failure _ _ (readLoop_num_overflow _ _ _ _ toDouble_1e999)
  · have hmin := min_feed_replicate 1 2386092944 (by norm_num) (isDouble_range 1 hone).2
    have hmax := max_feed_replicate 1 2386092944 (by norm_num) (isDouble_range 1 hone).1
    have hmean := mean_feed_replicate 1 2386092944 hone (by norm_num) (by norm_num)
      (exactSums_replicate_one _ (by norm_num))
    rw [main_numericInput _ _ (parse_replicate 1 hone 2386092944), report_three,
      report_cons_none _ _ _ ((eval_pct90 _).trans (pct90_eval_large 1)), hmin, hmax, hmean]

/-- C10, the code at the failing input: on empty input the driver writes the lines of `min`
(the initial `DBL_MAX`), `max` (the initial `DBL_LOWEST`) and `mean` (0) and then calls
`Pct90::eval` on the empty buffer, where `size() - 1` wraps to `2 ^ 64 - 1` and the rank
`0.9 * (2 ^ 64 - 1)` does not fit an `int`: the run has undefined behaviour and does not
reach `return 0`. -/
theorem main_empty_input :
    main [] = Outcome.undefined [⟨"min", DBL_MAX⟩, ⟨"max", DBL_LOWEST⟩, ⟨"mean", 0⟩] := by
  rw [main_nil, report_three, report_cons_none _ _ _ ((eval_pct90 _).trans pct90_eval_empty)]
  rfl

/-! ## Further claims -/

/-- C11 (amended): a freshly created `Min` holds `std::numeric_limits<double>::max()` and a
freshly created `Max` holds `std::numeric_limits<double>::lowest()`; `eval` before any
`update` returns these values, which are finite doubles that bound every finite double,
and they are the values of the `min` and `max` lines written when no input is given. -/
theorem fresh_min_max :
    Min.new.eval = DBL_MAX ∧ Max.new.eval = DBL_LOWEST ∧
      isFinite Min.new.eval ∧ isFinite Max.new.eval ∧
      (∀ y, isFinite y → y ≤ Min.new.eval ∧ Max.new.eval ≤ y) ∧
      main [] =
        Outcome.undefined [⟨"min", Min.new.eval⟩, ⟨"max", Max.new.eval⟩, ⟨"mean", 0⟩] := by
  refine ⟨rfl, rfl, DBL_MAX_finite, DBL_LOWEST_finite, fun y hy => ⟨hy.2, hy.1⟩, ?_⟩
  rw [main_nil, report_three, report_cons_none _ _ _ ((eval_pct90 _).trans pct90_eval_empty)]
  rfl

/-- Witness of C11: the finite double 0 lies between the initial values of `Max` and `Min`. -/
theorem fresh_min_max_witness : (0 : ℚ) ≤ Min.new.eval ∧ Max.new.eval ≤ 0 :=
  fresh_min_max.2.2.2.2.1 0 (by
    have h := DBL_MAX_pos
    unfold isFinite DBL_LOWEST
    constructor <;> linarith)

/-- Counterexample to C11 as stated: the value a fresh `Min` holds is not `+∞` and the value a
fresh `Max` holds is not `−∞`, since each of them is itself a finite double. -/
theorem fresh_min_max_counterexample :
    ¬ isPlusInfinity Min.new.eval ∧ ¬ isMinusInfinity Max.new.eval := by
  constructor
  · intro h
    exact lt_irrefl _ (h DBL_MAX DBL_MAX_finite)
  · intro h
    exact lt_irrefl _ (h DBL_LOWEST DBL_LOWEST_finite)

/-- C12: for the empty buffer (no `update` called) `Pct90::eval` and `Pct95::eval` do not
return a value: the rank computed from `size() - 1` does not fit an `int`, and whatever index
the conversion yields, the subscript into the sorted copy of the empty buffer is out of
bounds. -/
theorem percentile_eval_empty (i : ℤ) :
    (Pct90.feed []).eval = none ∧ (Pct95.feed []).eval = none ∧
      subscript ((Pct90.feed []).sortedArr.insertionSort (· ≤ ·)) i = none ∧
      subscript ((Pct95.feed []).sortedArr.insertionSort (· ≤ ·)) i = none := by
  refine ⟨pct90_eval_empty, pct95_eval_empty, ?_, ?_⟩
  · rw [pct90_sortedArr_feed]
    exact subscript_nil i
  · rw [pct95_sortedArr_feed]
    exact subscript_nil i

/-- C17: monotonicity of the running extremes.  For every state and every value `x`,
`Min::update` stores the smaller of the old value and `x`, so it never increases the stored
minimum, and `Max::update` stores the larger of the old value and `x`, so it never decreases
the stored maximum; an `x` that is not strictly smaller (for `Min`) or not strictly larger
(for `Max`) leaves the state unchanged. -/
theorem update_monotone (a : Min) (b : Max) (x : ℚ) :
    (a.update x).eval = min a.eval x ∧ (a.update x).eval ≤ a.eval ∧
      (¬ x < a.eval → a.update x = a) ∧
      (b.update x).eval = max b.eval x ∧ b.eval ≤ (b.update x).eval ∧
      (¬ x > b.eval → b.update x = b) := by
  refine ⟨min_update_eq a x, ?_, ?_, max_update_eq b x, ?_, ?_⟩
  · have h : (a.update x).eval = min a.eval x := min_update_eq a x
    rw [h]
    exact min_le_left _ _
  · intro h
    unfold Min.update
    exact if_neg h
  · have h : (b.update x).eval = max b.eval x := max_update_eq b x
    rw [h]
    exact le_max_left _ _
  · intro h
    unfold Max.update
    exact if_neg h

/-- Witness of C17: updating a `Min` that holds 2 and a `Max` that holds 2 with the value 2,
which is neither strictly smaller nor strictly larger, leaves both unchanged. -/
theorem update_monotone_witness :
    (Min.mk 2).update 2 = Min.mk 2 ∧ (Max.mk 2).update 2 = Max.mk 2 :=
  ⟨(update_monotone ⟨2⟩ ⟨2⟩ 2).2.2.1 (by simp [Min.eval]),
    (update_monotone ⟨2⟩ ⟨2⟩ 2).2.2.2.2.2 (by simp [Max.eval])⟩

/-- C16 (amended): for every non-empty sequence of fewer than `2 ^ 53` doubles whose partial
sums are all doubles, so that no addition to the running sum rounds, the mean returned by
`Mean::eval` is a double that lies between the minimum returned by `Min::eval` and the
maximum returned by `Max::eval` of the same sequence. -/
theorem mean_between_min_max (xs : List ℚ) (hne : xs ≠ []) (hlen : xs.length < 2 ^ 53)
    (hd : ∀ x ∈ xs, isDouble x) (hex : exactSums xs) :
    ∃ m : ℚ, (Mean.feed xs).eval = Dbl.fin m ∧ isDouble m ∧
      (Min.feed xs).eval ≤ m ∧ m ≤ (Max.feed xs).eval :=
  ⟨_, mean_between xs hne hlen hd hex⟩

/-- Witness of C16 on the values 1, 2, 3, 4, 5. -/
theorem mean_between_min_max_witness :
    ∃ m : ℚ, (Mean.feed [1, 2, 3, 4, 5]).eval = Dbl.fin m ∧ isDouble m ∧
      (Min.feed [1, 2, 3, 4, 5]).eval ≤ m ∧ m ≤ (Max.feed [1, 2, 3, 4, 5]).eval :=
  mean_between_min_max [1, 2, 3, 4, 5] (by simp) (by norm_num) isDouble_five exactSums_five

/-- Counterexample to C16 as stated.  For three copies of the double nearest to 0.1 the
maximum is that double and the mean returned is the next double above it.  For three copies
of the double nearest to 0.7 the minimum is that double and the mean returned is the next
double below it.  For two copies of `2 ^ 1023` the maximum is `2 ^ 1023` and the mean
returned is `+inf`. -/
theorem mean_between_min_max_counterexample :
    ((Max.feed (List.replicate 3 (3602879701896397 / 36028797018963968))).eval =
        3602879701896397 / 36028797018963968 ∧
      (Mean.feed (List.replicate 3 (3602879701896397 / 36028797018963968))).eval =
        Dbl.fin (7205759403792795 / 72057594037927936) ∧
      ¬ (7205759403792795 / 72057594037927936 : ℚ) ≤
        (Max.feed (List.replicate 3 (3602879701896397 / 36028797018963968))).eval) ∧
    ((Min.feed (List.replicate 3 (3152519739159347 / 4503599627370496))).eval =
        3152519739159347 / 4503599627370496 ∧
      (Mean.feed (List.replicate 3 (3152519739159347 / 4503599627370496))).eval =
        Dbl.fin (6305039478318693 / 9007199254740992) ∧
      ¬ (Min.feed (List.replicate 3 (3152519739159347 / 4503599627370496))).eval ≤
        (6305039478318693 / 9007199254740992 : ℚ)) ∧
    ((Max.feed (List.replicate 2 ((2 : ℚ) ^ 1023))).eval = (2 : ℚ) ^ 1023 ∧
      (Mean.feed (List.replicate 2 ((2 : ℚ) ^ 1023))).eval = Dbl.pinf) := by
  have hd : isDouble (3602879701896397 / 36028797018963968) :=
    isDouble_of_eq _ 3602879701896397 (-55) (by norm_num) (by norm_num) (by norm_num)
      (by norm_num) (by norm_num)
  have hd7 : isDouble (3152519739159347 / 4503599627370496) :=
    isDouble_of_eq _ 3152519739159347 (-52) (by norm_num) (by norm_num) (by norm_num)
      (by norm_num) (by norm_num)
  have hmax := max_feed_replicate (3602879701896397 / 36028797018963968) 3 (by norm_num)
    (isDouble_range _ hd).1
  have hmin := min_feed_replicate (3152519739159347 / 4503599627370496) 3 (by norm_num)
    (isDouble_range _ hd7).2
  refine ⟨⟨hmax, mean_eval_tenths, ?_⟩, ⟨hmin, mean_eval_seven_tenths, ?_⟩,
    max_feed_replicate _ 2 (by norm_num) (isDouble_range _ isDouble_two_pow_1023).1,
    mean_eval_overflow⟩
  · rw [hmax]
    norm_num
  · rw [hmin]
    norm_num

/-- C14 (amended): for every non-empty sequence of `n` doubles with
`0.95 * (n - 1) < 2 ^ 31 - 1` in which no two values differ by more than `DBL_MAX`, both
percentiles are returned, they are finite, and the reported statistics are ordered
`min ≤ Pct90 ≤ Pct95 ≤ max`: each percentile lies between the smallest and the largest value
fed, and the 95th percentile is not below the 90th. -/
theorem percentiles_ordered (xs : List ℚ) (hne : xs ≠ []) (hd : ∀ x ∈ xs, isDouble x)
    (hb : (19 / 20 : ℚ) * ((xs.length : ℚ) - 1) < 2 ^ 31 - 1)
    (hspan : ∀ x ∈ xs, ∀ y ∈ xs, y - x ≤ DBL_MAX) :
    ∃ v90 v95 : ℚ, (Pct90.feed xs).eval = some (Dbl.fin v90) ∧
      (Pct95.feed xs).eval = some (Dbl.fin v95) ∧
      (Min.feed xs).eval ≤ v90 ∧ v90 ≤ v95 ∧ v95 ≤ (Max.feed xs).eval := by
  have hn1 : 1 ≤ xs.length := List.length_pos.mpr hne
  have hperm := List.perm_insertionSort (· ≤ ·) xs
  have hsorted := List.sorted_insertionSort (· ≤ ·) xs
  have hsl : (xs.insertionSort (· ≤ ·)).length = xs.length := List.length_insertionSort _ xs
  have hmin := min_feed_mem xs hne (fun x hx => (isDouble_range x (hd x hx)).2)
  have hmax := max_feed_mem xs hne (fun x hx => (isDouble_range x (hd x hx)).1)
  obtain ⟨v90, v95, e90, e95, -, -, l1, l2, l3⟩ :=
    specPercentileDouble_ordered (xs.insertionSort (· ≤ ·)) (Min.feed xs).eval
      (Max.feed xs).eval (by rw [hsl]; exact hn1) (by rw [hsl]; exact hb) hsorted
      (fun x hx => hd x (hperm.mem_iff.mp hx))
      (fun x hx => min_feed_le xs x (hperm.mem_iff.mp hx))
      (fun x hx => max_feed_ge xs x (hperm.mem_iff.mp hx))
      (hspan _ hmin _ hmax)
  exact ⟨v90, v95, (pct90_eval_eq xs hne (bound_90_of_95 _ hn1 hb)).trans e90,
    (pct95_eval_eq xs hne hb).trans e95, l1, l2, l3⟩

/-- Witness of C14 on the values 1, 2, 3, 4, 5. -/
theorem percentiles_ordered_witness :
    ∃ v90 v95 : ℚ, (Pct90.feed [1, 2, 3, 4, 5]).eval = some (Dbl.fin v90) ∧
      (Pct95.feed [1, 2, 3, 4, 5]).eval = some (Dbl.fin v95) ∧
      (Min.feed [1, 2, 3, 4, 5]).eval ≤ v90 ∧ v90 ≤ v95 ∧ v95 ≤ (Max.feed [1, 2, 3, 4, 5]).eval :=
  percentiles_ordered [1, 2, 3, 4, 5] (by simp) isDouble_five (by norm_num) (by
    intro x hx y hy
    have h1 := min_feed_le _ x hx
    have h2 := max_feed_ge _ y hy
    rw [min_feed_five] at h1
    rw [max_feed_five] at h2
    have h3 : (4 : ℚ) ≤ DBL_MAX := le_DBL_MAX_of_le 4 (by norm_num)
    linarith)

/-- Counterexample to C14 as stated.  For the two doubles `-2 ^ 1023` and `2 ^ 1023` the
maximum is `2 ^ 1023`, but `upperValue - lowerValue` overflows and both `Pct90::eval` and
`Pct95::eval` return `+inf`, above every double.  For 2260509105 values, all equal to 7, the
rank of `Pct95` is `0.95 * 2260509104 = 2147483648.8`, its conversion to `int` is undefined,
and `Pct95::eval` returns no value that could be ordered between `Pct90` and `max`. -/
theorem percentiles_ordered_counterexample :
    (isDouble (-(2 : ℚ) ^ 1023) ∧ isDouble ((2 : ℚ) ^ 1023) ∧
      (Max.feed [-(2 : ℚ) ^ 1023, (2 : ℚ) ^ 1023]).eval = (2 : ℚ) ^ 1023 ∧
      (Pct90.feed [-(2 : ℚ) ^ 1023, (2 : ℚ) ^ 1023]).eval = some Dbl.pinf ∧
      (Pct95.feed [-(2 : ℚ) ^ 1023, (2 : ℚ) ^ 1023]).eval = some Dbl.pinf) ∧
    (List.replicate 2260509105 (7 : ℚ) ≠ [] ∧
      (Pct95.feed (List.replicate 2260509105 7)).eval = none) := by
  refine ⟨⟨isDouble_neg _ isDouble_two_pow_1023, isDouble_two_pow_1023, ?_,
    pct90_eval_overflow, pct95_eval_overflow⟩, replicate_ne_nil _ _ (by norm_num),
    pct95_eval_large 7⟩
  apply max_feed_eq_of _ _ (by simp)
  · intro x hx
    simp only [List.mem_cons, List.mem_singleton, List.not_mem_nil, or_false] at hx
    rcases hx with rfl | rfl
    · exact two_pow_neg_le
    · exact le_refl _
  · intro x hx
    apply DBL_LOWEST_le_of_le
    simp only [List.mem_cons, List.mem_singleton, List.not_mem_nil, or_false] at hx
    rcases hx with rfl | rfl
    · exact le_refl _
    · exact two_pow_neg_le

end Statistics
